import Mathlib

/-!
# Adiak: type-string parser and value marshaling (`adiak.c`)

A shallow embedding of the type-grammar parser (`find_end_brace`, `parse_typestr`,
`parse_typestr_helper`), of the interned base-type table (`adiak_get_basetype`) and of the
marshaling engine (`copy_value`) of `adiak.c`, followed by theorems about them.

Conventions of the embedding.

* A C string is a `List Char`; the terminating NUL is implicit: reading at or past the end of
  the list yields NUL (`char_at`), and `strlen` stops at the first NUL.
* Indices into the type string (`int` in C) are `Nat`; strings are assumed shorter than `INT_MAX`.
* The `va_list` is the list of the `int` arguments not yet consumed.  `va_arg` on an empty list
  is undefined behaviour in C and is reported as `Run.undef`.
* A pointer to a descriptor is modelled together with its pointee: either one of the eleven
  static objects `base_long .. base_path` (`adiak_datatype_t.static`), or a `malloc`ed node with
  its fields (`adiak_datatype_t.heap`).  `NULL` is `Option.none`.
* Recursion of `parse_typestr_helper` is bounded by a fuel argument; `parse_typestr` supplies
  `strlen typestr + 1`, which is proved sufficient (`parse_typestr_helper_fuel`).
* The `int`s of the loop of `copy_value` (`bytes_read`, `i`, `type_index`) are integers with an
  explicit range check: an addition whose result is outside `INT_MIN .. INT_MAX` is undefined
  behaviour in C and is reported as `Run.undef` (`int_overflows`).
-/

namespace Adiak

/-! ## Data model -/

/-- Modelled from the spec: the enum `adiak_type_t` is declared in `adiak.h`; its enumerators are
the type tags of the spec, in the order of the spec, `adiak_type_unset` being the value `0`
that `memset` leaves in a freshly zeroed descriptor. -/
inductive adiak_type_t
  | adiak_type_unset
  | adiak_long
  | adiak_ulong
  | adiak_int
  | adiak_uint
  | adiak_double
  | adiak_date
  | adiak_timeval
  | adiak_version
  | adiak_string
  | adiak_catstring
  | adiak_path
  | adiak_range
  | adiak_set
  | adiak_list
  | adiak_tuple
  deriving DecidableEq, Repr

/-- Modelled from the spec: the enum `adiak_numerical_t` is declared in `adiak.h`;
`adiak_numerical_unset` is the value `0`. -/
inductive adiak_numerical_t
  | adiak_numerical_unset
  | adiak_categorical
  | adiak_ordinal
  | adiak_interval
  | adiak_rational
  deriving DecidableEq, Repr

open adiak_type_t adiak_numerical_t

/-- The eleven static descriptor objects `base_long .. base_path` of `adiak.c` (lines 31-41). -/
inductive base_object
  | base_long
  | base_ulong
  | base_int
  | base_uint
  | base_double
  | base_date
  | base_timeval
  | base_version
  | base_string
  | base_catstring
  | base_path
  deriving DecidableEq, Repr

open base_object (base_long base_ulong base_int base_uint base_double base_date base_timeval
  base_version base_string base_catstring base_path)

/-- First field of the initialiser of each static object. -/
def base_object.dtype : base_object → adiak_type_t
  | base_long => adiak_long
  | base_ulong => adiak_ulong
  | base_int => adiak_int
  | base_uint => adiak_uint
  | base_double => adiak_double
  | base_date => adiak_date
  | base_timeval => adiak_timeval
  | base_version => adiak_version
  | base_string => adiak_string
  | base_catstring => adiak_catstring
  | base_path => adiak_path

/-- Second field of the initialiser of each static object. -/
def base_object.numerical : base_object → adiak_numerical_t
  | base_long => adiak_rational
  | base_ulong => adiak_rational
  | base_int => adiak_rational
  | base_uint => adiak_rational
  | base_double => adiak_rational
  | base_date => adiak_interval
  | base_timeval => adiak_interval
  | base_version => adiak_ordinal
  | base_string => adiak_ordinal
  | base_catstring => adiak_categorical
  | base_path => adiak_categorical

/-- Modelled from the spec: the struct `adiak_datatype_t` is declared in `adiak.h`; its fields are
those of the initialisers `{ dtype, numerical, num_elements, num_subtypes, subtype }`.
A value of this type is a non-null `adiak_datatype_t *` together with what it points to:
`static b` is `&b` for one of the static objects, `heap ..` is a `malloc`ed node. -/
inductive adiak_datatype_t
  | static (b : base_object)
  | heap (dtype : adiak_type_t) (numerical : adiak_numerical_t)
      (num_elements : Int) (num_subtypes : Int) (subtype : List adiak_datatype_t)

namespace adiak_datatype_t

/-- Field `dtype`. -/
def dtype : adiak_datatype_t → adiak_type_t
  | static b => b.dtype
  | heap d _ _ _ _ => d

/-- Field `numerical`. -/
def numerical : adiak_datatype_t → adiak_numerical_t
  | static b => b.numerical
  | heap _ n _ _ _ => n

/-- Field `num_elements`. -/
def num_elements : adiak_datatype_t → Int
  | static _ => 0
  | heap _ _ n _ _ => n

/-- Field `num_subtypes`. -/
def num_subtypes : adiak_datatype_t → Int
  | static _ => 0
  | heap _ _ _ n _ => n

/-- Field `subtype`: the entries of the subtype array (`NULL` array: no entry). -/
def subtype : adiak_datatype_t → List adiak_datatype_t
  | static _ => []
  | heap _ _ _ _ s => s

end adiak_datatype_t

open adiak_datatype_t (static heap)

/-- Outcome of running a piece of C code: it returns a result, or it runs into undefined
behaviour (`va_arg` with no argument left, `memset` through a failed `malloc`, an access outside
an array), or the fuel of the embedding is exhausted. -/
inductive Run (α : Type)
  | done (a : α)
  | undef
  | fuel

/-- What a call of `parse_typestr_helper` leaves behind: the returned pointer (`none` is `NULL`),
the state of the `va_list`, and the value of `*new_typestr_start`. -/
structure parse_result where
  ret : Option adiak_datatype_t
  ap : List Int
  new_typestr_start : Nat

/-! ## Strings -/

/-- The NUL character. -/
def NUL : Char := Char.ofNat 0

/-- Read `typestr[i]`; the terminator is implicit. -/
def char_at (typestr : List Char) (i : Nat) : Char := typestr.getD i NUL

/-- C `strlen`: the index of the first NUL. -/
def strlen : List Char → Nat
  | [] => 0
  | c :: cs => if c = NUL then 0 else strlen cs + 1

/-- The condition of the two skipping loops: space, tab, newline or comma. -/
def is_separator (c : Char) : Bool :=
  c = ' ' ∨ c = '\t' ∨ c = '\n' ∨ c = ','

/-- First test of the body of `find_end_brace`. -/
def is_open (c : Char) : Bool :=
  c = '[' ∨ c = '{' ∨ c = '(' ∨ c = '<'

/-- Second test of the body of `find_end_brace`. -/
def is_close (c : Char) : Bool :=
  c = ']' ∨ c = '}' ∨ c = ')' ∨ c = '>'

/-! ## `find_end_brace` -/

/-- The `while (cur < typestr_end)` loop of `find_end_brace`; the first argument is
`typestr_end - cur`. -/
def find_end_brace_loop (typestr : List Char) (endchar : Char) : Nat → Int → Nat → Option Nat
  | 0, _, _ => none
  | n + 1, depth, cur =>
    let c := char_at typestr cur
    let depth1 := if is_open c then depth + 1 else depth
    let depth2 := if is_close c then depth1 - 1 else depth1
    if depth2 = 0 ∧ c = endchar then some cur
    else find_end_brace_loop typestr endchar n depth2 (cur + 1)

/-- `find_end_brace` (lines 297-314); `none` is the return value `-1`. -/
def find_end_brace (typestr : List Char) (endchar : Char) (typestr_start typestr_end : Nat) :
    Option Nat :=
  find_end_brace_loop typestr endchar (typestr_end - typestr_start) 0 typestr_start

/-! ## `adiak_get_basetype` -/

/-- `adiak_get_basetype` (lines 360-394). -/
def adiak_get_basetype : adiak_type_t → Option adiak_datatype_t
  | adiak_type_unset => none
  | adiak_long => some (static base_long)
  | adiak_ulong => some (static base_ulong)
  | adiak_int => some (static base_int)
  | adiak_uint => some (static base_uint)
  | adiak_double => some (static base_double)
  | adiak_date => some (static base_date)
  | adiak_timeval => some (static base_timeval)
  | adiak_version => some (static base_version)
  | adiak_string => some (static base_string)
  | adiak_catstring => some (static base_catstring)
  | adiak_path => some (static base_path)
  | adiak_range => none
  | adiak_set => none
  | adiak_list => none
  | adiak_tuple => none

/-! ## `parse_typestr_helper` -/

/-- The separator-skipping `while` loop of `parse_typestr_helper` (lines 472-473); the first
argument bounds the number of iterations by the characters left before the terminator. -/
def skip_loop (typestr : List Char) : Nat → Nat → Nat
  | 0, cur => cur
  | n + 1, cur => if is_separator (char_at typestr cur) then skip_loop typestr n (cur + 1) else cur

/-- Position of the first character at or after `cur` that is not a separator. -/
def skip_separators (typestr : List Char) (cur : Nat) : Nat :=
  skip_loop typestr (typestr.length - cur) cur

/-- The test `strchr("[{<(", c)` of line 475.  `strchr` also finds the terminating NUL of its
first argument, so the test succeeds for `c = NUL`. -/
def strchr_open (c : Char) : Bool :=
  c = '[' ∨ c = '{' ∨ c = '<' ∨ c = '(' ∨ c = NUL

/-- The `switch (typestr[cur])` of the scalar branch (lines 532-562); `none` is `default`. -/
def scalar_switch (is_long : Bool) (c : Char) : Option base_object :=
  if c = 'd' then some (if is_long then base_long else base_int)
  else if c = 'u' then some (if is_long then base_ulong else base_uint)
  else if c = 'f' then some base_double
  else if c = 'D' then some base_date
  else if c = 't' then some base_timeval
  else if c = 'v' then some base_version
  else if c = 's' then some base_string
  else if c = 'r' then some base_catstring
  else if c = 'p' then some base_path
  else none

/-- State of the `for` loop of the tuple branch: the subtypes stored so far (`none` once a
subtype came back `NULL`), the local `cur` and the `va_list`. -/
structure tuple_state where
  subtypes : Option (List adiak_datatype_t)
  cur : Nat
  ap : List Int

/-- The `for (i = 0; i < t->num_subtypes; i++)` loop of the tuple branch (lines 520-524).
`child cur ap` is the call `parse_typestr_helper(typestr, cur, end_brace, ap, &cur)`; the first
numeric argument is the number of iterations left. -/
def parse_tuple_subtypes (child : Nat → List Int → Run parse_result) :
    Nat → Nat → List Int → Run tuple_state
  | 0, cur, ap => Run.done ⟨some [], cur, ap⟩
  | k + 1, cur, ap =>
    match child cur ap with
    | Run.undef => Run.undef
    | Run.fuel => Run.fuel
    | Run.done r =>
      match r.ret with
      | none => Run.done ⟨none, r.new_typestr_start, r.ap⟩
      | some sub =>
        match parse_tuple_subtypes child k r.new_typestr_start r.ap with
        | Run.undef => Run.undef
        | Run.fuel => Run.fuel
        | Run.done st => Run.done ⟨st.subtypes.map (fun l => sub :: l), st.cur, st.ap⟩

/-- `parse_typestr_helper` (lines 459-574), for a non-null `typestr`.  The last argument is the
value of `*new_typestr_start` on entry; the result carries its value on return.

* Set, list and range: on success `*new_typestr_start = end_brace + 1`.
* Tuple: the count is read with `va_arg`; a negative count makes `malloc` fail and `memset`
  write through `NULL`, which is undefined.  The branch ends without assigning
  `*new_typestr_start`, so the value on entry is returned.
* Scalar: `cur` is moved past `%`, past an `l` if there is one, and past the letter.
* No branch taken: `t` is returned as it is, the zeroed node if the `strchr` test of line 475
  succeeded (here only for the terminating NUL), `NULL` otherwise.
* `goto error`: the node is freed and `NULL` is returned, `*new_typestr_start` untouched. -/
def parse_typestr_helper : Nat → List Char → Nat → Nat → List Int → Nat → Run parse_result
  | 0, _, _, _, _, _ => Run.fuel
  | fuel + 1, typestr, typestr_start, typestr_end, ap, nts =>
    if typestr_start = typestr_end then Run.done ⟨none, ap, nts⟩
    else
      let cur := skip_separators typestr typestr_start
      let c := char_at typestr cur
      if c = '{' ∨ c = '[' then
        match find_end_brace typestr (if c = '{' then '}' else ']') cur typestr_end with
        | none => Run.done ⟨none, ap, nts⟩
        | some end_brace =>
          match ap with
          | [] => Run.undef
          | n :: ap1 =>
            match parse_typestr_helper fuel typestr (cur + 1) end_brace ap1 cur with
            | Run.undef => Run.undef
            | Run.fuel => Run.fuel
            | Run.done r =>
              match r.ret with
              | none => Run.done ⟨none, r.ap, nts⟩
              | some sub =>
                Run.done ⟨some (heap (if c = '{' then adiak_list else adiak_set)
                  adiak_categorical n 1 [sub]), r.ap, end_brace + 1⟩
      else if c = '<' then
        match find_end_brace typestr '>' cur typestr_end with
        | none => Run.done ⟨none, ap, nts⟩
        | some end_brace =>
          match parse_typestr_helper fuel typestr (cur + 1) end_brace ap cur with
          | Run.undef => Run.undef
          | Run.fuel => Run.fuel
          | Run.done r =>
            match r.ret with
            | none => Run.done ⟨none, r.ap, nts⟩
            | some sub =>
              Run.done ⟨some (heap adiak_range adiak_categorical 2 1 [sub]), r.ap, end_brace + 1⟩
      else if c = '(' then
        match find_end_brace typestr ')' cur typestr_end with
        | none => Run.done ⟨none, ap, nts⟩
        | some end_brace =>
          match ap with
          | [] => Run.undef
          | n :: ap1 =>
            if n < 0 then Run.undef
            else
              match parse_tuple_subtypes
                  (fun cur1 ap2 => parse_typestr_helper fuel typestr cur1 end_brace ap2 cur1)
                  n.toNat (cur + 1) ap1 with
              | Run.undef => Run.undef
              | Run.fuel => Run.fuel
              | Run.done st =>
                match st.subtypes with
                | none => Run.done ⟨none, st.ap, nts⟩
                | some subs => Run.done ⟨some (heap adiak_tuple adiak_categorical n n subs), st.ap, nts⟩
      else if c = '%' then
        let is_long : Bool := char_at typestr (cur + 1) = 'l'
        let cur1 := if is_long then cur + 2 else cur + 1
        match scalar_switch is_long (char_at typestr cur1) with
        | none => Run.done ⟨none, ap, nts⟩
        | some b => Run.done ⟨some (static b), ap, cur1 + 1⟩
      else if strchr_open c then
        Run.done ⟨some (heap adiak_type_unset adiak_numerical_unset 0 0 []), ap, nts⟩
      else Run.done ⟨none, ap, nts⟩

/-- `parse_typestr` (lines 315-322). -/
def parse_typestr (typestr : List Char) (ap : List Int) : Run parse_result :=
  parse_typestr_helper (strlen typestr + 1) typestr 0 (strlen typestr) ap 0

/-! ## `toplevel_type` -/

/-- `toplevel_type` (lines 324-358). -/
def toplevel_type (typestr : List Char) : adiak_type_t :=
  let cur := skip_separators typestr 0
  let c := char_at typestr cur
  if c = '%' then
    let c1 := char_at typestr (cur + 1)
    if c1 = 'l' then
      let c2 := char_at typestr (cur + 2)
      if c2 = 'd' then adiak_long
      else if c2 = 'u' then adiak_ulong
      else adiak_type_unset
    else if c1 = 'd' then adiak_int
    else if c1 = 'u' then adiak_uint
    else if c1 = 'f' then adiak_double
    else if c1 = 'D' then adiak_date
    else if c1 = 't' then adiak_timeval
    else if c1 = 'v' then adiak_version
    else if c1 = 's' then adiak_string
    else if c1 = 'r' then adiak_catstring
    else if c1 = 'p' then adiak_path
    else adiak_type_unset
  else if c = '<' then adiak_range
  else if c = '[' then adiak_set
  else if c = '{' then adiak_list
  else if c = '(' then adiak_tuple
  else adiak_type_unset

/-! ## Notions of the specification -/

/-- Number of occurrences of `[`, `{` and `(` in a type string. -/
def count_shape_delims (typestr : List Char) : Nat :=
  typestr.countP (fun c => c = '[' ∨ c = '{' ∨ c = '(')

/-- Number of shape arguments a run of the parser consumed from `ap`. -/
def consumed (ap : List Int) (r : parse_result) : Nat := ap.length - r.ap.length

/-! ## `copy_value` -/

/-- Modelled from the spec: the union `adiak_value_t` is declared in `adiak.h`, with the members
`v_long`, `v_int`, `v_double` and `v_ptr` that `adiak.c` assigns.  A `v_ptr` is modelled with
what it points to: an owned copy of a `struct timeval`, an owned duplicate of a string, or the
owned array `newvalues` of child values.  `uninit` is a value that was allocated and not yet
assigned. -/
inductive adiak_value_t
  | uninit
  | v_long (v : Int)
  | v_int (v : Int)
  | v_double (v : Int)
  | v_ptr_timeval (tv_sec tv_usec : Int)
  | v_ptr_string (s : List Char)
  | v_ptr_values (newvalues : List adiak_value_t)

/-- The results of the `sizeof` expressions of `copy_value` and the value of `INT_MAX`, which
depend on the C implementation. -/
structure platform where
  sizeof_long : Nat
  sizeof_int : Nat
  sizeof_double : Nat
  sizeof_timeval : Nat
  sizeof_ptr : Nat
  int_max : Nat

/-- The usual 64-bit layout: `long`, `double` and pointers of 8 bytes, `int` of 4 with
`INT_MAX = 2^31 - 1`, `struct timeval` of 16. -/
def lp64 : platform := ⟨8, 4, 8, 16, 8, 2147483647⟩

/-- Whether `x`, the mathematical result of an operation on `int`s, is outside the range
`INT_MIN .. INT_MAX` of `int`, with `INT_MIN = -INT_MAX - 1`.  An `int` operation with such a
result overflows, which is undefined. -/
def int_overflows (P : platform) (x : Int) : Bool :=
  decide (x < -(P.int_max : Int) - 1) || decide ((P.int_max : Int) < x)

/-- The buffer that `copy_value` reads, seen through the typed loads the code performs.  Each
field gives the result of one kind of load at a byte offset from the start of the buffer:
`*((long *) ptr)`, `*((int *) ptr)`, `*((double *) ptr)` (as its bit pattern),
`*(struct timeval *) ptr` (`tv_sec`, `tv_usec`) and the string `*((void **) ptr)` points to. -/
structure memory where
  load_long : Int → Int
  load_int : Int → Int
  load_double : Int → Int
  load_timeval : Int → Int × Int
  load_string : Int → List Char

/-- A call `copy_value(target, datatype, ptr)` for a fixed `datatype`: it maps the value at
`target` and the offset `ptr` to the new value at `target` and the returned `int`. -/
abbrev copier := adiak_value_t → Int → Run (adiak_value_t × Int)

/-- State of the `for` loop of the composite case of `copy_value`: the elements of `newvalues`
assigned so far, `bytes_read` and `type_index`. -/
structure elements_state where
  newvalues : List adiak_value_t
  bytes_read : Int
  type_index : Nat

/-- The `for (i = 0; i < datatype->num_elements; i++)` loop of `copy_value` (lines 444-452).
`subtype` holds the calls `copy_value(_, datatype->subtype[k], _)`; the first numeric argument
is the number of iterations left; `none` is the `return -1` inside the loop.  Reading
`subtype[type_index]` outside the array is undefined.  `bytes_read`, `i` and `type_index` are
`int`s (line 410): `bytes_read += result` is undefined when the sum is outside the range of
`int`, and so are `i++` and `type_index++`, `i` being the number of elements of `newvalues`
assigned so far. -/
def copy_elements (P : platform) (subtype : List copier) (is_tuple : Bool) (ptr : Int) :
    Nat → elements_state → Run (Option elements_state)
  | 0, st => Run.done (some st)
  | k + 1, st =>
    match subtype.get? st.type_index with
    | none => Run.undef
    | some f =>
      match f adiak_value_t.uninit (ptr + st.bytes_read) with
      | Run.undef => Run.undef
      | Run.fuel => Run.fuel
      | Run.done (v, result) =>
        if result = -1 then Run.done none
        else if int_overflows P (st.bytes_read + result) then Run.undef
        else if int_overflows P ((st.newvalues.length : Int) + 1) then Run.undef
        else copy_elements P subtype is_tuple ptr k
          ⟨st.newvalues ++ [v], st.bytes_read + result,
            if is_tuple then st.type_index + 1 else st.type_index⟩

/-- The `switch (datatype->dtype)` of `copy_value` (lines 412-455), given the fields `dtype` and
`num_elements` of the descriptor and the calls for its subtypes. -/
def copy_value_switch (P : platform) (m : memory) (dtype : adiak_type_t) (num_elements : Int)
    (subtype : List copier) : copier := fun target ptr =>
  match dtype with
  | adiak_type_unset => Run.done (target, -1)
  | adiak_long | adiak_ulong | adiak_date =>
    Run.done (adiak_value_t.v_long (m.load_long ptr), P.sizeof_long)
  | adiak_int | adiak_uint =>
    Run.done (adiak_value_t.v_int (m.load_int ptr), P.sizeof_int)
  | adiak_double =>
    Run.done (adiak_value_t.v_double (m.load_double ptr), P.sizeof_double)
  | adiak_timeval =>
    Run.done (adiak_value_t.v_ptr_timeval (m.load_timeval ptr).1 (m.load_timeval ptr).2,
      P.sizeof_ptr)
  | adiak_version | adiak_string | adiak_catstring | adiak_path =>
    Run.done (adiak_value_t.v_ptr_string (m.load_string ptr), P.sizeof_ptr)
  | adiak_range | adiak_set | adiak_list | adiak_tuple =>
    match copy_elements P subtype (dtype = adiak_tuple) ptr num_elements.toNat ⟨[], 0, 0⟩ with
    | Run.undef => Run.undef
    | Run.fuel => Run.fuel
    | Run.done none => Run.done (target, -1)
    | Run.done (some st) => Run.done (adiak_value_t.v_ptr_values st.newvalues, P.sizeof_ptr)

mutual
/-- `copy_value` (lines 409-457): the new value at `target` and the returned `int`. -/
def copy_value (P : platform) (m : memory) : adiak_datatype_t → copier
  | static b => copy_value_switch P m b.dtype 0 []
  | heap dtype _ num_elements _ subtype =>
    copy_value_switch P m dtype num_elements (copy_subtypes P m subtype)
/-- The calls `copy_value(_, subtype[k], _)` for the entries of a subtype array. -/
def copy_subtypes (P : platform) (m : memory) : List adiak_datatype_t → List copier
  | [] => []
  | d :: ds => copy_value P m d :: copy_subtypes P m ds
end

/-- The value of `bytes_read` when the loop of `copy_value` ends for the descriptor `d` read at
`ptr` (`none`: the loop returned `-1`). -/
def copy_value_bytes_read (P : platform) (m : memory) (d : adiak_datatype_t) (ptr : Int) :
    Run (Option Int) :=
  match copy_elements P (copy_subtypes P m d.subtype) (d.dtype = adiak_tuple) ptr
      d.num_elements.toNat ⟨[], 0, 0⟩ with
  | Run.undef => Run.undef
  | Run.fuel => Run.fuel
  | Run.done st => Run.done (st.map (fun x => x.bytes_read))

/-! ## Test buffers and further notions of the specification -/

/-- A buffer holding the native `int`s `b[0], b[1], ..` one after the other. -/
def packed_ints (P : platform) (b : List Int) : memory :=
  ⟨fun _ => 0, fun o => b.getD (o / (P.sizeof_int : Int)).toNat 0, fun _ => 0, fun _ => (0, 0),
    fun _ => []⟩

/-- The table of scalar codes of the specification: each code with its type tag. -/
def scalar_codes : List (List Char × adiak_type_t) :=
  [("ld".toList, adiak_long), ("lu".toList, adiak_ulong), ("d".toList, adiak_int),
   ("u".toList, adiak_uint), ("f".toList, adiak_double), ("D".toList, adiak_date),
   ("t".toList, adiak_timeval), ("v".toList, adiak_version), ("s".toList, adiak_string),
   ("r".toList, adiak_catstring), ("p".toList, adiak_path)]

/-- The fixed widths of the specification: one machine word for Long, ULong and Date, one `int`
for Int and UInt, one `double` for Double; no fixed width is stated for the other tags. -/
def fixed_width (P : platform) : adiak_type_t → Option Nat
  | adiak_long => some P.sizeof_long
  | adiak_ulong => some P.sizeof_long
  | adiak_date => some P.sizeof_long
  | adiak_int => some P.sizeof_int
  | adiak_uint => some P.sizeof_int
  | adiak_double => some P.sizeof_double
  | _ => none

/-- Sum of the fixed widths of a sequence of static descriptors. -/
def widths_sum (P : platform) (bs : List base_object) : Int :=
  (bs.map (fun b => (((fixed_width P b.dtype).getD 0 : Nat) : Int))).sum

/-- A buffer in which every load yields zero. -/
def zero_memory : memory := ⟨fun _ => 0, fun _ => 0, fun _ => 0, fun _ => (0, 0), fun _ => []⟩

mutual
/-- All the nodes of a descriptor tree, the root first. -/
def nodes : adiak_datatype_t → List adiak_datatype_t
  | static b => [static b]
  | heap dtype numerical num_elements num_subtypes subtype =>
    heap dtype numerical num_elements num_subtypes subtype :: nodes_list subtype
/-- All the nodes of the trees of a subtype array. -/
def nodes_list : List adiak_datatype_t → List adiak_datatype_t
  | [] => []
  | t :: ts => nodes t ++ nodes_list ts
end

mutual
/-- The element counts of the Set, List and Tuple nodes of a descriptor tree, in the order in
which their opening delimiters are entered (parent before subtypes, subtypes left to right). -/
def shape_args : adiak_datatype_t → List Int
  | static _ => []
  | heap dtype _ num_elements _ subtype =>
    (if dtype = adiak_set ∨ dtype = adiak_list ∨ dtype = adiak_tuple then [num_elements] else [])
      ++ shape_args_list subtype
/-- The element counts of the trees of a subtype array, left to right. -/
def shape_args_list : List adiak_datatype_t → List Int
  | [] => []
  | t :: ts => shape_args t ++ shape_args_list ts
end

/-- The shape of one node, by its tag: a Range has two elements and one subtype, a Set or List
has one subtype, a Tuple has as many subtypes as elements, all of them present. -/
def node_ok (t : adiak_datatype_t) : Prop :=
  match t.dtype with
  | adiak_range => t.num_elements = 2 ∧ t.num_subtypes = 1 ∧ t.subtype.length = 1
  | adiak_set => t.num_subtypes = 1 ∧ t.subtype.length = 1
  | adiak_list => t.num_subtypes = 1 ∧ t.subtype.length = 1
  | adiak_tuple => t.num_subtypes = t.num_elements ∧ (t.subtype.length : Int) = t.num_elements
  | _ => True

/-- The tag that goes with each opening delimiter. -/
def delimiter_tag (c : Char) : Option adiak_type_t :=
  if c = '<' then some adiak_range
  else if c = '[' then some adiak_set
  else if c = '{' then some adiak_list
  else if c = '(' then some adiak_tuple
  else none

/-- The node `t` is what the typespec starting at `start` opens: the first character after the
separators is `%` for a static leaf, the terminating NUL for a zeroed node, and for any other
node the opening delimiter that goes with its tag. -/
def opens (typestr : List Char) (start : Nat) (t : adiak_datatype_t) : Prop :=
  match t with
  | static _ => char_at typestr (skip_separators typestr start) = '%'
  | heap dtype _ _ _ _ =>
    if dtype = adiak_type_unset then char_at typestr (skip_separators typestr start) = NUL
    else delimiter_tag (char_at typestr (skip_separators typestr start)) = some dtype

/-- Every node of the tree `t` is opened by a typespec of the string. -/
inductive opened (typestr : List Char) : adiak_datatype_t → Prop
  | node (start : Nat) (t : adiak_datatype_t) :
      opens typestr start t → (∀ sub ∈ t.subtype, opened typestr sub) → opened typestr t

/-- The closing delimiter `parse_typestr_helper` looks for after each opening delimiter. -/
def closing_delimiter (c : Char) : Char :=
  if c = '{' then '}' else if c = '[' then ']' else if c = '<' then '>' else ')'

/-- A call `parse_typestr_helper(typestr, start, end, ap, &cur)` with fuel for its range. -/
def parse_range (typestr : List Char) (typestr_start typestr_end : Nat) (ap : List Int)
    (nts : Nat) : Run parse_result :=
  parse_typestr_helper (typestr_end + 1) typestr typestr_start typestr_end ap nts

/-- The relation `enters_unmatched typestr start end ap`: the parser, called on the range
`[start, end)` with the arguments `ap`, enters an opening delimiter for which `find_end_brace`
finds no closing delimiter: either the first character after the separators of this range
(`here`), or one in a nested typespec the parser reaches: the inner typespec of a set, list or
range, or the component of a tuple that comes after `k` components parsed with success. -/
inductive enters_unmatched (typestr : List Char) : Nat → Nat → List Int → Prop
  | here (st en : Nat) (ap : List Int) :
      st ≠ en →
      is_open (char_at typestr (skip_separators typestr st)) = true →
      find_end_brace typestr (closing_delimiter (char_at typestr (skip_separators typestr st)))
        (skip_separators typestr st) en = none →
      enters_unmatched typestr st en ap
  | in_set_or_list (st en : Nat) (n : Int) (ap : List Int) (end_brace : Nat) :
      st ≠ en →
      (char_at typestr (skip_separators typestr st) = '{' ∨
        char_at typestr (skip_separators typestr st) = '[') →
      find_end_brace typestr (closing_delimiter (char_at typestr (skip_separators typestr st)))
        (skip_separators typestr st) en = some end_brace →
      enters_unmatched typestr (skip_separators typestr st + 1) end_brace ap →
      enters_unmatched typestr st en (n :: ap)
  | in_range (st en : Nat) (ap : List Int) (end_brace : Nat) :
      st ≠ en →
      char_at typestr (skip_separators typestr st) = '<' →
      find_end_brace typestr '>' (skip_separators typestr st) en = some end_brace →
      enters_unmatched typestr (skip_separators typestr st + 1) end_brace ap →
      enters_unmatched typestr st en ap
  | in_tuple (st en : Nat) (n : Int) (ap : List Int) (end_brace k : Nat)
      (subs : List adiak_datatype_t) (cur_k : Nat) (ap_k : List Int) :
      st ≠ en →
      char_at typestr (skip_separators typestr st) = '(' →
      find_end_brace typestr ')' (skip_separators typestr st) en = some end_brace →
      (k : Int) < n →
      parse_tuple_subtypes (fun cur1 ap2 => parse_range typestr cur1 end_brace ap2 cur1) k
        (skip_separators typestr st + 1) ap = Run.done ⟨some subs, cur_k, ap_k⟩ →
      enters_unmatched typestr cur_k end_brace ap_k →
      enters_unmatched typestr st en (n :: ap)

/-! ## Nesting depth of the specification (C18) -/

/-- Change of the nesting depth on one character, in the words of the specification: plus one
on each of `[`, `{`, `(`, `<`, minus one on each of `]`, `}`, `)`, `>`. -/
def depth_delta (c : Char) : Int :=
  if c = '[' ∨ c = '{' ∨ c = '(' ∨ c = '<' then 1
  else if c = ']' ∨ c = '}' ∨ c = ')' ∨ c = '>' then -1
  else 0

/-- Nesting depth after reading `typestr[start..c]`, the depth being zero before `start`. -/
def depth_after (typestr : List Char) (start c : Nat) : Int :=
  ((List.range (c + 1 - start)).map (fun k => depth_delta (char_at typestr (start + k)))).sum

/-- The index `c` holds the sought closing character at depth zero. -/
def closes_at (typestr : List Char) (endchar : Char) (start c : Nat) : Prop :=
  char_at typestr c = endchar ∧ depth_after typestr start c = 0

/-! ## `adiak_numerical_from_type` (C16) -/

/-- `adiak_numerical_from_type` (lines 153-179). -/
def adiak_numerical_from_type : adiak_type_t → adiak_numerical_t
  | adiak_type_unset => adiak_numerical_unset
  | adiak_long => adiak_rational
  | adiak_ulong => adiak_rational
  | adiak_int => adiak_rational
  | adiak_uint => adiak_rational
  | adiak_double => adiak_rational
  | adiak_date => adiak_interval
  | adiak_timeval => adiak_interval
  | adiak_version => adiak_ordinal
  | adiak_string => adiak_ordinal
  | adiak_catstring => adiak_categorical
  | adiak_path => adiak_categorical
  | adiak_range => adiak_categorical
  | adiak_set => adiak_categorical
  | adiak_list => adiak_categorical
  | adiak_tuple => adiak_categorical

/-- The table of the specification, row by row: the tags of each numerical class. -/
def numerical_class_table : List (List adiak_type_t × adiak_numerical_t) :=
  [([adiak_long, adiak_ulong, adiak_int, adiak_uint, adiak_double], adiak_rational),
   ([adiak_date, adiak_timeval], adiak_interval),
   ([adiak_version, adiak_string], adiak_ordinal),
   ([adiak_catstring, adiak_path, adiak_range, adiak_set, adiak_list, adiak_tuple],
     adiak_categorical),
   ([adiak_type_unset], adiak_numerical_unset)]

/-! ## The walk of `copy_value` (C11) -/

/-- The relation `reaches_unset P m d ptr`: the walk of `copy_value` on the descriptor `d` with
the buffer position `ptr` reaches a descriptor whose tag is `adiak_type_unset`: `d` itself, or,
`d` being a composite, the subtype used for the element that comes after `k` elements copied
with success (`k` less than `num_elements`), at the position `bytes_read` has then. -/
inductive reaches_unset (P : platform) (m : memory) : adiak_datatype_t → Int → Prop
  | here (d : adiak_datatype_t) (ptr : Int) :
      d.dtype = adiak_type_unset → reaches_unset P m d ptr
  | in_element (dtype : adiak_type_t) (numerical : adiak_numerical_t)
      (num_elements num_subtypes : Int) (subtype : List adiak_datatype_t) (ptr : Int) (k : Nat)
      (st : elements_state) (sub : adiak_datatype_t) :
      (dtype = adiak_range ∨ dtype = adiak_set ∨ dtype = adiak_list ∨ dtype = adiak_tuple) →
      (k : Int) < num_elements →
      copy_elements P (copy_subtypes P m subtype) (dtype = adiak_tuple) ptr k ⟨[], 0, 0⟩ =
        Run.done (some st) →
      subtype.get? st.type_index = some sub →
      reaches_unset P m sub (ptr + st.bytes_read) →
      reaches_unset P m (heap dtype numerical num_elements num_subtypes subtype) ptr

/-! ## Tool registry and broadcast -/

/-- Modelled from the spec: the enum `adiak_category_t` is declared in `adiak.h`.  `adiak.c`
names `adiak_category_all` and `adiak_general`; the other enumerators stand for the remaining
specific categories. -/
inductive adiak_category_t
  | adiak_category_unset
  | adiak_category_all
  | adiak_general
  | adiak_performance
  | adiak_control
  deriving DecidableEq, Repr

open adiak_category_t

/-- The struct `adiak_tool_t` (lines 13-22); the links `next` and `prev` are the order of the
list that holds the tools.  A function pointer is modelled by a number, `none` being `NULL`; the
`void *` context is modelled by a number. -/
structure adiak_tool_t where
  version : Int
  opaque_val : Nat
  name_val_cb : Option Nat
  report_on_all_ranks : Int
  category : adiak_category_t
  deriving DecidableEq

/-- Modelled from the spec: the struct `adiak_t` is declared in `adiak_internal.h`; these are the
fields `adiak_raw_namevalue` and `adiak_register` use, `tool_list` being the list `*tool_list`
points to.  The state is the one `adiak_common_init` has set up. -/
structure adiak_t where
  reportable_rank : Int
  report_on_all_ranks : Int
  tool_list : List adiak_tool_t
  deriving DecidableEq

/-- One call `tool->name_val_cb(name, category, value, type, tool->opaque_val)`: the function
called and its five arguments, pointers given with what they point to. -/
structure callback_call where
  name_val_cb : Nat
  name : List Char
  category : adiak_category_t
  value : adiak_value_t
  type : adiak_datatype_t
  opaque_val : Nat

/-- The `for` loop of `adiak_raw_namevalue` (lines 78-85): the calls it makes, in order.  The
callbacks are external code and are taken not to change the tool list. -/
def raw_namevalue_loop (g : adiak_t) (name : List Char) (category : adiak_category_t)
    (value : adiak_value_t) (type : adiak_datatype_t) : List adiak_tool_t → List callback_call
  | [] => []
  | tool :: next =>
    if tool.report_on_all_ranks = 0 ∧ g.reportable_rank = 0 then
      raw_namevalue_loop g name category value type next
    else if tool.category ≠ adiak_category_all ∧ tool.category ≠ category then
      raw_namevalue_loop g name category value type next
    else
      match tool.name_val_cb with
      | some cb =>
        ⟨cb, name, category, value, type, tool.opaque_val⟩ ::
          raw_namevalue_loop g name category value type next
      | none => raw_namevalue_loop g name category value type next

/-- `adiak_raw_namevalue` (lines 75-87): the calls made and the returned `int`. -/
def adiak_raw_namevalue (g : adiak_t) (name : List Char) (category : adiak_category_t)
    (value : adiak_value_t) (type : adiak_datatype_t) : List callback_call × Int :=
  (raw_namevalue_loop g name category value type g.tool_list, 0)

/-- The condition of the specification for a delivery: the registration reports on all ranks or
the process is the reporter, and the filter is All or equals the published category. -/
def eligible (g : adiak_t) (category : adiak_category_t) (tool : adiak_tool_t) : Bool :=
  (tool.report_on_all_ranks ≠ 0 ∨ g.reportable_rank ≠ 0) ∧
  (tool.category = adiak_category_all ∨ tool.category = category)

/-- The call a tool with a callback receives for a publish. -/
def call_for (name : List Char) (category : adiak_category_t) (value : adiak_value_t)
    (type : adiak_datatype_t) (tool : adiak_tool_t) : Option callback_call :=
  tool.name_val_cb.map (fun cb => ⟨cb, name, category, value, type, tool.opaque_val⟩)

/-- The arguments of one call of `adiak_register_cb`. -/
structure registration where
  adiak_version : Int
  category : adiak_category_t
  nv : Option Nat
  report_on_all_ranks : Int
  opaque_val : Nat

/-- The tool `adiak_register` allocates for the arguments of a registration. -/
def registration.tool (r : registration) : adiak_tool_t :=
  ⟨r.adiak_version, r.opaque_val, r.nv, r.report_on_all_ranks, r.category⟩

/-- The characters on which a range of the parser ends: the terminating NUL for the whole
string, a closing delimiter for the inside of a container. -/
def is_stop (c : Char) : Prop := c = NUL ∨ is_close c = true

/-! ## `adiak_namevalue` -/

/-- A variadic argument as the caller passes it: an `int`, a `long`, a `double` (its bit
pattern), a `struct timeval *` with the struct it points to, a string pointer with its string,
or the `void *` of a packed buffer, `none` being `NULL` and `some p` the position `p` of the
buffer in the memory `copy_value` reads. -/
inductive c_arg
  | int (v : Int)
  | long (v : Int)
  | double (v : Int)
  | timeval_ptr (tv_sec tv_usec : Int)
  | string_ptr (s : List Char)
  | void_ptr (p : Option Int)

/-- The `int` arguments at the head of a `va_list`, which `parse_typestr` reads with
`va_arg(*ap, int)`; reading an argument of another type is undefined, like reading past the
end. -/
def va_ints : List c_arg → List Int
  | c_arg.int v :: rest => v :: va_ints rest
  | _ => []

/-- What the `switch (toptype)` of `adiak_namevalue` leaves behind: the value, `container_ptr`
and the `va_list`. -/
structure toplevel_read where
  value : adiak_value_t
  container_ptr : Option Int
  ap : List c_arg

/-- The `switch (toptype)` of `adiak_namevalue` (lines 104-137), `value` being freshly
allocated; `none` is the `return -1` of the first case.  Calling `va_arg` with a type that is
not the type of the next argument, or with no argument left, is undefined. -/
def namevalue_switch (toptype : adiak_type_t) (ap : List c_arg) : Run (Option toplevel_read) :=
  match toptype with
  | adiak_type_unset => Run.done none
  | adiak_long | adiak_ulong | adiak_date =>
    match ap with
    | c_arg.long v :: rest => Run.done (some ⟨adiak_value_t.v_long v, none, rest⟩)
    | _ => Run.undef
  | adiak_int | adiak_uint =>
    match ap with
    | c_arg.int v :: rest => Run.done (some ⟨adiak_value_t.v_int v, none, rest⟩)
    | _ => Run.undef
  | adiak_double =>
    match ap with
    | c_arg.double v :: rest => Run.done (some ⟨adiak_value_t.v_double v, none, rest⟩)
    | _ => Run.undef
  | adiak_timeval =>
    match ap with
    | c_arg.timeval_ptr s u :: rest =>
      Run.done (some ⟨adiak_value_t.v_ptr_timeval s u, none, rest⟩)
    | _ => Run.undef
  | adiak_version | adiak_string | adiak_catstring | adiak_path =>
    match ap with
    | c_arg.string_ptr s :: rest => Run.done (some ⟨adiak_value_t.v_ptr_string s, none, rest⟩)
    | _ => Run.undef
  | adiak_range | adiak_set | adiak_list | adiak_tuple =>
    match ap with
    | c_arg.void_ptr p :: rest => Run.done (some ⟨adiak_value_t.uninit, p, rest⟩)
    | _ => Run.undef

/-- `adiak_namevalue` (lines 89-151): the calls made to the registered callbacks and the
returned `int`.  The value `copy_value` returns is not looked at. -/
def adiak_namevalue (P : platform) (m : memory) (g : adiak_t) (name : List Char)
    (category : adiak_category_t) (typestr : List Char) (ap : List c_arg) :
    Run (List callback_call × Int) :=
  if toplevel_type typestr = adiak_type_unset then Run.done ([], -1)
  else
    match namevalue_switch (toplevel_type typestr) ap with
    | Run.undef => Run.undef
    | Run.fuel => Run.fuel
    | Run.done none => Run.done ([], -1)
    | Run.done (some rd) =>
      match parse_typestr typestr (va_ints rd.ap) with
      | Run.undef => Run.undef
      | Run.fuel => Run.fuel
      | Run.done r =>
        match r.ret with
        | none => Run.done ([], -1)
        | some t =>
          match rd.container_ptr with
          | some p =>
            match copy_value P m t rd.value p with
            | Run.undef => Run.undef
            | Run.fuel => Run.fuel
            | Run.done (value, _) => Run.done (adiak_raw_namevalue g name category value t)
          | none => Run.done (adiak_raw_namevalue g name category rd.value t)

/-! ## The parser on an explicit heap of descriptor nodes (C17) -/

/-- The address of a descriptor: one of the static objects, or a node of the heap. -/
inductive address
  | static (b : base_object)
  | heap (a : Nat)
  deriving DecidableEq, Repr

/-- A pointer to a descriptor together with what it points to, as `adiak_datatype_t` above, with
the address of each `malloc`ed node and with the `NULL` pointers a subtype array may hold while
a node is under construction. -/
inductive descriptor
  | null
  | static (b : base_object)
  | node (addr : Nat) (dtype : adiak_type_t) (numerical : adiak_numerical_t)
      (num_elements : Int) (num_subtypes : Int) (subtype : List descriptor)

/-- The test `!t`. -/
def descriptor.is_null : descriptor → Bool
  | descriptor.null => true
  | _ => false

/-- The heap of descriptor nodes: the address the next `malloc` of a descriptor returns, the
nodes allocated and not yet freed, and the log of the calls of `free` on descriptors. -/
structure heap_state where
  next : Nat
  live : List Nat
  freed : List address

/-- `malloc(sizeof(adiak_datatype_t))`: the heap after the allocation of the node `h.next`. -/
def heap_state.malloc (h : heap_state) : heap_state :=
  ⟨h.next + 1, h.next :: h.live, h.freed⟩

/-- `free(t)` for the descriptor at the address `a`. -/
def heap_state.free (h : heap_state) (a : address) : heap_state :=
  ⟨h.next, match a with
    | address.heap n => h.live.erase n
    | address.static _ => h.live, h.freed ++ [a]⟩

mutual
/-- `free_adiak_type` (lines 396-407).  For a node of the heap the test
`adiak_get_basetype(t->dtype) == t` fails, since `adiak_get_basetype` returns `NULL` or the
address of a static object.  Reading `subtype[i]` outside the array is undefined. -/
def free_adiak_type : descriptor → heap_state → Run heap_state
  | descriptor.null, h => Run.done h
  | descriptor.static b, h =>
    match adiak_get_basetype b.dtype with
    | some (adiak_datatype_t.static b1) =>
      if b1 = b then Run.done h else Run.done (h.free (address.static b))
    | _ => Run.done (h.free (address.static b))
  | descriptor.node addr _ _ _ num_subtypes subtype, h =>
    match free_subtypes subtype num_subtypes.toNat h with
    | Run.undef => Run.undef
    | Run.fuel => Run.fuel
    | Run.done h1 => Run.done (h1.free (address.heap addr))
/-- The loop `for (i = 0; i < t->num_subtypes; i++) free_adiak_type(t->subtype[i])`: the
entries of the array from `i` on and the number of iterations left. -/
def free_subtypes : List descriptor → Nat → heap_state → Run heap_state
  | _, 0, h => Run.done h
  | [], _ + 1, _ => Run.undef
  | t :: ts, k + 1, h =>
    match free_adiak_type t h with
    | Run.undef => Run.undef
    | Run.fuel => Run.fuel
    | Run.done h1 => free_subtypes ts k h1
end

/-- What a call of `parse_typestr_helper` leaves behind, heap included. -/
structure heap_result where
  ret : descriptor
  ap : List Int
  new_typestr_start : Nat
  heap : heap_state

/-- The label `error` of `parse_typestr_helper`: `if (t) free_adiak_type(t); return NULL;`. -/
def error_return (t : descriptor) (ap : List Int) (nts : Nat) (h : heap_state) :
    Run heap_result :=
  match free_adiak_type t h with
  | Run.undef => Run.undef
  | Run.fuel => Run.fuel
  | Run.done h1 => Run.done ⟨descriptor.null, ap, nts, h1⟩

/-- State of the `for` loop of the tuple branch on the heap: the subtypes stored so far,
whether a call came back `NULL`, the local `cur`, the `va_list` and the heap. -/
structure tuple_state_heap where
  subtypes : List descriptor
  failed : Bool
  cur : Nat
  ap : List Int
  heap : heap_state

/-- The `for` loop of the tuple branch (lines 520-524) on the heap; the second argument holds
the subtypes stored so far. -/
def parse_tuple_subtypes_heap (child : Nat → List Int → heap_state → Run heap_result) :
    Nat → List descriptor → Nat → List Int → heap_state → Run tuple_state_heap
  | 0, acc, cur, ap, h => Run.done ⟨acc, false, cur, ap, h⟩
  | k + 1, acc, cur, ap, h =>
    match child cur ap h with
    | Run.undef => Run.undef
    | Run.fuel => Run.fuel
    | Run.done r =>
      if r.ret.is_null then Run.done ⟨acc, true, r.new_typestr_start, r.ap, r.heap⟩
      else parse_tuple_subtypes_heap child k (acc ++ [r.ret]) r.new_typestr_start r.ap r.heap

/-- `parse_typestr_helper` (lines 459-574) on the heap: as `parse_typestr_helper` above, with
the allocation of line 476, the nodes as they are while under construction, and the calls of
`free_adiak_type` of the label `error`.  The arrays of subtype pointers are not descriptor
nodes and are left out of the heap. -/
def parse_typestr_helper_heap :
    Nat → List Char → Nat → Nat → List Int → Nat → heap_state → Run heap_result
  | 0, _, _, _, _, _, _ => Run.fuel
  | fuel + 1, typestr, typestr_start, typestr_end, ap, nts, h =>
    if typestr_start = typestr_end then Run.done ⟨descriptor.null, ap, nts, h⟩
    else
      let cur := skip_separators typestr typestr_start
      let c := char_at typestr cur
      if c = '{' ∨ c = '[' then
        match find_end_brace typestr (if c = '{' then '}' else ']') cur typestr_end with
        | none =>
          error_return (descriptor.node h.next adiak_type_unset adiak_numerical_unset 0 0 [])
            ap nts h.malloc
        | some end_brace =>
          match ap with
          | [] => Run.undef
          | n :: ap1 =>
            match parse_typestr_helper_heap fuel typestr (cur + 1) end_brace ap1 cur h.malloc with
            | Run.undef => Run.undef
            | Run.fuel => Run.fuel
            | Run.done r =>
              if r.ret.is_null then
                error_return (descriptor.node h.next (if c = '{' then adiak_list else adiak_set)
                  adiak_categorical n 1 [descriptor.null]) r.ap nts r.heap
              else
                Run.done ⟨descriptor.node h.next (if c = '{' then adiak_list else adiak_set)
                  adiak_categorical n 1 [r.ret], r.ap, end_brace + 1, r.heap⟩
      else if c = '<' then
        match find_end_brace typestr '>' cur typestr_end with
        | none =>
          error_return (descriptor.node h.next adiak_type_unset adiak_numerical_unset 0 0 [])
            ap nts h.malloc
        | some end_brace =>
          match parse_typestr_helper_heap fuel typestr (cur + 1) end_brace ap cur h.malloc with
          | Run.undef => Run.undef
          | Run.fuel => Run.fuel
          | Run.done r =>
            if r.ret.is_null then
              error_return (descriptor.node h.next adiak_range adiak_categorical 2 1
                [descriptor.null]) r.ap nts r.heap
            else
              Run.done ⟨descriptor.node h.next adiak_range adiak_categorical 2 1 [r.ret],
                r.ap, end_brace + 1, r.heap⟩
      else if c = '(' then
        match find_end_brace typestr ')' cur typestr_end with
        | none =>
          error_return (descriptor.node h.next adiak_type_unset adiak_numerical_unset 0 0 [])
            ap nts h.malloc
        | some end_brace =>
          match ap with
          | [] => Run.undef
          | n :: ap1 =>
            if n < 0 then Run.undef
            else
              match parse_tuple_subtypes_heap
                  (fun cur1 ap2 h2 =>
                    parse_typestr_helper_heap fuel typestr cur1 end_brace ap2 cur1 h2)
                  n.toNat [] (cur + 1) ap1 h.malloc with
              | Run.undef => Run.undef
              | Run.fuel => Run.fuel
              | Run.done st =>
                if st.failed then
                  error_return (descriptor.node h.next adiak_tuple adiak_categorical n n
                    (st.subtypes ++ List.replicate (n.toNat - st.subtypes.length)
                      descriptor.null)) st.ap nts st.heap
                else
                  Run.done ⟨descriptor.node h.next adiak_tuple adiak_categorical n n st.subtypes,
                    st.ap, nts, st.heap⟩
      else if c = '%' then
        let is_long : Bool := char_at typestr (cur + 1) = 'l'
        let cur1 := if is_long then cur + 2 else cur + 1
        match scalar_switch is_long (char_at typestr cur1) with
        | none => Run.done ⟨descriptor.null, ap, nts, h⟩
        | some b => Run.done ⟨descriptor.static b, ap, cur1 + 1, h⟩
      else if strchr_open c then
        Run.done ⟨descriptor.node h.next adiak_type_unset adiak_numerical_unset 0 0 [], ap, nts,
          h.malloc⟩
      else Run.done ⟨descriptor.null, ap, nts, h⟩

/-- `parse_typestr` (lines 315-322) on the heap. -/
def parse_typestr_heap (typestr : List Char) (ap : List Int) (h : heap_state) :
    Run heap_result :=
  parse_typestr_helper_heap (strlen typestr + 1) typestr 0 (strlen typestr) ap 0 h

mutual
/-- The addresses of the heap nodes of a tree. -/
def owned : descriptor → List Nat
  | descriptor.null => []
  | descriptor.static _ => []
  | descriptor.node addr _ _ _ _ subtype => addr :: owned_list subtype
/-- The addresses of the heap nodes of the trees of a subtype array. -/
def owned_list : List descriptor → List Nat
  | [] => []
  | t :: ts => owned t ++ owned_list ts
end

/-- The addresses of the descriptor nodes allocated between two states of the heap. -/
def allocated (h h1 : heap_state) : List address :=
  (List.range' h.next (h1.next - h.next)).map address.heap

mutual
/-- In every node of the tree the subtype array has `num_subtypes` entries. -/
def wf : descriptor → Prop
  | descriptor.null => True
  | descriptor.static _ => True
  | descriptor.node _ _ _ _ num_subtypes subtype =>
    num_subtypes.toNat = subtype.length ∧ wf_list subtype
/-- Every tree of a subtype array is well formed. -/
def wf_list : List descriptor → Prop
  | [] => True
  | t :: ts => wf t ∧ wf_list ts
end

mutual
/-- Number of pointers of a tree. -/
def dsize : descriptor → Nat
  | descriptor.null => 1
  | descriptor.static _ => 1
  | descriptor.node _ _ _ _ _ subtype => 1 + dsize_list subtype
/-- Number of pointers of the trees of a subtype array. -/
def dsize_list : List descriptor → Nat
  | [] => 0
  | t :: ts => dsize t + dsize_list ts
end

/-- The state of the heap `h1` reached from `h` by a piece of the parser that holds the tree
`ret`: no address is lost, the tree is well formed, every node allocated since `h` has been
freed exactly once or belongs to the tree, nothing else has been freed, and the live nodes are
those of `h` and of the tree. -/
def heap_inv (h h1 : heap_state) (ret : descriptor) : Prop :=
  h.next ≤ h1.next ∧ wf ret ∧
  (∃ l, h1.freed = h.freed ++ l ∧ (l ++ (owned ret).map address.heap).Perm (allocated h h1)) ∧
  (∃ front, h1.live = front ++ h.live ∧ front.Perm (owned ret))

/-- The same for the subtypes stored so far in a tuple under construction. -/
def heap_inv_list (h h1 : heap_state) (subs : List descriptor) : Prop :=
  h.next ≤ h1.next ∧ wf_list subs ∧
  (∃ l, h1.freed = h.freed ++ l ∧
    (l ++ (owned_list subs).map address.heap).Perm (allocated h h1)) ∧
  (∃ front, h1.live = front ++ h.live ∧ front.Perm (owned_list subs))


mutual
/-- The tree a pointer of the heap model stands for once the addresses of its nodes are
forgotten: `none` is `NULL`.  A `NULL` entry of a subtype array has no counterpart in
`adiak_datatype_t` and is dropped; the trees the parser returns hold none. -/
def forget_addresses : descriptor → Option adiak_datatype_t
  | descriptor.null => none
  | descriptor.static b => some (adiak_datatype_t.static b)
  | descriptor.node _ dtype numerical num_elements num_subtypes subtype =>
    some (adiak_datatype_t.heap dtype numerical num_elements num_subtypes
      (forget_addresses_list subtype))
/-- The trees of a subtype array, addresses forgotten. -/
def forget_addresses_list : List descriptor → List adiak_datatype_t
  | [] => []
  | t :: ts =>
    match forget_addresses t with
    | none => forget_addresses_list ts
    | some x => x :: forget_addresses_list ts
end

/-- The outcome of a call on the heap, heap forgotten. -/
def forget_heap : Run heap_result → Run parse_result
  | Run.undef => Run.undef
  | Run.fuel => Run.fuel
  | Run.done r => Run.done ⟨forget_addresses r.ret, r.ap, r.new_typestr_start⟩

/-! # Theorems -/

/-! ## Nested tuples (C1, C2) -/

/-- C1 (the code departs from the claim): a tuple that is itself a component of a tuple, and
not the last one, is parsed again for the next position, because the tuple branch never
assigns `*new_typestr_start`.  For `"((%d,%d),%f)"` the components alone parse to
`Tuple(Int, Int)` and `Double`; the whole string asks for a third shape argument with the
arguments `2, 2`, and with `2, 2, 2` it returns a tuple whose second subtype is again
`Tuple(Int, Int)` and not `Double`. -/
theorem parse_typestr_nested_tuple_second_component :
    parse_typestr "(%d,%d)".toList [2] =
      Run.done ⟨some (heap adiak_tuple adiak_categorical 2 2
        [static base_int, static base_int]), [], 0⟩ ∧
    parse_typestr "%f".toList [] = Run.done ⟨some (static base_double), [], 2⟩ ∧
    parse_typestr "((%d,%d),%f)".toList [2, 2] = Run.undef ∧
    parse_typestr "((%d,%d),%f)".toList [2, 2, 2] =
      Run.done ⟨some (heap adiak_tuple adiak_categorical 2 2
        [heap adiak_tuple adiak_categorical 2 2 [static base_int, static base_int],
         heap adiak_tuple adiak_categorical 2 2 [static base_int, static base_int]]), [], 0⟩ := by
  refine ⟨rfl, rfl, rfl, rfl⟩

/-- C2 (the code departs from the claim): the well-formed string `"((%d,%d),%f)"` has two
occurrences of `[`, `{`, `(`, yet the parser consumes three shape arguments: given
`2, 2, 2, 7` it leaves only `7`. -/
theorem parse_typestr_nested_tuple_consumes_three :
    count_shape_delims "((%d,%d),%f)".toList = 2 ∧
    ∃ r, parse_typestr "((%d,%d),%f)".toList [2, 2, 2, 7] = Run.done r ∧
      r.ap = [7] ∧ consumed [2, 2, 2, 7] r = 3 := by
  refine ⟨rfl, _, rfl, rfl, rfl⟩

/-! ## Unknown scalar codes (C7) -/

/-- C7 (the code departs from the claim): after `%l` the parser accepts every scalar letter, not
only `d` and `u`: `"%lf"`, `"%ls"` and `"%lt"` return the interned Double, String and Timeval
descriptors, whereas `toplevel_type` answers `adiak_type_unset` for the same strings. -/
theorem parse_typestr_accepts_l_prefix (ap : List Int) :
    parse_typestr "%lf".toList ap = Run.done ⟨some (static base_double), ap, 3⟩ ∧
    parse_typestr "%ls".toList ap = Run.done ⟨some (static base_string), ap, 3⟩ ∧
    parse_typestr "%lt".toList ap = Run.done ⟨some (static base_timeval), ap, 3⟩ ∧
    toplevel_type "%lf".toList = adiak_type_unset ∧
    toplevel_type "%ls".toList = adiak_type_unset ∧
    toplevel_type "%lt".toList = adiak_type_unset := by
  refine ⟨rfl, rfl, rfl, rfl, rfl, rfl⟩

/-! ## Strings of separators (C8) -/

/-- C8 (the code departs from the claim): for a string made of separators only, `strchr`
finds the terminating NUL, a zeroed descriptor is allocated and returned: the parse succeeds
with a descriptor whose tag is `adiak_type_unset`.  The empty string does return `NULL`. -/
theorem parse_typestr_separators_only (ap : List Int) :
    parse_typestr " ".toList ap =
      Run.done ⟨some (heap adiak_type_unset adiak_numerical_unset 0 0 []), ap, 0⟩ ∧
    parse_typestr ", \t\n".toList ap =
      Run.done ⟨some (heap adiak_type_unset adiak_numerical_unset 0 0 []), ap, 0⟩ ∧
    parse_typestr [] ap = Run.done ⟨none, ap, 0⟩ := by
  refine ⟨rfl, rfl, rfl⟩

/-! ## Bytes reported for a Timeval (C9) -/

/-- C9 (the code departs from the claim): for a Timeval `copy_value` returns
`sizeof(struct timeval *)`, the width of a pointer; on the 64-bit layout, where the struct has
16 bytes, the second element of a list of two Timevals is read at byte offset 8. -/
theorem copy_value_timeval_pointer_width (P : platform) (m : memory) (target : adiak_value_t)
    (ptr : Int) :
    copy_value P m (static base_timeval) target ptr =
      Run.done (adiak_value_t.v_ptr_timeval (m.load_timeval ptr).1 (m.load_timeval ptr).2,
        (P.sizeof_ptr : Int)) ∧
    copy_value lp64 m (heap adiak_list adiak_categorical 2 1 [static base_timeval]) target 0 =
      Run.done (adiak_value_t.v_ptr_values
        [adiak_value_t.v_ptr_timeval (m.load_timeval 0).1 (m.load_timeval 0).2,
         adiak_value_t.v_ptr_timeval (m.load_timeval 8).1 (m.load_timeval 8).2], 8) ∧
    lp64.sizeof_timeval = 16 := by
  refine ⟨rfl, rfl, rfl⟩

/-! ## Marshaling a list of ints (C3) -/

theorem copy_subtypes_eq_map (P : platform) (m : memory) (l : List adiak_datatype_t) :
    copy_subtypes P m l = l.map (copy_value P m) := by
  induction l with
  | nil => rfl
  | cons d ds ih => simp [copy_subtypes, ih]

theorem copy_value_static (P : platform) (m : memory) (b : base_object) :
    copy_value P m (static b) = copy_value_switch P m b.dtype 0 [] := by
  simp [copy_value]

theorem copy_value_heap (P : platform) (m : memory) (t : adiak_type_t) (nu : adiak_numerical_t)
    (ne ns : Int) (subs : List adiak_datatype_t) :
    copy_value P m (heap t nu ne ns subs) =
      copy_value_switch P m t ne (subs.map (copy_value P m)) := by
  simp [copy_value, copy_subtypes_eq_map]

theorem int_overflows_eq_false (P : platform) (x : Int) (h0 : 0 ≤ x)
    (h1 : x ≤ (P.int_max : Int)) : int_overflows P x = false := by
  simp only [int_overflows, Bool.or_eq_false_iff, decide_eq_false_iff_not, not_lt]
  constructor <;> omega

theorem int_overflows_eq_true (P : platform) (x : Int) (h : (P.int_max : Int) < x) :
    int_overflows P x = true := by
  simp [int_overflows, h]

theorem int_overflows_false_le (P : platform) (x : Int) (h : int_overflows P x = false) :
    x ≤ (P.int_max : Int) := by
  simp only [int_overflows, Bool.or_eq_false_iff, decide_eq_false_iff_not, not_lt] at h
  exact h.2

/-- The loop of `copy_value` over a Set, List or Range whose element call always succeeds with
the same width, as long as `bytes_read` and `i` stay in the range of `int`. -/
theorem copy_elements_single (P : platform) (f : copier) (g : Int → adiak_value_t) (w : Nat)
    (hf : ∀ o, f adiak_value_t.uninit o = Run.done (g o, (w : Int))) (ptr : Int) (k : Nat) :
    ∀ (vs : List adiak_value_t) (br : Int), 0 ≤ br →
      br + (k : Int) * (w : Int) ≤ (P.int_max : Int) →
      (vs.length : Int) + (k : Int) ≤ (P.int_max : Int) →
      copy_elements P [f] false ptr k ⟨vs, br, 0⟩ =
        Run.done (some ⟨vs ++ (List.range k).map
          (fun (i : Nat) => g (ptr + br + (i : Int) * (w : Int))),
          br + (k : Int) * (w : Int), 0⟩) := by
  induction k with
  | zero => intro vs br _ _ _; simp [copy_elements]
  | succ k ih =>
    intro vs br h0 hb hi
    have hne : ((w : Int) = -1) = False := by
      apply eq_false; omega
    have hkw : (0 : Int) ≤ (k : Int) * (w : Int) := by positivity
    have hw : (0 : Int) ≤ (w : Int) := by positivity
    have hsucc : ((k + 1 : Nat) : Int) * (w : Int) = (k : Int) * (w : Int) + (w : Int) := by
      push_cast; ring
    rw [hsucc] at hb
    have ho1 : int_overflows P (br + (w : Int)) = false :=
      int_overflows_eq_false P _ (by omega) (by omega)
    have ho2 : int_overflows P ((vs.length : Int) + 1) = false :=
      int_overflows_eq_false P _ (by omega) (by push_cast at hi; omega)
    simp only [copy_elements, List.get?_cons_zero, hf, hne, if_false, Bool.false_eq_true, ho1,
      ho2]
    have hlen : ((vs ++ [g (ptr + br)]).length : Int) + (k : Int) ≤ (P.int_max : Int) := by
      simp only [List.length_append, List.length_singleton]
      push_cast at hi ⊢
      omega
    rw [ih _ _ (by omega) (by omega) hlen]
    simp only [List.range_succ_eq_map, List.map_cons, List.map_map, List.append_assoc,
      List.singleton_append]
    congr 3
    · congr 2
      · simp
      · apply List.map_congr_left
        intro i _
        simp only [Function.comp, Nat.cast_succ]
        congr 1
        ring
    · push_cast; ring

/-- The same loop when `bytes_read` or `i` would leave the range of `int`: an addition
overflows, the loop is undefined. -/
theorem copy_elements_single_overflow (P : platform) (f : copier) (g : Int → adiak_value_t)
    (w : Nat) (hf : ∀ o, f adiak_value_t.uninit o = Run.done (g o, (w : Int))) (ptr : Int)
    (k : Nat) :
    ∀ (vs : List adiak_value_t) (br : Int), 0 ≤ br → br ≤ (P.int_max : Int) →
      (vs.length : Int) ≤ (P.int_max : Int) →
      ((P.int_max : Int) < br + (k : Int) * (w : Int) ∨
        (P.int_max : Int) < (vs.length : Int) + (k : Int)) →
      copy_elements P [f] false ptr k ⟨vs, br, 0⟩ = Run.undef := by
  induction k with
  | zero =>
    intro vs br _ hb hi h
    exfalso
    simp only [Nat.cast_zero, zero_mul, add_zero] at h
    omega
  | succ k ih =>
    intro vs br h0 hb hi h
    have hne : ((w : Int) = -1) = False := by
      apply eq_false; omega
    have hsucc : ((k + 1 : Nat) : Int) * (w : Int) = (k : Int) * (w : Int) + (w : Int) := by
      push_cast; ring
    rw [hsucc] at h
    simp only [copy_elements, List.get?_cons_zero, hf, hne, if_false, Bool.false_eq_true]
    cases ho1 : int_overflows P (br + (w : Int)) with
    | true => simp
    | false =>
      cases ho2 : int_overflows P ((vs.length : Int) + 1) with
      | true => simp
      | false =>
        simp only [Bool.false_eq_true, if_false]
        have h1 := int_overflows_false_le P _ ho1
        have h2 := int_overflows_false_le P _ ho2
        apply ih _ _ (by omega) h1
          (by simp only [List.length_append, List.length_singleton]; push_cast; omega)
        simp only [List.length_append, List.length_singleton]
        push_cast at h ⊢
        rcases h with h | h
        · left; omega
        · right; omega

/-- A list of `n` ints, `n` and `n * sizeof(int)` within `INT_MAX`: the `i`-th child is the
`int` at byte offset `i * sizeof(int)`. -/
theorem copy_value_int_list_in_range (P : platform) (m : memory) (target : adiak_value_t)
    (ptr : Int) (n : Int) (h : 0 ≤ n) (hi : n ≤ (P.int_max : Int))
    (hb : n * (P.sizeof_int : Int) ≤ (P.int_max : Int)) :
    copy_value P m (heap adiak_list adiak_categorical n 1 [static base_int]) target ptr =
      Run.done (adiak_value_t.v_ptr_values ((List.range n.toNat).map
        (fun (i : Nat) =>
          adiak_value_t.v_int (m.load_int (ptr + (i : Int) * (P.sizeof_int : Int))))),
        (P.sizeof_ptr : Int)) := by
  have hd : decide (adiak_list = adiak_tuple) = false := by decide
  have hn : ((n.toNat : Nat) : Int) = n := Int.toNat_of_nonneg h
  rw [copy_value_heap]
  simp only [copy_value_switch, List.map_cons, List.map_nil, hd]
  rw [copy_elements_single P (copy_value P m (static base_int))
    (fun o => adiak_value_t.v_int (m.load_int o)) P.sizeof_int (fun o => rfl) ptr _ [] 0
    (le_refl _) (by rw [hn]; omega) (by rw [hn]; simpa using hi)]
  simp

/-- A list of `n` ints, `n` or `n * sizeof(int)` above `INT_MAX`: an `int` of the loop
overflows. -/
theorem copy_value_int_list_overflow (P : platform) (m : memory) (target : adiak_value_t)
    (ptr : Int) (n : Int) (h : 0 ≤ n)
    (hnot : ¬ (n ≤ (P.int_max : Int) ∧ n * (P.sizeof_int : Int) ≤ (P.int_max : Int))) :
    copy_value P m (heap adiak_list adiak_categorical n 1 [static base_int]) target ptr =
      Run.undef := by
  have hd : decide (adiak_list = adiak_tuple) = false := by decide
  have hn : ((n.toNat : Nat) : Int) = n := Int.toNat_of_nonneg h
  rw [copy_value_heap]
  simp only [copy_value_switch, List.map_cons, List.map_nil, hd]
  rw [copy_elements_single_overflow P (copy_value P m (static base_int))
    (fun o => adiak_value_t.v_int (m.load_int o)) P.sizeof_int (fun o => rfl) ptr _ [] 0
    (le_refl _) (by positivity) (by simp)]
  rw [hn]
  simp only [List.length_nil, Nat.cast_zero, zero_add]
  by_cases h1 : n ≤ (P.int_max : Int)
  · left
    have : ¬ n * (P.sizeof_int : Int) ≤ (P.int_max : Int) := fun h2 => hnot ⟨h1, h2⟩
    omega
  · right
    omega

/-- C3 as stated fails: `bytes_read` is an `int`.  On the 64-bit layout, with
`n = 2^29 + 1 = 536870913`, which is a value of `int`, the string `"{%d}"` parses to the List
descriptor of the claim, but in `copy_value`, once the `2^29`-th element is copied, the
addition `bytes_read += result` has the result `2^31`, above `INT_MAX = 2^31 - 1`: the call is
undefined for every buffer, and no sequence of `n` children is produced. -/
theorem copy_value_int_list_cursor_overflow :
    parse_typestr "{%d}".toList [536870913] =
      Run.done ⟨some (heap adiak_list adiak_categorical 536870913 1 [static base_int]), [], 4⟩ ∧
    (536870913 : Int) ≤ (lp64.int_max : Int) ∧
    (lp64.int_max : Int) < 536870913 * (lp64.sizeof_int : Int) ∧
    ∀ (m : memory) (target : adiak_value_t) (ptr : Int),
      copy_value lp64 m (heap adiak_list adiak_categorical 536870913 1 [static base_int])
        target ptr = Run.undef :=
  ⟨rfl, by decide, by decide, fun m target ptr =>
    copy_value_int_list_overflow lp64 m target ptr 536870913 (by decide) (by decide)⟩

/-- C3, amended: for every `n >= 0`, `"{%d}"` with the shape argument `n` parses to a List
descriptor with `num_elements = n` and the single subtype `&base_int`, which is what
`adiak_get_basetype(adiak_int)` returns.  If `n` and `n * sizeof(int)` do not exceed `INT_MAX`,
`copy_value` on it yields `n` children, the `i`-th being the `int` read at byte offset
`i * sizeof(int)` of the buffer, and returns `sizeof(void*)`; otherwise an `int` of the loop
overflows and the call is undefined. -/
theorem parse_and_copy_int_list (P : platform) (m : memory) (target : adiak_value_t) (ptr : Int)
    (n : Int) (h : 0 ≤ n) :
    parse_typestr "{%d}".toList [n] =
      Run.done ⟨some (heap adiak_list adiak_categorical n 1 [static base_int]), [], 4⟩ ∧
    adiak_get_basetype adiak_int = some (static base_int) ∧
    (n ≤ (P.int_max : Int) → n * (P.sizeof_int : Int) ≤ (P.int_max : Int) →
      ∃ children : List adiak_value_t,
        copy_value P m (heap adiak_list adiak_categorical n 1 [static base_int]) target ptr =
          Run.done (adiak_value_t.v_ptr_values children, (P.sizeof_ptr : Int)) ∧
        (children.length : Int) = n ∧
        ∀ (i : Nat) (hi : i < children.length),
          children.get ⟨i, hi⟩ =
            adiak_value_t.v_int (m.load_int (ptr + (i : Int) * (P.sizeof_int : Int)))) ∧
    (¬ (n ≤ (P.int_max : Int) ∧ n * (P.sizeof_int : Int) ≤ (P.int_max : Int)) →
      copy_value P m (heap adiak_list adiak_categorical n 1 [static base_int]) target ptr =
        Run.undef) := by
  refine ⟨rfl, rfl, ?_, copy_value_int_list_overflow P m target ptr n h⟩
  intro hi hb
  refine ⟨_, copy_value_int_list_in_range P m target ptr n h hi hb, ?_, ?_⟩
  · simp [Int.toNat_of_nonneg h]
  · intro i hi
    simp

/-- Witness of C3 (amended): `n = 3` and the packed buffer `[1, 2, 3]` give the children
`1, 2, 3`. -/
theorem parse_and_copy_int_list_three :
    (0 : Int) ≤ 3 ∧ (3 : Int) ≤ (lp64.int_max : Int) ∧
    (3 : Int) * (lp64.sizeof_int : Int) ≤ (lp64.int_max : Int) ∧
    (∃ children : List adiak_value_t,
      copy_value lp64 (packed_ints lp64 [1, 2, 3])
          (heap adiak_list adiak_categorical 3 1 [static base_int]) adiak_value_t.uninit 0 =
        Run.done (adiak_value_t.v_ptr_values children, ((lp64.sizeof_ptr : Nat) : Int)) ∧
      (children.length : Int) = 3 ∧
      ∀ (i : Nat) (hi : i < children.length),
        children.get ⟨i, hi⟩ =
          adiak_value_t.v_int ((packed_ints lp64 [1, 2, 3]).load_int
            (0 + (i : Int) * (lp64.sizeof_int : Int)))) ∧
    parse_typestr "{%d}".toList [3] =
      Run.done ⟨some (heap adiak_list adiak_categorical 3 1 [static base_int]), [], 4⟩ ∧
    copy_value lp64 (packed_ints lp64 [1, 2, 3])
        (heap adiak_list adiak_categorical 3 1 [static base_int]) adiak_value_t.uninit 0 =
      Run.done (adiak_value_t.v_ptr_values
        [adiak_value_t.v_int 1, adiak_value_t.v_int 2, adiak_value_t.v_int 3], 8) :=
  ⟨by decide, by decide, by decide,
    (parse_and_copy_int_list lp64 (packed_ints lp64 [1, 2, 3]) adiak_value_t.uninit 0 3
      (by decide)).2.2.1 (by decide) (by decide),
    (parse_and_copy_int_list lp64 (packed_ints lp64 [1, 2, 3]) adiak_value_t.uninit 0 3
      (by decide)).1,
    rfl⟩

/-! ## Reading characters and skipping separators -/

theorem char_at_append_right (pre xs : List Char) (i : Nat) :
    char_at (pre ++ xs) (pre.length + i) = char_at xs i := by
  simp [char_at, List.getD_eq_getElem?_getD, List.getElem?_append_right]

theorem char_at_append_length (pre xs : List Char) :
    char_at (pre ++ xs) pre.length = char_at xs 0 := by
  simpa using char_at_append_right pre xs 0

theorem char_at_zero_cons (c : Char) (rest : List Char) : char_at (c :: rest) 0 = c := rfl

theorem skip_loop_spec (c : Char) (rest : List Char) (hc : is_separator c = false) :
    ∀ (seps : List Char) (before : List Char) (n : Nat),
      (∀ x ∈ seps, is_separator x = true) → seps.length < n →
      skip_loop (before ++ (seps ++ c :: rest)) n before.length = before.length + seps.length := by
  intro seps
  induction seps with
  | nil =>
    intro before n _ hn
    obtain ⟨k, rfl⟩ : ∃ k, n = k + 1 := ⟨n - 1, by simp at hn; omega⟩
    have h1 : char_at (before ++ ([] ++ c :: rest)) before.length = c := by
      rw [char_at_append_length]; rfl
    simp only [skip_loop, h1, hc, List.length_nil, Nat.add_zero]
    simp
  | cons x xs ih =>
    intro before n hs hn
    obtain ⟨k, rfl⟩ : ∃ k, n = k + 1 := ⟨n - 1, by simp at hn; omega⟩
    have hx : is_separator x = true := hs x (List.mem_cons_self _ _)
    have h1 : char_at (before ++ (x :: xs ++ c :: rest)) before.length = x := by
      rw [char_at_append_length]; rfl
    have h2 := ih (before ++ [x]) k (fun y hy => hs y (List.mem_cons_of_mem _ hy))
      (by simp at hn ⊢; omega)
    have h3 : before ++ [x] ++ (xs ++ c :: rest) = before ++ (x :: xs ++ c :: rest) := by simp
    have h4 : (before ++ [x]).length = before.length + 1 := by simp
    rw [h3, h4] at h2
    simp only [skip_loop, h1, hx, if_true, h2, List.length_cons]
    omega

/-- Skipping from the start of `seps ++ c :: rest` stops at `c`. -/
theorem skip_separators_prefix (seps : List Char) (c : Char) (rest : List Char)
    (hs : ∀ x ∈ seps, is_separator x = true) (hc : is_separator c = false) :
    skip_separators (seps ++ c :: rest) 0 = seps.length := by
  have h := skip_loop_spec c rest hc seps [] ((seps ++ c :: rest).length) hs (by simp)
  simpa [skip_separators] using h

/-! ## Scalars (C5) -/

theorem is_separator_ne_NUL (c : Char) (h : is_separator c = true) : c ≠ NUL := by
  intro hc
  subst hc
  revert h
  decide

theorem strlen_cons_ne_zero (c : Char) (cs : List Char) (h : c ≠ NUL) : strlen (c :: cs) ≠ 0 := by
  simp [strlen, h]

theorem strlen_prefix_ne_zero (seps : List Char) (c : Char) (rest : List Char)
    (hs : ∀ x ∈ seps, is_separator x = true) (hc : c ≠ NUL) :
    strlen (seps ++ c :: rest) ≠ 0 := by
  cases seps with
  | nil => exact strlen_cons_ne_zero c rest hc
  | cons x xs =>
    exact strlen_cons_ne_zero x _ (is_separator_ne_NUL x (hs x (List.mem_cons_self _ _)))

/-- The scalar branch of `parse_typestr_helper`, for a string `seps ++ '%' :: code`. -/
theorem parse_typestr_helper_percent (fuel : Nat) (seps code : List Char) (en : Nat)
    (ap : List Int) (nts : Nat) (hs : ∀ x ∈ seps, is_separator x = true) (hen : 0 ≠ en) :
    parse_typestr_helper (fuel + 1) (seps ++ '%' :: code) 0 en ap nts =
      match scalar_switch (char_at code 0 = 'l')
          (char_at code (if char_at code 0 = 'l' then 1 else 0)) with
      | none => Run.done ⟨none, ap, nts⟩
      | some b => Run.done ⟨some (static b), ap,
          seps.length + (if char_at code 0 = 'l' then 2 else 1) + 1⟩ := by
  have hskip : skip_separators (seps ++ '%' :: code) 0 = seps.length :=
    skip_separators_prefix seps '%' code hs (by decide)
  have h0 : char_at (seps ++ '%' :: code) seps.length = '%' := by
    rw [char_at_append_length]; rfl
  have h1 : char_at (seps ++ '%' :: code) (seps.length + 1) = char_at code 0 := by
    rw [char_at_append_right]; rfl
  have h2 : char_at (seps ++ '%' :: code) (seps.length + 2) = char_at code 1 := by
    rw [char_at_append_right]; rfl
  simp only [parse_typestr_helper, hen, if_false, hskip, h0, h1]
  by_cases hl : char_at code 0 = 'l'
  · simp [hl, h2]
  · simp [hl, h1]

/-- C5: for each of the eleven scalar codes, `"%c"` preceded by any separators parses, without
consuming an argument, to exactly the descriptor `adiak_get_basetype` returns for the tag of
the code, and that descriptor has this tag; two such parses of the same code, whatever their
separators and arguments, return the same descriptor reference. -/
theorem parse_typestr_scalar_interned (seps code : List Char) (T : adiak_type_t) (ap : List Int)
    (hs : ∀ x ∈ seps, is_separator x = true) (hcode : (code, T) ∈ scalar_codes) :
    parse_typestr (seps ++ '%' :: code) ap =
      Run.done ⟨adiak_get_basetype T, ap, seps.length + 1 + code.length⟩ ∧
    (∃ d, adiak_get_basetype T = some d ∧ d.dtype = T) ∧
    ∀ (seps2 : List Char) (ap2 : List Int), (∀ x ∈ seps2, is_separator x = true) →
      ∃ r1 r2, parse_typestr (seps ++ '%' :: code) ap = Run.done r1 ∧
        parse_typestr (seps2 ++ '%' :: code) ap2 = Run.done r2 ∧ r1.ret = r2.ret ∧
        r1.ret ≠ none := by
  have key : ∀ (seps : List Char) (ap : List Int), (∀ x ∈ seps, is_separator x = true) →
      parse_typestr (seps ++ '%' :: code) ap =
        Run.done ⟨adiak_get_basetype T, ap, seps.length + 1 + code.length⟩ := by
    intro seps ap hs
    have hlen : 0 ≠ strlen (seps ++ '%' :: code) :=
      Ne.symm (strlen_prefix_ne_zero seps '%' code hs (by decide))
    unfold parse_typestr
    rw [parse_typestr_helper_percent _ seps code _ ap 0 hs hlen]
    simp only [scalar_codes, List.mem_cons, Prod.mk.injEq, List.mem_singleton, List.not_mem_nil,
      or_false] at hcode
    rcases hcode with h | h | h | h | h | h | h | h | h | h | h <;>
      (obtain ⟨rfl, rfl⟩ := h; rfl)
  have hbase : ∃ d, adiak_get_basetype T = some d ∧ d.dtype = T := by
    simp only [scalar_codes, List.mem_cons, Prod.mk.injEq, List.mem_singleton, List.not_mem_nil,
      or_false] at hcode
    rcases hcode with h | h | h | h | h | h | h | h | h | h | h <;>
      (obtain ⟨_, rfl⟩ := h; exact ⟨_, rfl, rfl⟩)
  refine ⟨key seps ap hs, hbase, ?_⟩
  intro seps2 ap2 hs2
  refine ⟨_, _, key seps ap hs, key seps2 ap2 hs2, rfl, ?_⟩
  obtain ⟨d, hd, _⟩ := hbase
  simp [hd]

/-- Witness of C5: `" ,%lu"` parses to `&base_ulong`, the result of
`adiak_get_basetype(adiak_ulong)`. -/
theorem parse_typestr_scalar_interned_ulong :
    (∀ x ∈ " ,".toList, is_separator x = true) ∧ ("lu".toList, adiak_ulong) ∈ scalar_codes ∧
    parse_typestr " ,%lu".toList [5] = Run.done ⟨some (static base_ulong), [5], 5⟩ := by
  have hs : ∀ x ∈ " ,".toList, is_separator x = true := by decide
  have hc : ("lu".toList, adiak_ulong) ∈ scalar_codes := by decide
  exact ⟨hs, hc, (parse_typestr_scalar_interned " ,".toList "lu".toList adiak_ulong [5] hs hc).1⟩

/-! ## Bytes reported for a tuple (C10) -/

/-- C10 as stated fails: for the tuple `(Int, Double)` on the 64-bit layout the widths add up to
12 bytes, and `copy_value` returns 8, the width of a pointer, not the sum of the widths. -/
theorem copy_value_tuple_returns_pointer_width :
    copy_value lp64 zero_memory
        (heap adiak_tuple adiak_categorical 2 2 [static base_int, static base_double])
        adiak_value_t.uninit 0 =
      Run.done (adiak_value_t.v_ptr_values [adiak_value_t.v_int 0, adiak_value_t.v_double 0], 8) ∧
    widths_sum lp64 [base_int, base_double] = 12 ∧
    ¬ ∃ v, copy_value lp64 zero_memory
        (heap adiak_tuple adiak_categorical 2 2 [static base_int, static base_double])
        adiak_value_t.uninit 0 = Run.done (v, widths_sum lp64 [base_int, base_double]) := by
  have h1 : copy_value lp64 zero_memory
        (heap adiak_tuple adiak_categorical 2 2 [static base_int, static base_double])
        adiak_value_t.uninit 0 =
      Run.done (adiak_value_t.v_ptr_values [adiak_value_t.v_int 0, adiak_value_t.v_double 0], 8) :=
    rfl
  have h2 : widths_sum lp64 [base_int, base_double] = 12 := rfl
  refine ⟨h1, h2, ?_⟩
  rintro ⟨v, h⟩
  rw [h1, h2] at h
  simp only [Run.done.injEq, Prod.mk.injEq] at h
  omega

theorem copy_value_fixed_width (P : platform) (m : memory) (b : base_object)
    (h : (fixed_width P b.dtype).isSome = true) (target : adiak_value_t) (o : Int) :
    ∃ v, copy_value P m (static b) target o =
      Run.done (v, (((fixed_width P b.dtype).getD 0 : Nat) : Int)) := by
  cases b <;> first
    | exact ⟨_, rfl⟩
    | (exfalso; revert h; simp [base_object.dtype, fixed_width])

theorem widths_sum_cons (P : platform) (b : base_object) (bs : List base_object) :
    widths_sum P (b :: bs) = (((fixed_width P b.dtype).getD 0 : Nat) : Int) + widths_sum P bs := by
  simp [widths_sum]

theorem widths_sum_nonneg (P : platform) (bs : List base_object) : 0 ≤ widths_sum P bs := by
  induction bs with
  | nil => simp [widths_sum]
  | cons b bs ih =>
    rw [widths_sum_cons]
    have : (0 : Int) ≤ (((fixed_width P b.dtype).getD 0 : Nat) : Int) := by positivity
    omega

/-- The loop of `copy_value` over the last components `suf` of a tuple of fixed-width scalars,
as long as `bytes_read` and `i` stay in the range of `int`. -/
theorem copy_elements_fixed_width (P : platform) (m : memory) (ptr : Int) :
    ∀ (suf pre : List base_object) (vs : List adiak_value_t) (br : Int),
      (∀ b ∈ suf, (fixed_width P b.dtype).isSome = true) →
      0 ≤ br → br + widths_sum P suf ≤ (P.int_max : Int) →
      (vs.length : Int) + (suf.length : Int) ≤ (P.int_max : Int) →
      ∃ vals : List adiak_value_t,
        copy_elements P ((pre ++ suf).map (fun b => copy_value P m (static b))) true ptr
            suf.length ⟨vs, br, pre.length⟩ =
          Run.done (some ⟨vs ++ vals, br + widths_sum P suf, pre.length + suf.length⟩) ∧
        vals.length = suf.length ∧
        ∀ (i : Nat) (hi : i < suf.length),
          copy_value P m (static (suf.get ⟨i, hi⟩)) adiak_value_t.uninit
              (ptr + br + widths_sum P (suf.take i)) =
            Run.done (vals.getD i adiak_value_t.uninit,
              (((fixed_width P (suf.get ⟨i, hi⟩).dtype).getD 0 : Nat) : Int)) := by
  intro suf
  induction suf with
  | nil =>
    intro pre vs br _ _ _ _
    exact ⟨[], by simp [copy_elements, widths_sum], rfl, fun i hi => absurd hi (by simp)⟩
  | cons b suf ih =>
    intro pre vs br hfix h0 hb hi
    obtain ⟨v, hv⟩ := copy_value_fixed_width P m b (hfix b (List.mem_cons_self _ _))
      adiak_value_t.uninit (ptr + br)
    rw [widths_sum_cons] at hb
    have hs := widths_sum_nonneg P suf
    have hw : (0 : Int) ≤ (((fixed_width P b.dtype).getD 0 : Nat) : Int) := by positivity
    simp only [List.length_cons, Nat.cast_add, Nat.cast_one] at hi
    have hlen : ((vs ++ [v]).length : Int) + (suf.length : Int) ≤ (P.int_max : Int) := by
      simp only [List.length_append, List.length_singleton]
      push_cast
      omega
    obtain ⟨vals, hrun, hlen2, hget⟩ := ih (pre ++ [b]) (vs ++ [v])
      (br + (((fixed_width P b.dtype).getD 0 : Nat) : Int))
      (fun x hx => hfix x (List.mem_cons_of_mem _ hx)) (by omega) (by omega) hlen
    have hpre : pre ++ [b] ++ suf = pre ++ b :: suf := by simp
    have hpl : (pre ++ [b]).length = pre.length + 1 := by simp
    rw [hpre, hpl] at hrun
    have hidx : ((pre ++ b :: suf).map (fun b => copy_value P m (static b))).get? pre.length =
        some (copy_value P m (static b)) := by
      rw [List.get?_eq_getElem?, List.map_append, List.getElem?_append_right (by simp)]
      simp
    have hne : ((((fixed_width P b.dtype).getD 0 : Nat) : Int) = -1) = False := by
      apply eq_false; omega
    have ho1 : int_overflows P (br + (((fixed_width P b.dtype).getD 0 : Nat) : Int)) = false :=
      int_overflows_eq_false P _ (by omega) (by omega)
    have ho2 : int_overflows P ((vs.length : Int) + 1) = false :=
      int_overflows_eq_false P _ (by omega) (by omega)
    refine ⟨v :: vals, ?_, by simp [hlen2], ?_⟩
    · simp only [List.length_cons, copy_elements, hidx, hv, hne, if_false, if_true, ho1, ho2,
        Bool.false_eq_true, hrun]
      simp only [widths_sum_cons, List.append_assoc, List.singleton_append]
      congr 3
      · ring
      · omega
    · intro i hi
      cases i with
      | zero => simpa [widths_sum] using hv
      | succ j =>
        have hj : j < suf.length := by simpa using hi
        have := hget j hj
        simp only [List.take_succ_cons, widths_sum_cons, List.get_cons_succ,
          List.getD_cons_succ] at this ⊢
        rw [← this]
        congr 1
        ring

/-- The same loop when `bytes_read` or `i` would leave the range of `int`: an addition
overflows, the loop is undefined. -/
theorem copy_elements_fixed_width_overflow (P : platform) (m : memory) (ptr : Int) :
    ∀ (suf pre : List base_object) (vs : List adiak_value_t) (br : Int),
      (∀ b ∈ suf, (fixed_width P b.dtype).isSome = true) →
      0 ≤ br → br ≤ (P.int_max : Int) → (vs.length : Int) ≤ (P.int_max : Int) →
      ((P.int_max : Int) < br + widths_sum P suf ∨
        (P.int_max : Int) < (vs.length : Int) + (suf.length : Int)) →
      copy_elements P ((pre ++ suf).map (fun b => copy_value P m (static b))) true ptr
          suf.length ⟨vs, br, pre.length⟩ = Run.undef := by
  intro suf
  induction suf with
  | nil =>
    intro pre vs br _ _ hb hi h
    exfalso
    simp only [widths_sum, List.map_nil, List.sum_nil, add_zero, List.length_nil,
      Nat.cast_zero] at h
    omega
  | cons b suf ih =>
    intro pre vs br hfix h0 hb hi h
    obtain ⟨v, hv⟩ := copy_value_fixed_width P m b (hfix b (List.mem_cons_self _ _))
      adiak_value_t.uninit (ptr + br)
    rw [widths_sum_cons] at h
    have hw : (0 : Int) ≤ (((fixed_width P b.dtype).getD 0 : Nat) : Int) := by positivity
    simp only [List.length_cons, Nat.cast_add, Nat.cast_one] at h
    have hidx : ((pre ++ b :: suf).map (fun b => copy_value P m (static b))).get? pre.length =
        some (copy_value P m (static b)) := by
      rw [List.get?_eq_getElem?, List.map_append, List.getElem?_append_right (by simp)]
      simp
    have hne : ((((fixed_width P b.dtype).getD 0 : Nat) : Int) = -1) = False := by
      apply eq_false; omega
    simp only [List.length_cons, copy_elements, hidx, hv, hne, if_false, if_true]
    cases ho1 : int_overflows P (br + (((fixed_width P b.dtype).getD 0 : Nat) : Int)) with
    | true => simp
    | false =>
      cases ho2 : int_overflows P ((vs.length : Int) + 1) with
      | true => simp
      | false =>
        simp only [Bool.false_eq_true, if_false]
        have h1 := int_overflows_false_le P _ ho1
        have h2 := int_overflows_false_le P _ ho2
        have hlen : ((vs ++ [v]).length : Int) ≤ (P.int_max : Int) := by
          simp only [List.length_append, List.length_singleton]
          push_cast
          omega
        have hor : (P.int_max : Int) <
              br + (((fixed_width P b.dtype).getD 0 : Nat) : Int) + widths_sum P suf ∨
            (P.int_max : Int) < ((vs ++ [v]).length : Int) + (suf.length : Int) := by
          simp only [List.length_append, List.length_singleton]
          push_cast
          rcases h with h | h
          · left; omega
          · right; omega
        have hrun := ih (pre ++ [b]) (vs ++ [v])
          (br + (((fixed_width P b.dtype).getD 0 : Nat) : Int))
          (fun x hx => hfix x (List.mem_cons_of_mem _ hx)) (by omega) h1 hlen hor
        have hpre : pre ++ [b] ++ suf = pre ++ b :: suf := by simp
        have hpl : (pre ++ [b]).length = pre.length + 1 := by simp
        rw [hpre, hpl] at hrun
        exact hrun

/-- C10, amended: for a Tuple descriptor whose `N` subtypes are static scalars of fixed width,
`N` and the sum of the widths not above `INT_MAX`, `copy_value` returns `sizeof(void*)`; the
sum of the fixed widths is the value `bytes_read` reaches in the loop, the `i`-th child being
what `copy_value` reads for the `i`-th subtype at the offset given by the widths of the
subtypes before it.  Above `INT_MAX` an `int` of the loop overflows and the call is
undefined. -/
theorem copy_value_tuple_fixed_width (P : platform) (m : memory) (bs : List base_object)
    (nu : adiak_numerical_t) (target : adiak_value_t) (ptr : Int)
    (hfix : ∀ b ∈ bs, (fixed_width P b.dtype).isSome = true) :
    ((bs.length : Int) ≤ (P.int_max : Int) → widths_sum P bs ≤ (P.int_max : Int) →
      ∃ children : List adiak_value_t,
        copy_value P m (heap adiak_tuple nu bs.length bs.length (bs.map static)) target ptr =
          Run.done (adiak_value_t.v_ptr_values children, (P.sizeof_ptr : Int)) ∧
        copy_value_bytes_read P m (heap adiak_tuple nu bs.length bs.length (bs.map static)) ptr =
          Run.done (some (widths_sum P bs)) ∧
        children.length = bs.length ∧
        ∀ (i : Nat) (hi : i < bs.length),
          copy_value P m (static (bs.get ⟨i, hi⟩)) adiak_value_t.uninit
              (ptr + widths_sum P (bs.take i)) =
            Run.done (children.getD i adiak_value_t.uninit,
              (((fixed_width P (bs.get ⟨i, hi⟩).dtype).getD 0 : Nat) : Int))) ∧
    (¬ ((bs.length : Int) ≤ (P.int_max : Int) ∧ widths_sum P bs ≤ (P.int_max : Int)) →
      copy_value P m (heap adiak_tuple nu bs.length bs.length (bs.map static)) target ptr =
        Run.undef) := by
  have hmap : List.map (copy_value P m) (bs.map static) =
      bs.map (fun b => copy_value P m (static b)) := by
    simp [List.map_map, Function.comp]
  constructor
  · intro hlen hsum
    obtain ⟨vals, hrun, hlen2, hget⟩ := copy_elements_fixed_width P m ptr bs [] [] 0 hfix
      (le_refl _) (by omega) (by simpa using hlen)
    simp only [List.nil_append, List.length_nil, Nat.zero_add, Int.zero_add] at hrun
    refine ⟨vals, ?_, ?_, hlen2, ?_⟩
    · rw [copy_value_heap, hmap]
      simp only [copy_value_switch, Int.toNat_ofNat, decide_True, hrun]
    · simp only [copy_value_bytes_read, adiak_datatype_t.subtype, adiak_datatype_t.dtype,
        adiak_datatype_t.num_elements, copy_subtypes_eq_map, hmap, decide_True, Int.toNat_ofNat,
        hrun, Option.map_some']
    · intro i hi
      simpa using hget i hi
  · intro hnot
    have hor : (P.int_max : Int) < 0 + widths_sum P bs ∨
        (P.int_max : Int) < (([] : List adiak_value_t).length : Int) + (bs.length : Int) := by
      simp only [List.length_nil, Nat.cast_zero, zero_add]
      by_cases h1 : (bs.length : Int) ≤ (P.int_max : Int)
      · left
        have : ¬ widths_sum P bs ≤ (P.int_max : Int) := fun h2 => hnot ⟨h1, h2⟩
        omega
      · right
        omega
    have hrun := copy_elements_fixed_width_overflow P m ptr bs [] [] 0 hfix (le_refl _)
      (by positivity) (by simp) hor
    simp only [List.nil_append, List.length_nil] at hrun
    rw [copy_value_heap, hmap]
    simp only [copy_value_switch, Int.toNat_ofNat, decide_True, hrun]

/-- Witness of C10 (amended): the tuple `(Int, Double)` on the 64-bit layout. -/
theorem copy_value_tuple_fixed_width_int_double :
    (∀ b ∈ [base_int, base_double], (fixed_width lp64 b.dtype).isSome = true) ∧
    (([base_int, base_double].length : Nat) : Int) ≤ (lp64.int_max : Int) ∧
    widths_sum lp64 [base_int, base_double] ≤ (lp64.int_max : Int) ∧
    (∃ children : List adiak_value_t,
      copy_value lp64 zero_memory
          (heap adiak_tuple adiak_categorical 2 2 [static base_int, static base_double])
          adiak_value_t.uninit 0 =
        Run.done (adiak_value_t.v_ptr_values children, 8) ∧
      copy_value_bytes_read lp64 zero_memory
          (heap adiak_tuple adiak_categorical 2 2 [static base_int, static base_double]) 0 =
        Run.done (some 12)) := by
  have hfix : ∀ b ∈ [base_int, base_double], (fixed_width lp64 b.dtype).isSome = true := by
    decide
  have hlen : (([base_int, base_double].length : Nat) : Int) ≤ (lp64.int_max : Int) := by
    decide
  have hsum : widths_sum lp64 [base_int, base_double] ≤ (lp64.int_max : Int) := by decide
  obtain ⟨children, h1, h2, _, _⟩ := (copy_value_tuple_fixed_width lp64 zero_memory
    [base_int, base_double] adiak_categorical adiak_value_t.uninit 0 hfix).1 hlen hsum
  exact ⟨hfix, hlen, hsum, children, h1, h2⟩

/-! ## Bounds of `find_end_brace` and sufficiency of the fuel -/

theorem find_end_brace_loop_bounds (typestr : List Char) (endchar : Char) :
    ∀ (n : Nat) (depth : Int) (cur c : Nat),
      find_end_brace_loop typestr endchar n depth cur = some c → cur ≤ c ∧ c < cur + n := by
  intro n
  induction n with
  | zero => intro depth cur c h; simp [find_end_brace_loop] at h
  | succ n ih =>
    intro depth cur c h
    simp only [find_end_brace_loop] at h
    split_ifs at h <;> first
      | (simp only [Option.some.injEq] at h; omega)
      | (rcases ih _ _ _ h with ⟨h1, h2⟩; omega)

/-- A position returned by `find_end_brace` lies in `[typestr_start, typestr_end)`. -/
theorem find_end_brace_bounds (typestr : List Char) (endchar : Char) (st en c : Nat)
    (h : find_end_brace typestr endchar st en = some c) : st ≤ c ∧ c < en := by
  have := find_end_brace_loop_bounds typestr endchar _ _ _ _ h
  omega

theorem parse_tuple_subtypes_fuel (child : Nat → List Int → Run parse_result)
    (hchild : ∀ cur ap, child cur ap ≠ Run.fuel) :
    ∀ (k cur : Nat) (ap : List Int), parse_tuple_subtypes child k cur ap ≠ Run.fuel := by
  intro k
  induction k with
  | zero => intro cur ap; simp [parse_tuple_subtypes]
  | succ k ih =>
    intro cur ap
    simp only [parse_tuple_subtypes]
    split
    · simp
    · rename_i h; exact absurd h (hchild _ _)
    · split
      · simp
      · split
        · simp
        · rename_i h; exact absurd h (ih _ _)
        · simp

/-- With more fuel than `typestr_end`, `parse_typestr_helper` never runs out of fuel. -/
theorem parse_typestr_helper_fuel (typestr : List Char) :
    ∀ (fuel st en : Nat) (ap : List Int) (nts : Nat), en < fuel →
      parse_typestr_helper fuel typestr st en ap nts ≠ Run.fuel := by
  intro fuel
  induction fuel with
  | zero => intro st en ap nts h; omega
  | succ fuel ih =>
    intro st en ap nts hlt
    simp only [parse_typestr_helper]
    split
    · simp
    · split
      · split
        · simp
        · rename_i eb heb
          have hb := find_end_brace_bounds _ _ _ _ _ heb
          split
          · simp
          · split
            · simp
            · rename_i h; exact absurd h (ih _ _ _ _ (by omega))
            · split <;> simp
      · split
        · split
          · simp
          · rename_i eb heb
            have hb := find_end_brace_bounds _ _ _ _ _ heb
            split
            · simp
            · rename_i h; exact absurd h (ih _ _ _ _ (by omega))
            · split <;> simp
        · split
          · split
            · simp
            · rename_i eb heb
              have hb := find_end_brace_bounds _ _ _ _ _ heb
              split
              · simp
              · split
                · simp
                · split
                  · simp
                  · rename_i h
                    exact absurd h (parse_tuple_subtypes_fuel _
                      (fun cur ap => ih _ _ _ _ (by omega)) _ _ _)
                  · split <;> simp
          · split
            · split <;> simp
            · split <;> simp

/-- `parse_typestr` never runs out of fuel: `parse_typestr_helper` is total on its inputs. -/
theorem parse_typestr_total (typestr : List Char) (ap : List Int) :
    parse_typestr typestr ap ≠ Run.fuel :=
  parse_typestr_helper_fuel typestr _ _ _ _ _ (Nat.lt_succ_self _)

/-! ## Shape of the parsed tree (C4) -/

theorem nodes_list_singleton (t : adiak_datatype_t) : nodes_list [t] = nodes t := by
  simp [nodes_list]

theorem mem_nodes_list (x : adiak_datatype_t) :
    ∀ ts : List adiak_datatype_t, x ∈ nodes_list ts ↔ ∃ t ∈ ts, x ∈ nodes t := by
  intro ts
  induction ts with
  | nil => simp [nodes_list]
  | cons t ts ih => simp [nodes_list, ih]

theorem shape_args_list_singleton (t : adiak_datatype_t) : shape_args_list [t] = shape_args t := by
  simp [shape_args_list]

/-- What the tuple loop preserves, for any property `Q` of the subtypes the calls return. -/
theorem parse_tuple_subtypes_inv (child : Nat → List Int → Run parse_result)
    (Q : adiak_datatype_t → Prop)
    (hchild : ∀ cur ap r t, child cur ap = Run.done r → r.ret = some t →
      Q t ∧ ap = shape_args t ++ r.ap) :
    ∀ (k cur : Nat) (ap : List Int) (st : tuple_state) (subs : List adiak_datatype_t),
      parse_tuple_subtypes child k cur ap = Run.done st → st.subtypes = some subs →
      subs.length = k ∧ (∀ sub ∈ subs, Q sub) ∧ ap = shape_args_list subs ++ st.ap := by
  intro k
  induction k with
  | zero =>
    intro cur ap st subs h hs
    simp only [parse_tuple_subtypes, Run.done.injEq] at h
    subst h
    simp only [Option.some.injEq] at hs
    subst hs
    simp [shape_args_list]
  | succ k ih =>
    intro cur ap st subs h hs
    simp only [parse_tuple_subtypes] at h
    split at h
    · simp at h
    · simp at h
    · rename_i r hr
      split at h
      · simp only [Run.done.injEq] at h
        subst h
        simp at hs
      · rename_i sub hsub
        split at h
        · simp at h
        · simp at h
        · rename_i st1 hst1
          simp only [Run.done.injEq] at h
          subst h
          simp only [Option.map_eq_some'] at hs
          obtain ⟨subs1, hs1, rfl⟩ := hs
          obtain ⟨hq, hap⟩ := hchild _ _ _ _ hr hsub
          obtain ⟨hlen, hall, hap1⟩ := ih _ _ _ _ hst1 hs1
          refine ⟨by simp [hlen], ?_, ?_⟩
          · intro x hx
            rcases List.mem_cons.mp hx with rfl | hx
            · exact hq
            · exact hall x hx
          · rw [hap, hap1]
            simp [shape_args_list]

/-- The invariant of `parse_typestr_helper`: a returned tree is opened at the start of the call,
all its nodes are opened by the string and have the shape of their tag, and the arguments
consumed are the element counts of its Set, List and Tuple nodes in the order of entry. -/
theorem parse_typestr_helper_shape (typestr : List Char) :
    ∀ (fuel st en : Nat) (ap : List Int) (nts : Nat) (r : parse_result) (t : adiak_datatype_t),
      parse_typestr_helper fuel typestr st en ap nts = Run.done r → r.ret = some t →
      opens typestr st t ∧ opened typestr t ∧ (∀ x ∈ nodes t, node_ok x) ∧
        ap = shape_args t ++ r.ap := by
  intro fuel
  induction fuel with
  | zero => intro st en ap nts r t h; simp [parse_typestr_helper] at h
  | succ fuel ih =>
    intro st en ap nts r t h ht
    simp only [parse_typestr_helper] at h
    split at h
    · simp only [Run.done.injEq] at h; subst h; simp at ht
    · split at h
      · rename_i hc
        split at h
        · simp only [Run.done.injEq] at h; subst h; simp at ht
        · split at h
          · simp at h
          · rename_i n ap1
            split at h
            · simp at h
            · simp at h
            · rename_i r1 hr1
              split at h
              · simp only [Run.done.injEq] at h; subst h; simp at ht
              · rename_i sub hsub
                simp only [Run.done.injEq] at h; subst h
                simp only [Option.some.injEq] at ht; subst ht
                obtain ⟨_, hop, hn, hap⟩ := ih _ _ _ _ _ _ hr1 hsub
                have hroot : opens typestr st (heap (if char_at typestr (skip_separators typestr st)
                    = '{' then adiak_list else adiak_set) adiak_categorical n 1 [sub]) := by
                  rcases hc with hc | hc <;> simp [opens, delimiter_tag, hc]
                refine ⟨hroot, opened.node st _ hroot ?_, ?_, ?_⟩
                · intro x hx
                  simp only [adiak_datatype_t.subtype, List.mem_singleton] at hx
                  subst hx; exact hop
                · intro x hx
                  simp only [nodes, nodes_list_singleton, List.mem_cons] at hx
                  rcases hx with rfl | hx
                  · rcases hc with hc | hc <;>
                      simp [node_ok, adiak_datatype_t.dtype, adiak_datatype_t.num_subtypes,
                        adiak_datatype_t.subtype, hc]
                  · exact hn x hx
                · rcases hc with hc | hc <;>
                    simp [shape_args, shape_args_list_singleton, hc, hap]
      · split at h
        · rename_i hc
          split at h
          · simp only [Run.done.injEq] at h; subst h; simp at ht
          · split at h
            · simp at h
            · simp at h
            · rename_i r1 hr1
              split at h
              · simp only [Run.done.injEq] at h; subst h; simp at ht
              · rename_i sub hsub
                simp only [Run.done.injEq] at h; subst h
                simp only [Option.some.injEq] at ht; subst ht
                obtain ⟨_, hop, hn, hap⟩ := ih _ _ _ _ _ _ hr1 hsub
                have hroot : opens typestr st (heap adiak_range adiak_categorical 2 1 [sub]) := by
                  simp [opens, delimiter_tag, hc]
                refine ⟨hroot, opened.node st _ hroot ?_, ?_, ?_⟩
                · intro x hx
                  simp only [adiak_datatype_t.subtype, List.mem_singleton] at hx
                  subst hx; exact hop
                · intro x hx
                  simp only [nodes, nodes_list_singleton, List.mem_cons] at hx
                  rcases hx with rfl | hx
                  · simp [node_ok, adiak_datatype_t.dtype, adiak_datatype_t.num_subtypes,
                      adiak_datatype_t.num_elements, adiak_datatype_t.subtype]
                  · exact hn x hx
                · simp [shape_args, shape_args_list_singleton, hap]
        · split at h
          · rename_i hc
            split at h
            · simp only [Run.done.injEq] at h; subst h; simp at ht
            · split at h
              · simp at h
              · rename_i n ap1
                split at h
                · simp at h
                · rename_i hn0
                  split at h
                  · simp at h
                  · simp at h
                  · rename_i st1 hst1
                    split at h
                    · simp only [Run.done.injEq] at h; subst h; simp at ht
                    · rename_i subs hsubs
                      simp only [Run.done.injEq] at h; subst h
                      simp only [Option.some.injEq] at ht; subst ht
                      obtain ⟨hlen, hall, hap⟩ := parse_tuple_subtypes_inv _
                        (fun x => opened typestr x ∧ ∀ y ∈ nodes x, node_ok y)
                        (fun cur ap r t hr ht =>
                          have hi := ih _ _ _ _ _ _ hr ht
                          ⟨⟨hi.2.1, hi.2.2.1⟩, hi.2.2.2⟩)
                        _ _ _ _ _ hst1 hsubs
                      have hroot : opens typestr st (heap adiak_tuple adiak_categorical n n subs) := by
                        simp [opens, delimiter_tag, hc]
                      refine ⟨hroot, opened.node st _ hroot ?_, ?_, ?_⟩
                      · intro x hx
                        exact (hall x hx).1
                      · intro x hx
                        simp only [nodes, List.mem_cons, mem_nodes_list] at hx
                        rcases hx with rfl | ⟨y, hy, hxy⟩
                        · simp only [node_ok, adiak_datatype_t.dtype,
                            adiak_datatype_t.num_subtypes, adiak_datatype_t.num_elements,
                            adiak_datatype_t.subtype, hlen, true_and]
                          omega
                        · exact (hall y hy).2 x hxy
                      · simp [shape_args, hap]
          · split at h
            · rename_i hc
              split at h
              · simp only [Run.done.injEq] at h; subst h; simp at ht
              · rename_i b hb
                simp only [Run.done.injEq] at h; subst h
                simp only [Option.some.injEq] at ht; subst ht
                have hroot : opens typestr st (static b) := by simp [opens, hc]
                refine ⟨hroot, opened.node st _ hroot ?_, ?_, ?_⟩
                · intro x hx; simp [adiak_datatype_t.subtype] at hx
                · intro x hx
                  simp only [nodes, List.mem_singleton] at hx
                  subst hx
                  cases b <;> simp [node_ok, adiak_datatype_t.dtype, base_object.dtype]
                · simp [shape_args]
            · split at h
              · rename_i h1 h2 h3 h4 hc
                simp only [Run.done.injEq] at h; subst h
                simp only [Option.some.injEq] at ht; subst ht
                have hnul : char_at typestr (skip_separators typestr st) = NUL := by
                  simp only [strchr_open, Bool.decide_or, Bool.or_eq_true, decide_eq_true_eq] at hc
                  rcases hc with hc | hc | hc | hc | hc
                  · exact absurd (Or.inr hc) h1
                  · exact absurd (Or.inl hc) h1
                  · exact absurd hc h2
                  · exact absurd hc h3
                  · exact hc
                have hroot : opens typestr st
                    (heap adiak_type_unset adiak_numerical_unset 0 0 []) := by
                  simp [opens, hnul]
                refine ⟨hroot, opened.node st _ hroot ?_, ?_, ?_⟩
                · intro x hx; simp [adiak_datatype_t.subtype] at hx
                · intro x hx
                  simp only [nodes, nodes_list, List.mem_singleton] at hx
                  subst hx
                  simp [node_ok, adiak_datatype_t.dtype]
                · simp [shape_args, shape_args_list]
              · simp only [Run.done.injEq] at h; subst h; simp at ht

/-- C4: in a tree returned by a successful `parse_typestr`, the root is opened by the first
character after the separators, every node is opened by the string with the delimiter of its
tag (`<` Range, `[` Set, `{` List, `(` Tuple), every node has the shape of its tag (Range: two
elements, one subtype; Set and List: one subtype; Tuple: as many subtypes as elements, none
missing), and the shape arguments consumed are exactly the element counts of the Set, List and
Tuple nodes in the order of entry, a Range consuming none. -/
theorem parse_typestr_shape (typestr : List Char) (ap : List Int) (r : parse_result)
    (t : adiak_datatype_t) (h : parse_typestr typestr ap = Run.done r) (ht : r.ret = some t) :
    opens typestr 0 t ∧ opened typestr t ∧ (∀ x ∈ nodes t, node_ok x) ∧
      ap = shape_args t ++ r.ap :=
  parse_typestr_helper_shape typestr _ _ _ _ _ _ _ h ht

/-- Witness of C4: `"(<%d>,[{%f}])"` with the shape arguments `2, 3, 4` and a spare `9`. -/
theorem parse_typestr_shape_nested :
    parse_typestr "(<%d>,[{%f}])".toList [2, 3, 4, 9] =
      Run.done ⟨some (heap adiak_tuple adiak_categorical 2 2
        [heap adiak_range adiak_categorical 2 1 [static base_int],
         heap adiak_set adiak_categorical 3 1
           [heap adiak_list adiak_categorical 4 1 [static base_double]]]), [9], 0⟩ ∧
    (∀ x ∈ nodes (heap adiak_tuple adiak_categorical 2 2
        [heap adiak_range adiak_categorical 2 1 [static base_int],
         heap adiak_set adiak_categorical 3 1
           [heap adiak_list adiak_categorical 4 1 [static base_double]]]), node_ok x) ∧
    shape_args (heap adiak_tuple adiak_categorical 2 2
        [heap adiak_range adiak_categorical 2 1 [static base_int],
         heap adiak_set adiak_categorical 3 1
           [heap adiak_list adiak_categorical 4 1 [static base_double]]]) = [2, 3, 4] := by
  have h : parse_typestr "(<%d>,[{%f}])".toList [2, 3, 4, 9] =
      Run.done ⟨some (heap adiak_tuple adiak_categorical 2 2
        [heap adiak_range adiak_categorical 2 1 [static base_int],
         heap adiak_set adiak_categorical 3 1
           [heap adiak_list adiak_categorical 4 1 [static base_double]]]), [9], 0⟩ := rfl
  exact ⟨h, (parse_typestr_shape _ _ _ _ h rfl).2.2.1, rfl⟩

/-! ## Independence of the fuel -/

theorem parse_typestr_helper_fuel_irrelevant (typestr : List Char) :
    ∀ (f1 f2 st en : Nat) (ap : List Int) (nts : Nat), en < f1 → en < f2 →
      parse_typestr_helper f1 typestr st en ap nts =
        parse_typestr_helper f2 typestr st en ap nts := by
  intro f1
  induction f1 with
  | zero => intro f2 st en ap nts h; omega
  | succ f1 ih =>
    intro f2 st en ap nts h1 h2
    obtain ⟨f2, rfl⟩ : ∃ k, f2 = k + 1 := ⟨f2 - 1, by omega⟩
    simp only [parse_typestr_helper]
    by_cases hse : st = en
    · simp only [hse, if_true]
    simp only [hse, if_false]
    by_cases hc1 : char_at typestr (skip_separators typestr st) = '{' ∨
        char_at typestr (skip_separators typestr st) = '['
    · simp only [hc1, if_true]
      cases heb : find_end_brace typestr
          (if char_at typestr (skip_separators typestr st) = '{' then '}' else ']')
          (skip_separators typestr st) en with
      | none => rfl
      | some eb =>
        have hb := find_end_brace_bounds _ _ _ _ _ heb
        cases ap with
        | nil => rfl
        | cons n ap1 =>
          simp only []
          rw [ih f2 _ eb _ _ (by omega) (by omega)]
    simp only [hc1, if_false]
    by_cases hc2 : char_at typestr (skip_separators typestr st) = '<'
    · simp only [hc2, if_true]
      cases heb : find_end_brace typestr '>' (skip_separators typestr st) en with
      | none => rfl
      | some eb =>
        have hb := find_end_brace_bounds _ _ _ _ _ heb
        simp only []
        rw [ih f2 _ eb _ _ (by omega) (by omega)]
    simp only [hc2, if_false]
    by_cases hc3 : char_at typestr (skip_separators typestr st) = '('
    · simp only [hc3, if_true]
      cases heb : find_end_brace typestr ')' (skip_separators typestr st) en with
      | none => rfl
      | some eb =>
        have hb := find_end_brace_bounds _ _ _ _ _ heb
        cases ap with
        | nil => rfl
        | cons n ap1 =>
          simp only []
          have hfun : (fun cur1 ap2 => parse_typestr_helper f1 typestr cur1 eb ap2 cur1) =
              (fun cur1 ap2 => parse_typestr_helper f2 typestr cur1 eb ap2 cur1) := by
            funext cur1 ap2
            exact ih f2 _ eb _ _ (by omega) (by omega)
          rw [hfun]
    simp only [hc3, if_false]

/-! ## Unmatched delimiters (C6) -/

theorem parse_tuple_subtypes_succ (child : Nat → List Int → Run parse_result) (k cur : Nat)
    (ap : List Int) :
    parse_tuple_subtypes child (k + 1) cur ap =
      match child cur ap with
      | Run.undef => Run.undef
      | Run.fuel => Run.fuel
      | Run.done r =>
        match r.ret with
        | none => Run.done ⟨none, r.new_typestr_start, r.ap⟩
        | some sub =>
          match parse_tuple_subtypes child k r.new_typestr_start r.ap with
          | Run.undef => Run.undef
          | Run.fuel => Run.fuel
          | Run.done st => Run.done ⟨st.subtypes.map (fun l => sub :: l), st.cur, st.ap⟩ := rfl

/-- If the first `k` components of a tuple parse and the next one comes back `NULL`, the loop
ends without subtypes. -/
theorem parse_tuple_subtypes_fail_at (child : Nat → List Int → Run parse_result) :
    ∀ (k j cur : Nat) (ap : List Int) (subs : List adiak_datatype_t) (cur_k : Nat)
      (ap_k : List Int) (r : parse_result),
      parse_tuple_subtypes child k cur ap = Run.done ⟨some subs, cur_k, ap_k⟩ →
      child cur_k ap_k = Run.done r → r.ret = none →
      ∃ st, parse_tuple_subtypes child (k + j + 1) cur ap = Run.done st ∧ st.subtypes = none := by
  intro k
  induction k with
  | zero =>
    intro j cur ap subs cur_k ap_k r h hr hret
    simp only [parse_tuple_subtypes, Run.done.injEq, tuple_state.mk.injEq] at h
    obtain ⟨_, rfl, rfl⟩ := h
    refine ⟨⟨none, r.new_typestr_start, r.ap⟩, ?_, rfl⟩
    have : 0 + j + 1 = j + 1 := by omega
    rw [this, parse_tuple_subtypes_succ, hr]
    simp only [hret]
  | succ k ih =>
    intro j cur ap subs cur_k ap_k r h hr hret
    have e : k + 1 + j + 1 = (k + j + 1) + 1 := by omega
    rw [e, parse_tuple_subtypes_succ]
    rw [parse_tuple_subtypes_succ] at h
    cases hr0 : child cur ap with
    | undef => rw [hr0] at h; simp at h
    | fuel => rw [hr0] at h; simp at h
    | done r0 =>
      rw [hr0] at h
      simp only [] at h ⊢
      cases hsub : r0.ret with
      | none => rw [hsub] at h; simp at h
      | some sub =>
        rw [hsub] at h
        simp only [] at h ⊢
        cases hst1 : parse_tuple_subtypes child k r0.new_typestr_start r0.ap with
        | undef => rw [hst1] at h; simp at h
        | fuel => rw [hst1] at h; simp at h
        | done st1 =>
          rw [hst1] at h
          simp only [Run.done.injEq, tuple_state.mk.injEq] at h
          obtain ⟨hs, rfl, rfl⟩ := h
          obtain ⟨subs1, hs1⟩ : ∃ subs1, st1.subtypes = some subs1 := by
            cases hst : st1.subtypes with
            | none => simp [hst] at hs
            | some l => exact ⟨l, rfl⟩
          have hst1' : parse_tuple_subtypes child k r0.new_typestr_start r0.ap =
              Run.done ⟨some subs1, st1.cur, st1.ap⟩ := by
            rw [hst1, ← hs1]
          obtain ⟨st2, hst2, hnone⟩ := ih j _ _ _ _ _ r hst1' hr hret
          rw [hst2]
          exact ⟨_, rfl, by simp [hnone]⟩

theorem closing_delimiter_set_or_list (c : Char) (h : c = '{' ∨ c = '[') :
    closing_delimiter c = if c = '{' then '}' else ']' := by
  rcases h with rfl | rfl <;> rfl

/-- Entering an unmatched delimiter makes the call return `NULL`, whatever the fuel above
`typestr_end`. -/
theorem parse_typestr_helper_unmatched (typestr : List Char) (st en : Nat) (ap : List Int)
    (h : enters_unmatched typestr st en ap) :
    ∀ (fuel nts : Nat), en < fuel →
      ∃ ap1, parse_typestr_helper fuel typestr st en ap nts = Run.done ⟨none, ap1, nts⟩ := by
  induction h with
  | here st en ap hne hopen hfeb =>
    intro fuel nts hf
    obtain ⟨f, rfl⟩ : ∃ k, fuel = k + 1 := ⟨fuel - 1, by omega⟩
    simp only [is_open, Bool.decide_or, Bool.or_eq_true, decide_eq_true_eq] at hopen
    simp only [parse_typestr_helper, hne, if_false]
    rcases hopen with hc | hc | hc | hc
    · rw [hc] at hfeb
      have hfeb' : find_end_brace typestr ']' (skip_separators typestr st) en = none := hfeb
      simp [hc, hfeb']
    · rw [hc] at hfeb
      have hfeb' : find_end_brace typestr '}' (skip_separators typestr st) en = none := hfeb
      simp [hc, hfeb']
    · rw [hc] at hfeb
      have hfeb' : find_end_brace typestr ')' (skip_separators typestr st) en = none := hfeb
      simp [hc, hfeb']
    · rw [hc] at hfeb
      have hfeb' : find_end_brace typestr '>' (skip_separators typestr st) en = none := hfeb
      simp [hc, hfeb']
  | in_set_or_list st en n ap eb hne hc hfeb _ ih =>
    intro fuel nts hf
    obtain ⟨f, rfl⟩ : ∃ k, fuel = k + 1 := ⟨fuel - 1, by omega⟩
    have hb := find_end_brace_bounds _ _ _ _ _ hfeb
    rw [closing_delimiter_set_or_list _ hc] at hfeb
    obtain ⟨ap1, hchild⟩ := ih f (skip_separators typestr st) (by omega)
    simp only [parse_typestr_helper, hne, if_false, hc, if_true, hfeb, hchild]
    exact ⟨ap1, rfl⟩
  | in_range st en ap eb hne hc hfeb _ ih =>
    intro fuel nts hf
    obtain ⟨f, rfl⟩ : ∃ k, fuel = k + 1 := ⟨fuel - 1, by omega⟩
    have hb := find_end_brace_bounds _ _ _ _ _ hfeb
    obtain ⟨ap1, hchild⟩ := ih f (skip_separators typestr st) (by omega)
    have h1 : ¬ ('<' = '{' ∨ '<' = '[') := by decide
    rw [parse_typestr_helper]
    simp only [hne, if_false, hc, h1, if_true, hfeb, hchild]
    exact ⟨ap1, rfl⟩
  | in_tuple st en n ap eb k subs cur_k ap_k hne hc hfeb hk hloop _ ih =>
    intro fuel nts hf
    obtain ⟨f, rfl⟩ : ∃ k, fuel = k + 1 := ⟨fuel - 1, by omega⟩
    have hb := find_end_brace_bounds _ _ _ _ _ hfeb
    obtain ⟨ap1, hchild⟩ := ih (eb + 1) cur_k (by omega)
    have hfun : (fun cur1 ap2 => parse_typestr_helper f typestr cur1 eb ap2 cur1) =
        (fun cur1 ap2 => parse_range typestr cur1 eb ap2 cur1) := by
      funext cur1 ap2
      exact parse_typestr_helper_fuel_irrelevant typestr _ _ _ _ _ _ (by omega) (by omega)
    have hn : n.toNat = k + (n.toNat - k - 1) + 1 := by omega
    obtain ⟨st2, hst2, hnone⟩ := parse_tuple_subtypes_fail_at
      (fun cur1 ap2 => parse_range typestr cur1 eb ap2 cur1) k (n.toNat - k - 1) _ _ _ _ _
      ⟨none, ap1, cur_k⟩ hloop hchild rfl
    rw [← hn] at hst2
    have h1 : ¬ ('(' = '{' ∨ '(' = '[') := by decide
    have h2 : ¬ ('(' = '<') := by decide
    have h3 : ¬ (n < 0) := by omega
    rw [parse_typestr_helper]
    simp only [hne, if_false, hc, h1, h2, h3, if_true, hfeb, hfun, hst2, hnone]
    exact ⟨st2.ap, rfl⟩

/-- C6: whenever the parser enters an opening delimiter for which `find_end_brace` finds no
closing delimiter of its kind at depth zero in the enclosing range, at the top level (then
whatever the shape arguments) or in a nested typespec it reaches, `parse_typestr` returns
`NULL`. -/
theorem parse_typestr_unmatched (typestr : List Char) (ap : List Int)
    (h : enters_unmatched typestr 0 (strlen typestr) ap) :
    ∃ ap1, parse_typestr typestr ap = Run.done ⟨none, ap1, 0⟩ :=
  parse_typestr_helper_unmatched typestr 0 (strlen typestr) ap h _ 0 (Nat.lt_succ_self _)

/-- Witness of C6: `"[%d"` has no `]`, so it fails whatever the arguments; in `"(%d,<%d])"`
with the shape argument `2` the second component opens a `<` that is never closed. -/
theorem parse_typestr_unmatched_examples :
    (enters_unmatched "[%d".toList 0 (strlen "[%d".toList) [3] ∧
      ∃ ap1, parse_typestr "[%d".toList [3] = Run.done ⟨none, ap1, 0⟩) ∧
    (enters_unmatched "(%d,<%d])".toList 0 (strlen "(%d,<%d])".toList) [2] ∧
      ∃ ap1, parse_typestr "(%d,<%d])".toList [2] = Run.done ⟨none, ap1, 0⟩) := by
  have h1 : enters_unmatched "[%d".toList 0 (strlen "[%d".toList) [3] :=
    enters_unmatched.here 0 _ _ (by decide) rfl rfl
  have h2 : enters_unmatched "(%d,<%d])".toList 0 (strlen "(%d,<%d])".toList) [2] :=
    enters_unmatched.in_tuple 0 _ 2 [] 8 1 [static base_int] 3 [] (by decide) rfl rfl
      (by decide) rfl (enters_unmatched.here 3 8 [] (by decide) rfl rfl)
  exact ⟨⟨h1, parse_typestr_unmatched _ _ h1⟩, ⟨h2, parse_typestr_unmatched _ _ h2⟩⟩

/-! ## `find_end_brace` finds the first closing character at depth zero (C18) -/

theorem depth_step (c : Char) (depth : Int) :
    (if is_close c then (if is_open c then depth + 1 else depth) - 1
      else (if is_open c then depth + 1 else depth)) = depth + depth_delta c := by
  by_cases ho : c = '[' ∨ c = '{' ∨ c = '(' ∨ c = '<'
  · have hc : ¬ (c = ']' ∨ c = '}' ∨ c = ')' ∨ c = '>') := by
      rcases ho with h | h | h | h <;> subst h <;> decide
    simp [is_open, is_close, depth_delta, ho, hc]
  · by_cases hc : c = ']' ∨ c = '}' ∨ c = ')' ∨ c = '>'
    · simp only [is_open, is_close, depth_delta, ho, hc, decide_True, decide_False, if_true,
        if_false, Bool.false_eq_true]
      ring
    · simp [is_open, is_close, depth_delta, ho, hc]

theorem depth_after_self (typestr : List Char) (start : Nat) :
    depth_after typestr start start = depth_delta (char_at typestr start) := by
  have e : start + 1 - start = 1 := by omega
  simp [depth_after, e, List.range_succ]

theorem depth_after_succ (typestr : List Char) (start c : Nat) (h : start < c) :
    depth_after typestr start c =
      depth_delta (char_at typestr start) + depth_after typestr (start + 1) c := by
  have e1 : c + 1 - start = (c + 1 - (start + 1)) + 1 := by omega
  simp only [depth_after]
  rw [e1, List.range_succ_eq_map]
  simp only [List.map_cons, List.sum_cons, List.map_map, Nat.add_zero]
  congr 2
  apply List.map_congr_left
  intro k _
  simp only [Function.comp, Nat.succ_eq_add_one]
  congr 2
  omega

/-- The loop of `find_end_brace`, started at `cur` with the depth `depth`. -/
theorem find_end_brace_loop_spec (typestr : List Char) (endchar : Char) :
    ∀ (n : Nat) (depth : Int) (cur : Nat),
      (∀ c, find_end_brace_loop typestr endchar n depth cur = some c ↔
        (cur ≤ c ∧ c < cur + n ∧ char_at typestr c = endchar ∧
          depth + depth_after typestr cur c = 0 ∧
          ∀ c1, cur ≤ c1 → c1 < c →
            ¬ (char_at typestr c1 = endchar ∧ depth + depth_after typestr cur c1 = 0))) ∧
      (find_end_brace_loop typestr endchar n depth cur = none ↔
        ∀ c, cur ≤ c → c < cur + n →
          ¬ (char_at typestr c = endchar ∧ depth + depth_after typestr cur c = 0)) := by
  intro n
  induction n with
  | zero =>
    intro depth cur
    refine ⟨fun c => ?_, ?_⟩
    · simp only [find_end_brace_loop]
      constructor
      · intro h; cases h
      · rintro ⟨h1, h2, _⟩; omega
    · simp only [find_end_brace_loop, true_iff]
      intro c h1 h2; omega
  | succ n ih =>
    intro depth cur
    obtain ⟨ih1, ih2⟩ := ih (depth + depth_delta (char_at typestr cur)) (cur + 1)
    have hunf : find_end_brace_loop typestr endchar (n + 1) depth cur =
        if depth + depth_delta (char_at typestr cur) = 0 ∧ char_at typestr cur = endchar
        then some cur
        else find_end_brace_loop typestr endchar n
          (depth + depth_delta (char_at typestr cur)) (cur + 1) := by
      simp only [find_end_brace_loop, depth_step]
    have hshift : ∀ c, cur < c →
        depth + depth_after typestr cur c =
          depth + depth_delta (char_at typestr cur) + depth_after typestr (cur + 1) c := by
      intro c hc
      rw [depth_after_succ typestr cur c hc]; ring
    rw [hunf]
    by_cases hacc : depth + depth_delta (char_at typestr cur) = 0 ∧ char_at typestr cur = endchar
    · rw [if_pos hacc]
      refine ⟨fun c => ?_, ?_⟩
      · constructor
        · intro h
          simp only [Option.some.injEq] at h
          subst h
          refine ⟨le_refl _, by omega, hacc.2, by rw [depth_after_self]; exact hacc.1, ?_⟩
          intro c1 h1 h2; omega
        · rintro ⟨h1, _, _, _, h5⟩
          by_contra hne
          have hlt : cur < c := by
            rcases Nat.lt_or_ge cur c with h | h
            · exact h
            · exact absurd (congrArg some (Nat.le_antisymm h1 h)) hne
          exact h5 cur (le_refl _) hlt ⟨hacc.2, by rw [depth_after_self]; exact hacc.1⟩
      · constructor
        · intro h; cases h
        · intro h
          exact absurd ⟨hacc.2, by rw [depth_after_self]; exact hacc.1⟩
            (h cur (le_refl _) (by omega))
    · rw [if_neg hacc]
      have hcur : ¬ (char_at typestr cur = endchar ∧ depth + depth_after typestr cur cur = 0) := by
        rw [depth_after_self]
        intro h; exact hacc ⟨h.2, h.1⟩
      refine ⟨fun c => ?_, ?_⟩
      · rw [ih1 c]
        constructor
        · rintro ⟨h1, h2, h3, h4, h5⟩
          refine ⟨by omega, by omega, h3, by rw [hshift c (by omega)]; exact h4, ?_⟩
          intro c1 hc1 hc1'
          rcases Nat.eq_or_lt_of_le hc1 with rfl | hlt
          · exact hcur
          · rw [hshift c1 hlt]
            exact h5 c1 (by omega) hc1'
        · rintro ⟨h1, h2, h3, h4, h5⟩
          have hlt : cur < c := by
            rcases Nat.eq_or_lt_of_le h1 with rfl | hlt
            · exact absurd ⟨h3, h4⟩ hcur
            · exact hlt
          refine ⟨by omega, by omega, h3, by rw [← hshift c hlt]; exact h4, ?_⟩
          intro c1 hc1 hc1'
          rw [← hshift c1 (by omega)]
          exact h5 c1 (by omega) hc1'
      · rw [ih2]
        constructor
        · intro h c hc1 hc2
          rcases Nat.eq_or_lt_of_le hc1 with rfl | hlt
          · exact hcur
          · rw [hshift c hlt]
            exact h c (by omega) (by omega)
        · intro h c hc1 hc2
          rw [← hshift c (by omega)]
          exact h c (by omega) (by omega)

/-- C18: `find_end_brace` returns the smallest index `c` of `[start, end)` at which the
character is `endchar` and the nesting depth after reading `typestr[start..c]` is zero, and it
returns `-1` exactly when no index of the range is such; so the sought closing character is
accepted only at depth zero and no other character is accepted. -/
theorem find_end_brace_spec (typestr : List Char) (endchar : Char) (typestr_start typestr_end : Nat) :
    (∀ c, find_end_brace typestr endchar typestr_start typestr_end = some c ↔
      (typestr_start ≤ c ∧ c < typestr_end ∧ closes_at typestr endchar typestr_start c ∧
        ∀ c1, typestr_start ≤ c1 → c1 < c → ¬ closes_at typestr endchar typestr_start c1)) ∧
    (find_end_brace typestr endchar typestr_start typestr_end = none ↔
      ∀ c, typestr_start ≤ c → c < typestr_end →
        ¬ closes_at typestr endchar typestr_start c) := by
  obtain ⟨h1, h2⟩ := find_end_brace_loop_spec typestr endchar
    (typestr_end - typestr_start) 0 typestr_start
  simp only [Int.zero_add] at h1 h2
  refine ⟨fun c => ?_, ?_⟩
  · simp only [find_end_brace, closes_at]
    rw [h1 c]
    constructor
    · rintro ⟨a, b, c1, d, e⟩
      exact ⟨a, by omega, ⟨c1, d⟩, e⟩
    · rintro ⟨a, b, ⟨c1, d⟩, e⟩
      exact ⟨a, by omega, c1, d, e⟩
  · simp only [find_end_brace, closes_at]
    rw [h2]
    constructor
    · intro h c hc1 hc2
      exact h c hc1 (by omega)
    · intro h c hc1 hc2
      exact h c hc1 (by omega)

/-- Witness of C18: in `"[(]]"` the first `]` comes at depth one and is passed over; the
second one, at depth zero, is returned. -/
theorem find_end_brace_spec_example :
    find_end_brace "[(]]".toList ']' 0 4 = some 3 ∧
    closes_at "[(]]".toList ']' 0 3 ∧ ¬ closes_at "[(]]".toList ']' 0 2 := by
  have h : find_end_brace "[(]]".toList ']' 0 4 = some 3 := rfl
  have hs := ((find_end_brace_spec "[(]]".toList ']' 0 4).1 3).1 h
  exact ⟨h, hs.2.2.1, hs.2.2.2 2 (by decide) (by decide)⟩

/-! ## A property of all the nodes of a parsed tree -/

/-- A property that holds of the static objects, of a zeroed node and of every node the
container branches build holds of every node of a tree `parse_typestr_helper` returns. -/
theorem parse_typestr_helper_forall_nodes (typestr : List Char) (Q : adiak_datatype_t → Prop)
    (hstatic : ∀ b, Q (static b))
    (hzero : Q (heap adiak_type_unset adiak_numerical_unset 0 0 []))
    (hcomp : ∀ (dtype : adiak_type_t) (n ns : Int) (subs : List adiak_datatype_t),
      (dtype = adiak_range ∨ dtype = adiak_set ∨ dtype = adiak_list ∨ dtype = adiak_tuple) →
      Q (heap dtype adiak_categorical n ns subs)) :
    ∀ (fuel st en : Nat) (ap : List Int) (nts : Nat) (r : parse_result) (t : adiak_datatype_t),
      parse_typestr_helper fuel typestr st en ap nts = Run.done r → r.ret = some t →
      ∀ x ∈ nodes t, Q x := by
  intro fuel
  induction fuel with
  | zero => intro st en ap nts r t h; simp [parse_typestr_helper] at h
  | succ fuel ih =>
    intro st en ap nts r t h ht
    simp only [parse_typestr_helper] at h
    split at h
    · simp only [Run.done.injEq] at h; subst h; simp at ht
    · split at h
      · rename_i hc
        split at h
        · simp only [Run.done.injEq] at h; subst h; simp at ht
        · split at h
          · simp at h
          · rename_i n ap1
            split at h
            · simp at h
            · simp at h
            · rename_i r1 hr1
              split at h
              · simp only [Run.done.injEq] at h; subst h; simp at ht
              · rename_i sub hsub
                simp only [Run.done.injEq] at h; subst h
                simp only [Option.some.injEq] at ht; subst ht
                intro x hx
                simp only [nodes, nodes_list_singleton, List.mem_cons] at hx
                rcases hx with rfl | hx
                · apply hcomp
                  split <;> simp
                · exact ih _ _ _ _ _ _ hr1 hsub x hx
      · split at h
        · split at h
          · simp only [Run.done.injEq] at h; subst h; simp at ht
          · split at h
            · simp at h
            · simp at h
            · rename_i r1 hr1
              split at h
              · simp only [Run.done.injEq] at h; subst h; simp at ht
              · rename_i sub hsub
                simp only [Run.done.injEq] at h; subst h
                simp only [Option.some.injEq] at ht; subst ht
                intro x hx
                simp only [nodes, nodes_list_singleton, List.mem_cons] at hx
                rcases hx with rfl | hx
                · exact hcomp _ _ _ _ (Or.inl rfl)
                · exact ih _ _ _ _ _ _ hr1 hsub x hx
        · split at h
          · split at h
            · simp only [Run.done.injEq] at h; subst h; simp at ht
            · split at h
              · simp at h
              · rename_i n ap1
                split at h
                · simp at h
                · split at h
                  · simp at h
                  · simp at h
                  · rename_i st1 hst1
                    split at h
                    · simp only [Run.done.injEq] at h; subst h; simp at ht
                    · rename_i subs hsubs
                      simp only [Run.done.injEq] at h; subst h
                      simp only [Option.some.injEq] at ht; subst ht
                      obtain ⟨_, hall, _⟩ := parse_tuple_subtypes_inv _
                        (fun y => (∀ z ∈ nodes y, Q z) ∧ ∀ z ∈ nodes y, node_ok z)
                        (fun cur ap r t hr ht =>
                          ⟨⟨ih _ _ _ _ _ _ hr ht,
                            (parse_typestr_helper_shape typestr _ _ _ _ _ _ _ hr ht).2.2.1⟩,
                            (parse_typestr_helper_shape typestr _ _ _ _ _ _ _ hr ht).2.2.2⟩)
                        _ _ _ _ _ hst1 hsubs
                      intro x hx
                      simp only [nodes, List.mem_cons, mem_nodes_list] at hx
                      rcases hx with rfl | ⟨y, hy, hxy⟩
                      · exact hcomp _ _ _ _ (Or.inr (Or.inr (Or.inr rfl)))
                      · exact (hall y hy).1 x hxy
          · split at h
            · split at h
              · simp only [Run.done.injEq] at h; subst h; simp at ht
              · rename_i b hb
                simp only [Run.done.injEq] at h; subst h
                simp only [Option.some.injEq] at ht; subst ht
                intro x hx
                simp only [nodes, List.mem_singleton] at hx
                subst hx
                exact hstatic b
            · split at h
              · simp only [Run.done.injEq] at h; subst h
                simp only [Option.some.injEq] at ht; subst ht
                intro x hx
                simp only [nodes, nodes_list, List.mem_singleton] at hx
                subst hx
                exact hzero
              · simp only [Run.done.injEq] at h; subst h; simp at ht

/-! ## Numerical classes (C16) -/

/-- C16: `adiak_numerical_from_type` is the table of the specification, and every descriptor
the code produces, a static leaf returned by `adiak_get_basetype` or a node of a tree returned
by `parse_typestr`, has `numerical = adiak_numerical_from_type(dtype)`. -/
theorem numerical_from_type_everywhere :
    (∀ row ∈ numerical_class_table, ∀ T ∈ row.1, adiak_numerical_from_type T = row.2) ∧
    (∀ T : adiak_type_t, ∃ row ∈ numerical_class_table, T ∈ row.1) ∧
    (∀ (T : adiak_type_t) (d : adiak_datatype_t), adiak_get_basetype T = some d →
      d.dtype = T ∧ d.numerical = adiak_numerical_from_type T) ∧
    (∀ (typestr : List Char) (ap : List Int) (r : parse_result) (t : adiak_datatype_t),
      parse_typestr typestr ap = Run.done r → r.ret = some t →
      ∀ x ∈ nodes t, x.numerical = adiak_numerical_from_type x.dtype) := by
  refine ⟨by decide, ?_, ?_, ?_⟩
  · intro T
    cases T <;> decide
  · intro T d h
    cases T <;> simp only [adiak_get_basetype, Option.some.injEq] at h <;> first
      | (subst h; exact ⟨rfl, rfl⟩)
      | exact absurd h (by simp)
  · intro typestr ap r t h ht
    refine parse_typestr_helper_forall_nodes typestr
      (fun x => x.numerical = adiak_numerical_from_type x.dtype) ?_ rfl ?_ _ _ _ _ _ _ _ h ht
    · intro b; cases b <;> rfl
    · intro dtype n ns subs hd
      rcases hd with rfl | rfl | rfl | rfl <;> rfl

/-- Witness of C16: the nodes of the tree of `"[(%t,%s)]"` and the leaf of `adiak_path`. -/
theorem numerical_from_type_everywhere_example :
    (∀ x ∈ nodes (heap adiak_set adiak_categorical 3 1
        [heap adiak_tuple adiak_categorical 2 2 [static base_timeval, static base_string]]),
      x.numerical = adiak_numerical_from_type x.dtype) ∧
    (static base_path).numerical = adiak_numerical_from_type adiak_path := by
  have h : parse_typestr "[(%t,%s)]".toList [3, 2] =
      Run.done ⟨some (heap adiak_set adiak_categorical 3 1
        [heap adiak_tuple adiak_categorical 2 2 [static base_timeval, static base_string]]),
        [], 9⟩ := rfl
  exact ⟨numerical_from_type_everywhere.2.2.2 _ _ _ _ h rfl,
    (numerical_from_type_everywhere.2.2.1 adiak_path _ rfl).2⟩

/-! ## `toplevel_type` and the parser agree on the root tag (C19) -/

theorem toplevel_type_not_percent (typestr : List Char)
    (hc : char_at typestr (skip_separators typestr 0) ≠ '%') :
    toplevel_type typestr =
      if char_at typestr (skip_separators typestr 0) = '<' then adiak_range
      else if char_at typestr (skip_separators typestr 0) = '[' then adiak_set
      else if char_at typestr (skip_separators typestr 0) = '{' then adiak_list
      else if char_at typestr (skip_separators typestr 0) = '(' then adiak_tuple
      else adiak_type_unset := by
  simp only [toplevel_type, hc, if_false]

theorem copy_elements_succ (P : platform) (subtype : List copier) (is_tuple : Bool) (ptr : Int)
    (k : Nat) (st : elements_state) :
    copy_elements P subtype is_tuple ptr (k + 1) st =
      match subtype.get? st.type_index with
      | none => Run.undef
      | some f =>
        match f adiak_value_t.uninit (ptr + st.bytes_read) with
        | Run.undef => Run.undef
        | Run.fuel => Run.fuel
        | Run.done (v, result) =>
          if result = -1 then Run.done none
          else if int_overflows P (st.bytes_read + result) then Run.undef
          else if int_overflows P ((st.newvalues.length : Int) + 1) then Run.undef
          else copy_elements P subtype is_tuple ptr k
            ⟨st.newvalues ++ [v], st.bytes_read + result,
              if is_tuple then st.type_index + 1 else st.type_index⟩ := rfl

/-- If `k` elements are copied and the call for the next one returns `-1`, the loop returns
`-1`. -/
theorem copy_elements_fail_at (P : platform) (subtype : List copier) (is_tuple : Bool)
    (ptr : Int) :
    ∀ (k j : Nat) (st0 st : elements_state) (f : copier) (v : adiak_value_t),
      copy_elements P subtype is_tuple ptr k st0 = Run.done (some st) →
      subtype.get? st.type_index = some f →
      f adiak_value_t.uninit (ptr + st.bytes_read) = Run.done (v, -1) →
      copy_elements P subtype is_tuple ptr (k + j + 1) st0 = Run.done none := by
  intro k
  induction k with
  | zero =>
    intro j st0 st f v h hf hv
    simp only [copy_elements, Run.done.injEq, Option.some.injEq] at h
    subst h
    have e : 0 + j + 1 = j + 1 := by omega
    rw [e, copy_elements_succ, hf]
    simp only [hv, if_true]
  | succ k ih =>
    intro j st0 st f v h hf hv
    have e : k + 1 + j + 1 = (k + j + 1) + 1 := by omega
    rw [e, copy_elements_succ]
    rw [copy_elements_succ] at h
    cases hg : subtype.get? st0.type_index with
    | none => rw [hg] at h; simp at h
    | some g =>
      rw [hg] at h
      simp only [] at h ⊢
      cases hr : g adiak_value_t.uninit (ptr + st0.bytes_read) with
      | undef => rw [hr] at h; simp at h
      | fuel => rw [hr] at h; simp at h
      | done res =>
        obtain ⟨v1, result⟩ := res
        rw [hr] at h
        simp only [] at h ⊢
        by_cases hres : result = -1
        · simp [hres] at h
        · rw [if_neg hres] at h ⊢
          cases ho1 : int_overflows P (st0.bytes_read + result) with
          | true => rw [ho1] at h; simp at h
          | false =>
            rw [ho1] at h
            cases ho2 : int_overflows P ((st0.newvalues.length : Int) + 1) with
            | true => rw [ho2] at h; simp at h
            | false =>
              rw [ho2] at h
              simp only [Bool.false_eq_true, if_false] at h ⊢
              exact ih j _ _ f v h hf hv

/-- C11: whenever the walk of `copy_value` reaches a descriptor whose tag is
`adiak_type_unset`, at the root or below composites that reach it as the subtype of one of their
elements, the top-level call returns `-1` and leaves the target as it was. -/
theorem copy_value_unset_aborts (P : platform) (m : memory) (d : adiak_datatype_t) (ptr : Int)
    (h : reaches_unset P m d ptr) :
    ∀ target : adiak_value_t, copy_value P m d target ptr = Run.done (target, -1) := by
  induction h with
  | here d ptr hd =>
    intro target
    cases d with
    | static b => cases b <;> simp [adiak_datatype_t.dtype, base_object.dtype] at hd
    | heap dtype nu ne ns subs =>
      simp only [adiak_datatype_t.dtype] at hd
      subst hd
      rw [copy_value_heap]
      rfl
  | in_element dtype nu ne ns subs ptr k st sub hcomp hk hrun hsub _ ih =>
    intro target
    rw [copy_subtypes_eq_map] at hrun
    have hget : (subs.map (copy_value P m)).get? st.type_index = some (copy_value P m sub) := by
      rw [List.get?_eq_getElem?] at hsub ⊢
      rw [List.getElem?_map, hsub]
      rfl
    have hn : ne.toNat = k + (ne.toNat - k - 1) + 1 := by omega
    have hfail := copy_elements_fail_at P (subs.map (copy_value P m)) (dtype = adiak_tuple) ptr
      k (ne.toNat - k - 1) _ _ _ _ hrun hget (ih adiak_value_t.uninit)
    rw [← hn] at hfail
    rw [copy_value_heap]
    rcases hcomp with rfl | rfl | rfl | rfl
    · simp only [copy_value_switch, hfail]
    · simp only [copy_value_switch, hfail]
    · simp only [copy_value_switch, hfail]
    · simp only [decide_True] at hfail
      simp only [copy_value_switch, decide_True, hfail]

/-- Witness of C11: a tuple whose second subtype is a list of zeroed descriptors. -/
theorem copy_value_unset_aborts_nested :
    reaches_unset lp64 zero_memory
      (heap adiak_tuple adiak_categorical 2 2
        [static base_int,
         heap adiak_list adiak_categorical 1 1
           [heap adiak_type_unset adiak_numerical_unset 0 0 []]]) 0 ∧
    copy_value lp64 zero_memory
      (heap adiak_tuple adiak_categorical 2 2
        [static base_int,
         heap adiak_list adiak_categorical 1 1
           [heap adiak_type_unset adiak_numerical_unset 0 0 []]]) adiak_value_t.uninit 0 =
      Run.done (adiak_value_t.uninit, -1) := by
  have h : reaches_unset lp64 zero_memory
      (heap adiak_tuple adiak_categorical 2 2
        [static base_int,
         heap adiak_list adiak_categorical 1 1
           [heap adiak_type_unset adiak_numerical_unset 0 0 []]]) 0 :=
    reaches_unset.in_element _ _ _ _ _ 0 1 ⟨[adiak_value_t.v_int 0], 4, 1⟩ _
      (Or.inr (Or.inr (Or.inr rfl))) (by decide) rfl rfl
      (reaches_unset.in_element _ _ _ _ _ _ 0 ⟨[], 0, 0⟩ _
        (Or.inr (Or.inr (Or.inl rfl))) (by decide) rfl rfl
        (reaches_unset.here _ _ rfl))
  exact ⟨h, copy_value_unset_aborts _ _ _ _ h _⟩

/-! ## Broadcast to the registered tools (C14, C15) -/

/-- The calls of the loop of `adiak_raw_namevalue`: the eligible tools, in the order of the
list, each tool with a callback receiving one call. -/
theorem raw_namevalue_loop_eq (g : adiak_t) (name : List Char) (category : adiak_category_t)
    (value : adiak_value_t) (type : adiak_datatype_t) (tools : List adiak_tool_t) :
    raw_namevalue_loop g name category value type tools =
      (tools.filter (fun tool => eligible g category tool)).filterMap
        (call_for name category value type) := by
  induction tools with
  | nil => rfl
  | cons tool next ih =>
    simp only [raw_namevalue_loop, ih]
    by_cases h1 : tool.report_on_all_ranks = 0 ∧ g.reportable_rank = 0
    · have he : eligible g category tool = false := by
        simp [eligible, h1.1, h1.2]
      simp [h1, he]
    · by_cases h2 : tool.category ≠ adiak_category_all ∧ tool.category ≠ category
      · have he : eligible g category tool = false := by
          simp [eligible, h2.1, h2.2]
        simp [h1, h2, he]
      · have he : eligible g category tool = true := by
          simp only [eligible, ne_eq, Bool.decide_and, Bool.decide_or, Bool.and_eq_true,
            Bool.or_eq_true, decide_eq_true_eq]
          constructor
          · by_contra hcon
            push_neg at hcon
            exact h1 ⟨hcon.1, hcon.2⟩
          · by_contra hcon
            push_neg at hcon
            exact h2 ⟨hcon.1, hcon.2⟩
        rw [if_neg h1, if_neg h2, List.filter_cons_of_pos he]
        cases hcb : tool.name_val_cb with
        | none => simp [call_for, hcb]
        | some cb => simp [call_for, hcb]

/-- C14 as stated fails: a registration with a `NULL` callback that reports on all ranks and
filters nothing satisfies the condition of the claim and receives no call, because of the test
`if (tool->name_val_cb)`. -/
theorem raw_namevalue_skips_null_callback :
    eligible ⟨1, 1, [⟨1, 7, none, 1, adiak_category_all⟩]⟩ adiak_general
      ⟨1, 7, none, 1, adiak_category_all⟩ = true ∧
    (adiak_raw_namevalue ⟨1, 1, [⟨1, 7, none, 1, adiak_category_all⟩]⟩ "x".toList adiak_general
      (adiak_value_t.v_int 3) (static base_int)).1 = [] := by
  refine ⟨rfl, rfl⟩

/-- C14, amended: `adiak_raw_namevalue` makes one call for each registration that satisfies the
condition of the specification (it reports on all ranks or the process is the reporter, and its
filter is All or the published category) and has a callback, in the order of the list, and no
other call.  So a registration whose filter is neither All nor the published category, and a
registration that does not report on all ranks in a process that is not the reporter, receive
nothing. -/
theorem raw_namevalue_delivers (g : adiak_t) (name : List Char) (category : adiak_category_t)
    (value : adiak_value_t) (type : adiak_datatype_t) :
    (adiak_raw_namevalue g name category value type).1 =
      (g.tool_list.filter (fun tool => eligible g category tool)).filterMap
        (call_for name category value type) ∧
    (∀ tool : adiak_tool_t, tool.category ≠ adiak_category_all → tool.category ≠ category →
      eligible g category tool = false) ∧
    (∀ tool : adiak_tool_t, tool.report_on_all_ranks = 0 → g.reportable_rank = 0 →
      eligible g category tool = false) ∧
    (∀ tool : adiak_tool_t,
      (∃ c, raw_namevalue_loop g name category value type [tool] = [c]) ↔
        (eligible g category tool = true ∧ tool.name_val_cb ≠ none)) := by
  refine ⟨raw_namevalue_loop_eq _ _ _ _ _ _, ?_, ?_, ?_⟩
  · intro tool h1 h2
    simp [eligible, h1, h2]
  · intro tool h1 h2
    simp [eligible, h1, h2]
  · intro tool
    rw [raw_namevalue_loop_eq]
    by_cases he : eligible g category tool = true
    · cases hcb : tool.name_val_cb with
      | none => simp [he, call_for, hcb]
      | some cb => simp [he, call_for, hcb]
    · simp [he]

/-- Witness of C14 (amended): a tool filtered on `adiak_performance` receives nothing for a
publish in `adiak_general`; a tool with filter All receives one call. -/
theorem raw_namevalue_delivers_example :
    (adiak_raw_namevalue ⟨1, 1, [⟨1, 7, some 100, 0, adiak_performance⟩,
        ⟨1, 8, some 200, 0, adiak_category_all⟩]⟩ "x".toList adiak_general
      (adiak_value_t.v_int 3) (static base_int)).1 =
      (([⟨1, 7, some 100, 0, adiak_performance⟩,
        ⟨1, 8, some 200, 0, adiak_category_all⟩] : List adiak_tool_t).filter
        (fun tool => eligible ⟨1, 1, [⟨1, 7, some 100, 0, adiak_performance⟩,
          ⟨1, 8, some 200, 0, adiak_category_all⟩]⟩ adiak_general tool)).filterMap
        (call_for "x".toList adiak_general (adiak_value_t.v_int 3) (static base_int)) ∧
    eligible ⟨1, 1, []⟩ adiak_general ⟨1, 7, some 100, 0, adiak_performance⟩ = false :=
  ⟨(raw_namevalue_delivers _ _ _ _ _).1,
    (raw_namevalue_delivers ⟨1, 1, []⟩ [] adiak_general adiak_value_t.uninit
      (static base_int)).2.1 ⟨1, 7, some 100, 0, adiak_performance⟩ (by decide) (by decide)⟩

theorem is_stop_cases (c : Char) (h : is_stop c) :
    c = NUL ∨ c = ']' ∨ c = '}' ∨ c = ')' ∨ c = '>' := by
  rcases h with h | h
  · exact Or.inl h
  · right
    simpa [is_close] using h

theorem is_stop_not_separator (c : Char) (h : is_stop c) : is_separator c = false := by
  rcases is_stop_cases c h with rfl | rfl | rfl | rfl | rfl <;> decide

theorem is_stop_ne_percent (c : Char) (h : is_stop c) : c ≠ '%' := by
  rcases is_stop_cases c h with rfl | rfl | rfl | rfl | rfl <;> decide

theorem is_stop_ne_l (c : Char) (h : is_stop c) : c ≠ 'l' := by
  rcases is_stop_cases c h with rfl | rfl | rfl | rfl | rfl <;> decide

theorem is_stop_not_open (c : Char) (h : is_stop c) : is_open c = false := by
  rcases is_stop_cases c h with rfl | rfl | rfl | rfl | rfl <;> decide

theorem is_stop_scalar_switch (c : Char) (l : Bool) (h : is_stop c) :
    scalar_switch l c = none := by
  rcases is_stop_cases c h with rfl | rfl | rfl | rfl | rfl <;> cases l <;> decide

theorem char_at_ne_NUL (typestr : List Char) :
    ∀ i : Nat, i < strlen typestr → char_at typestr i ≠ NUL := by
  induction typestr with
  | nil => intro i h; simp [strlen] at h
  | cons c cs ih =>
    intro i h
    by_cases hc : c = NUL
    · simp [strlen, hc] at h
    · simp only [strlen, hc, if_false] at h
      cases i with
      | zero => simpa [char_at] using hc
      | succ j =>
        have := ih j (by omega)
        simpa [char_at] using this

theorem skip_loop_le (typestr : List Char) (e : Nat)
    (he : is_separator (char_at typestr e) = false) :
    ∀ (n cur : Nat), cur ≤ e → skip_loop typestr n cur ≤ e := by
  intro n
  induction n with
  | zero => intro cur h; simpa [skip_loop] using h
  | succ n ih =>
    intro cur h
    simp only [skip_loop]
    split
    · rename_i hs
      have hne : cur ≠ e := by
        intro heq; rw [heq, he] at hs; exact absurd hs (by simp)
      exact ih _ (by omega)
    · exact h

/-- Skipping separators from inside a range does not pass its end. -/
theorem skip_separators_le (typestr : List Char) (st e : Nat) (h : st ≤ e)
    (he : is_separator (char_at typestr e) = false) : skip_separators typestr st ≤ e :=
  skip_loop_le typestr e he _ _ h

theorem skip_loop_ge (typestr : List Char) :
    ∀ (n cur : Nat), cur ≤ skip_loop typestr n cur := by
  intro n
  induction n with
  | zero => intro cur; simp [skip_loop]
  | succ n ih =>
    intro cur
    simp only [skip_loop]
    split
    · exact Nat.le_trans (Nat.le_succ _) (ih _)
    · exact Nat.le_refl _

theorem skip_separators_ge (typestr : List Char) (st : Nat) :
    st ≤ skip_separators typestr st :=
  skip_loop_ge typestr _ _

/-- The index `find_end_brace` returns holds the sought character. -/
theorem find_end_brace_char (typestr : List Char) (endchar : Char) (st en c : Nat)
    (h : find_end_brace typestr endchar st en = some c) : char_at typestr c = endchar :=
  (((find_end_brace_loop_spec typestr endchar (en - st) 0 st).1 c).1 h).2.2.1

/-- The tuple loop keeps the cursor below `end_brace` if each call does, and a property of the
subtrees the calls return holds of all the subtypes. -/
theorem parse_tuple_subtypes_bounded (child : Nat → List Int → Run parse_result) (eb : Nat)
    (Q : adiak_datatype_t → Prop)
    (hchild : ∀ cur ap r, cur ≤ eb → child cur ap = Run.done r →
      r.new_typestr_start ≤ eb ∧ ∀ t, r.ret = some t → Q t) :
    ∀ (k cur : Nat) (ap : List Int) (st : tuple_state), cur ≤ eb →
      parse_tuple_subtypes child k cur ap = Run.done st →
      st.cur ≤ eb ∧ ∀ subs, st.subtypes = some subs → ∀ sub ∈ subs, Q sub := by
  intro k
  induction k with
  | zero =>
    intro cur ap st hcur h
    simp only [parse_tuple_subtypes, Run.done.injEq] at h
    subst h
    exact ⟨hcur, fun subs hs sub hsub => by simp at hs; subst hs; simp at hsub⟩
  | succ k ih =>
    intro cur ap st hcur h
    rw [parse_tuple_subtypes_succ] at h
    cases hr0 : child cur ap with
    | undef => rw [hr0] at h; simp at h
    | fuel => rw [hr0] at h; simp at h
    | done r0 =>
      obtain ⟨hb0, hq0⟩ := hchild cur ap r0 hcur hr0
      rw [hr0] at h
      simp only [] at h
      cases hsub : r0.ret with
      | none =>
        rw [hsub] at h
        simp only [Run.done.injEq] at h
        subst h
        exact ⟨hb0, fun subs hs => by simp at hs⟩
      | some sub =>
        rw [hsub] at h
        simp only [] at h
        cases hst1 : parse_tuple_subtypes child k r0.new_typestr_start r0.ap with
        | undef => rw [hst1] at h; simp at h
        | fuel => rw [hst1] at h; simp at h
        | done st1 =>
          rw [hst1] at h
          simp only [Run.done.injEq] at h
          subst h
          obtain ⟨hb1, hq1⟩ := ih _ _ _ hb0 hst1
          refine ⟨hb1, ?_⟩
          intro subs hs x hx
          simp only [Option.map_eq_some'] at hs
          obtain ⟨subs1, hs1, rfl⟩ := hs
          rcases List.mem_cons.mp hx with rfl | hx
          · exact hq0 _ hsub
          · exact hq1 subs1 hs1 x hx

theorem is_close_is_stop (c : Char) (h : is_close c = true) : is_stop c := Or.inr h

theorem static_dtype_ne_unset (b : base_object) : (static b).dtype ≠ adiak_type_unset := by
  cases b <;> simp [adiak_datatype_t.dtype, base_object.dtype]

/-- For a call on a range `[st, en]` of the string that ends on a stop character: the value of
`*new_typestr_start` stays within the range, and a returned tree has no node with the tag
`adiak_type_unset` unless the first character after the separators is the terminating NUL. -/
theorem parse_typestr_helper_bounds (typestr : List Char) :
    ∀ (fuel st en : Nat) (ap : List Int) (nts : Nat) (r : parse_result),
      en ≤ strlen typestr → st ≤ en → is_stop (char_at typestr en) →
      parse_typestr_helper fuel typestr st en ap nts = Run.done r →
      (nts ≤ en → r.new_typestr_start ≤ en) ∧
      (∀ t, r.ret = some t → char_at typestr (skip_separators typestr st) ≠ NUL →
        ∀ x ∈ nodes t, x.dtype ≠ adiak_type_unset) := by
  intro fuel
  induction fuel with
  | zero => intro st en ap nts r _ _ _ h; simp [parse_typestr_helper] at h
  | succ fuel ih =>
    intro st en ap nts r hen hst hstop h
    have hcur_le : skip_separators typestr st ≤ en :=
      skip_separators_le typestr st en hst (is_stop_not_separator _ hstop)
    simp only [parse_typestr_helper] at h
    by_cases hse : st = en
    · simp only [hse, if_true, Run.done.injEq] at h
      subst h
      exact ⟨fun hn => hn, fun t ht => by simp at ht⟩
    simp only [hse, if_false] at h
    by_cases hc1 : char_at typestr (skip_separators typestr st) = '{' ∨
        char_at typestr (skip_separators typestr st) = '['
    · simp only [hc1, if_true] at h
      cases heb : find_end_brace typestr
          (if char_at typestr (skip_separators typestr st) = '{' then '}' else ']')
          (skip_separators typestr st) en with
      | none =>
        rw [heb] at h
        simp only [Run.done.injEq] at h
        subst h
        exact ⟨fun hn => hn, fun t ht => by simp at ht⟩
      | some eb =>
        rw [heb] at h
        have hb := find_end_brace_bounds _ _ _ _ _ heb
        have hch := find_end_brace_char _ _ _ _ _ heb
        have hstop1 : is_stop (char_at typestr eb) := by
          apply is_close_is_stop
          rw [hch]
          split <;> decide
        have hne : skip_separators typestr st ≠ eb := by
          intro heq
          rw [← heq] at hch
          rcases hc1 with hc | hc <;> rw [hc] at hch <;> revert hch <;> decide
        cases ap with
        | nil => simp at h
        | cons n ap1 =>
          simp only [] at h
          cases hr1 : parse_typestr_helper fuel typestr (skip_separators typestr st + 1) eb ap1
              (skip_separators typestr st) with
          | undef => rw [hr1] at h; simp at h
          | fuel => rw [hr1] at h; simp at h
          | done r1 =>
            rw [hr1] at h
            simp only [] at h
            obtain ⟨_, hi2⟩ := ih _ _ _ _ _ (by omega) (by omega) hstop1 hr1
            cases hret : r1.ret with
            | none =>
              rw [hret] at h
              simp only [Run.done.injEq] at h
              subst h
              exact ⟨fun hn => hn, fun t ht => by simp at ht⟩
            | some sub =>
              rw [hret] at h
              simp only [Run.done.injEq] at h
              subst h
              refine ⟨fun _ => by simp only []; omega, ?_⟩
              intro t ht _ x hx
              simp only [Option.some.injEq] at ht
              subst ht
              simp only [nodes, nodes_list_singleton, List.mem_cons] at hx
              rcases hx with rfl | hx
              · simp only [adiak_datatype_t.dtype]
                split <;> simp
              · have hsk : skip_separators typestr (skip_separators typestr st + 1) ≤ eb :=
                  skip_separators_le typestr _ eb (by omega) (is_stop_not_separator _ hstop1)
                exact hi2 sub hret (char_at_ne_NUL typestr _ (by omega)) x hx
    simp only [hc1, if_false] at h
    by_cases hc2 : char_at typestr (skip_separators typestr st) = '<'
    · simp only [hc2, if_true] at h
      cases heb : find_end_brace typestr '>' (skip_separators typestr st) en with
      | none =>
        rw [heb] at h
        simp only [Run.done.injEq] at h
        subst h
        exact ⟨fun hn => hn, fun t ht => by simp at ht⟩
      | some eb =>
        rw [heb] at h
        have hb := find_end_brace_bounds _ _ _ _ _ heb
        have hch := find_end_brace_char _ _ _ _ _ heb
        have hstop1 : is_stop (char_at typestr eb) := by
          apply is_close_is_stop
          rw [hch]
          decide
        have hne : skip_separators typestr st ≠ eb := by
          intro heq
          rw [← heq, hc2] at hch
          revert hch
          decide
        simp only [] at h
        cases hr1 : parse_typestr_helper fuel typestr (skip_separators typestr st + 1) eb ap
            (skip_separators typestr st) with
        | undef => rw [hr1] at h; simp at h
        | fuel => rw [hr1] at h; simp at h
        | done r1 =>
          rw [hr1] at h
          simp only [] at h
          obtain ⟨_, hi2⟩ := ih _ _ _ _ _ (by omega) (by omega) hstop1 hr1
          cases hret : r1.ret with
          | none =>
            rw [hret] at h
            simp only [Run.done.injEq] at h
            subst h
            exact ⟨fun hn => hn, fun t ht => by simp at ht⟩
          | some sub =>
            rw [hret] at h
            simp only [Run.done.injEq] at h
            subst h
            refine ⟨fun _ => by simp only []; omega, ?_⟩
            intro t ht _ x hx
            simp only [Option.some.injEq] at ht
            subst ht
            simp only [nodes, nodes_list_singleton, List.mem_cons] at hx
            rcases hx with rfl | hx
            · simp [adiak_datatype_t.dtype]
            · have hsk : skip_separators typestr (skip_separators typestr st + 1) ≤ eb :=
                skip_separators_le typestr _ eb (by omega) (is_stop_not_separator _ hstop1)
              exact hi2 sub hret (char_at_ne_NUL typestr _ (by omega)) x hx
    simp only [hc2, if_false] at h
    by_cases hc3 : char_at typestr (skip_separators typestr st) = '('
    · simp only [hc3, if_true] at h
      cases heb : find_end_brace typestr ')' (skip_separators typestr st) en with
      | none =>
        rw [heb] at h
        simp only [Run.done.injEq] at h
        subst h
        exact ⟨fun hn => hn, fun t ht => by simp at ht⟩
      | some eb =>
        rw [heb] at h
        have hb := find_end_brace_bounds _ _ _ _ _ heb
        have hch := find_end_brace_char _ _ _ _ _ heb
        have hstop1 : is_stop (char_at typestr eb) := by
          apply is_close_is_stop
          rw [hch]
          decide
        have hne : skip_separators typestr st ≠ eb := by
          intro heq
          rw [← heq, hc3] at hch
          revert hch
          decide
        cases ap with
        | nil => simp at h
        | cons n ap1 =>
          simp only [] at h
          by_cases hn0 : n < 0
          · simp [hn0] at h
          simp only [hn0, if_false] at h
          cases hloop : parse_tuple_subtypes
              (fun cur1 ap2 => parse_typestr_helper fuel typestr cur1 eb ap2 cur1)
              n.toNat (skip_separators typestr st + 1) ap1 with
          | undef => rw [hloop] at h; simp at h
          | fuel => rw [hloop] at h; simp at h
          | done st1 =>
            rw [hloop] at h
            simp only [] at h
            obtain ⟨_, hq⟩ := parse_tuple_subtypes_bounded
              (fun cur1 ap2 => parse_typestr_helper fuel typestr cur1 eb ap2 cur1) eb
              (fun y => ∀ x ∈ nodes y, x.dtype ≠ adiak_type_unset)
              (fun cur ap r hcur hr => by
                obtain ⟨hi1, hi2⟩ := ih _ _ _ _ _ (by omega) hcur hstop1 hr
                refine ⟨hi1 hcur, fun t ht => hi2 t ht ?_⟩
                have hsk : skip_separators typestr cur ≤ eb :=
                  skip_separators_le typestr _ eb hcur (is_stop_not_separator _ hstop1)
                exact char_at_ne_NUL typestr _ (by omega))
              _ _ _ _ (by omega) hloop
            cases hsubs : st1.subtypes with
            | none =>
              rw [hsubs] at h
              simp only [Run.done.injEq] at h
              subst h
              exact ⟨fun hn => hn, fun t ht => by simp at ht⟩
            | some subs =>
              rw [hsubs] at h
              simp only [Run.done.injEq] at h
              subst h
              refine ⟨fun hn => hn, ?_⟩
              intro t ht _ x hx
              simp only [Option.some.injEq] at ht
              subst ht
              simp only [nodes, List.mem_cons, mem_nodes_list] at hx
              rcases hx with rfl | ⟨y, hy, hxy⟩
              · simp [adiak_datatype_t.dtype]
              · exact hq subs hsubs y hy x hxy
    simp only [hc3, if_false] at h
    by_cases hc4 : char_at typestr (skip_separators typestr st) = '%'
    · simp only [hc4, if_true] at h
      have h1 : skip_separators typestr st ≠ en := by
        intro heq
        rw [heq] at hc4
        exact is_stop_ne_percent _ hstop hc4
      by_cases hl : char_at typestr (skip_separators typestr st + 1) = 'l'
      · have h2 : skip_separators typestr st + 1 ≠ en := by
          intro heq
          rw [heq] at hl
          exact is_stop_ne_l _ hstop hl
        simp only [hl, decide_True, if_true] at h
        cases hsw : scalar_switch true (char_at typestr (skip_separators typestr st + 2)) with
        | none =>
          rw [hsw] at h
          simp only [Run.done.injEq] at h
          subst h
          exact ⟨fun hn => hn, fun t ht => by simp at ht⟩
        | some b =>
          rw [hsw] at h
          simp only [Run.done.injEq] at h
          subst h
          have h3 : skip_separators typestr st + 2 ≠ en := by
            intro heq
            rw [heq, is_stop_scalar_switch _ _ hstop] at hsw
            simp at hsw
          refine ⟨fun _ => by simp only []; omega, ?_⟩
          intro t ht _ x hx
          simp only [Option.some.injEq] at ht
          subst ht
          simp only [nodes, List.mem_singleton] at hx
          subst hx
          exact static_dtype_ne_unset b
      · simp only [hl, decide_False, if_false, Bool.false_eq_true] at h
        cases hsw : scalar_switch false (char_at typestr (skip_separators typestr st + 1)) with
        | none =>
          rw [hsw] at h
          simp only [Run.done.injEq] at h
          subst h
          exact ⟨fun hn => hn, fun t ht => by simp at ht⟩
        | some b =>
          rw [hsw] at h
          simp only [Run.done.injEq] at h
          subst h
          have h3 : skip_separators typestr st + 1 ≠ en := by
            intro heq
            rw [heq, is_stop_scalar_switch _ _ hstop] at hsw
            simp at hsw
          refine ⟨fun _ => by simp only []; omega, ?_⟩
          intro t ht _ x hx
          simp only [Option.some.injEq] at ht
          subst ht
          simp only [nodes, List.mem_singleton] at hx
          subst hx
          exact static_dtype_ne_unset b
    simp only [hc4, if_false] at h
    by_cases hc5 : strchr_open (char_at typestr (skip_separators typestr st)) = true
    · simp only [hc5, if_true, Run.done.injEq] at h
      subst h
      refine ⟨fun hn => hn, ?_⟩
      intro t _ hnul
      exfalso
      apply hnul
      simp only [strchr_open, Bool.decide_or, Bool.or_eq_true, decide_eq_true_eq] at hc5
      rcases hc5 with hc | hc | hc | hc | hc
      · exact absurd (Or.inr hc) hc1
      · exact absurd (Or.inl hc) hc1
      · exact absurd hc hc2
      · exact absurd hc hc3
      · exact hc
    · simp only [hc5, if_false, Run.done.injEq, Bool.false_eq_true] at h
      subst h
      exact ⟨fun hn => hn, fun t ht => by simp at ht⟩

/-! ## `copy_value` on trees without an Unset node -/

theorem nodes_length_le_of_mem (sub : adiak_datatype_t) :
    ∀ subs : List adiak_datatype_t, sub ∈ subs → (nodes sub).length ≤ (nodes_list subs).length := by
  intro subs
  induction subs with
  | nil => intro h; simp at h
  | cons y ys ih =>
    intro h
    simp only [nodes_list, List.length_append]
    rcases List.mem_cons.mp h with rfl | h
    · omega
    · have := ih h; omega

/-- The loop of `copy_value` never returns `-1` if no call does and `subtype[type_index]`
exists at each iteration: it ends with success, unless a call is undefined or an `int` of the
loop overflows. -/
theorem copy_elements_defined (P : platform) (fs : List copier) (is_tuple : Bool) (ptr : Int)
    (hall : ∀ f ∈ fs, ∀ p, f adiak_value_t.uninit p = Run.undef ∨
      ∃ v n, f adiak_value_t.uninit p = Run.done (v, n) ∧ n ≠ -1) :
    ∀ (k : Nat) (st : elements_state),
      (if is_tuple then st.type_index + k ≤ fs.length else k = 0 ∨ st.type_index < fs.length) →
      copy_elements P fs is_tuple ptr k st = Run.undef ∨
      ∃ st1, copy_elements P fs is_tuple ptr k st = Run.done (some st1) := by
  intro k
  induction k with
  | zero => intro st _; exact Or.inr ⟨st, rfl⟩
  | succ k ih =>
    intro st hidx
    have hlt : st.type_index < fs.length := by
      cases is_tuple with
      | true => simp only [if_true] at hidx; omega
      | false =>
        simp only [Bool.false_eq_true, if_false] at hidx
        rcases hidx with h | h
        · omega
        · exact h
    have hget : fs.get? st.type_index = some (fs.get ⟨st.type_index, hlt⟩) :=
      List.get?_eq_get hlt
    rw [copy_elements_succ, hget]
    rcases hall _ (List.get_mem fs st.type_index hlt) (ptr + st.bytes_read) with
      hu | ⟨v, n, hf, hn⟩
    · left
      simp only [hu]
    · simp only [hf, hn, if_false]
      cases ho1 : int_overflows P (st.bytes_read + n) with
      | true => left; simp
      | false =>
        cases ho2 : int_overflows P ((st.newvalues.length : Int) + 1) with
        | true => left; simp
        | false =>
          simp only [Bool.false_eq_true, if_false]
          apply ih
          cases is_tuple with
          | true =>
            simp only [if_true] at hidx ⊢
            omega
          | false =>
            simp only [Bool.false_eq_true, if_false]
            exact Or.inr hlt

/-- On a tree whose nodes all have the shape of their tag and a tag other than
`adiak_type_unset`, `copy_value` never returns `-1`: it returns a byte count, unless an `int`
of a loop overflows. -/
theorem copy_value_defined (P : platform) (m : memory) :
    ∀ (n : Nat) (t : adiak_datatype_t), (nodes t).length ≤ n →
      (∀ x ∈ nodes t, node_ok x ∧ x.dtype ≠ adiak_type_unset) →
      ∀ (target : adiak_value_t) (ptr : Int),
        copy_value P m t target ptr = Run.undef ∨
        ∃ v r, copy_value P m t target ptr = Run.done (v, r) ∧ r ≠ -1 := by
  intro n
  induction n with
  | zero =>
    intro t hlen
    cases t <;> simp [nodes] at hlen
  | succ n ih =>
    intro t hlen hnodes target ptr
    cases t with
    | static b =>
      rw [copy_value_static]
      cases b <;> exact Or.inr ⟨_, _, rfl, by simp only [ne_eq]; omega⟩
    | heap dtype nu ne ns subs =>
      have hroot := hnodes (heap dtype nu ne ns subs) (by simp [nodes])
      have hsub : ∀ sub ∈ subs, ∀ p,
          copy_value P m sub adiak_value_t.uninit p = Run.undef ∨ ∃ v r,
          copy_value P m sub adiak_value_t.uninit p = Run.done (v, r) ∧ r ≠ -1 := by
        intro sub hs p
        apply ih sub
        · have h1 := nodes_length_le_of_mem sub subs hs
          simp only [nodes, List.length_cons] at hlen
          omega
        · intro x hx
          apply hnodes
          simp only [nodes, List.mem_cons, mem_nodes_list]
          exact Or.inr ⟨sub, hs, hx⟩
      have hmap : ∀ f ∈ subs.map (copy_value P m), ∀ p,
          f adiak_value_t.uninit p = Run.undef ∨ ∃ v r,
          f adiak_value_t.uninit p = Run.done (v, r) ∧ r ≠ -1 := by
        intro f hf p
        obtain ⟨sub, hs, rfl⟩ := List.mem_map.mp hf
        exact hsub sub hs p
      rw [copy_value_heap]
      obtain ⟨hok, hne⟩ := hroot
      simp only [adiak_datatype_t.dtype] at hne
      cases dtype with
      | adiak_type_unset => exact absurd rfl hne
      | adiak_range =>
        simp only [node_ok, adiak_datatype_t.dtype, adiak_datatype_t.subtype] at hok
        rcases copy_elements_defined P (subs.map (copy_value P m)) false ptr hmap
          ne.toNat ⟨[], 0, 0⟩ (by simp [hok.2.2]) with hu | ⟨st1, h1⟩
        · left
          simp only [copy_value_switch]
          rw [show decide (adiak_range = adiak_tuple) = false from rfl, hu]
        · right
          refine ⟨adiak_value_t.v_ptr_values st1.newvalues, (P.sizeof_ptr : Int), ?_, ?_⟩
          · simp only [copy_value_switch]
            rw [show decide (adiak_range = adiak_tuple) = false from rfl, h1]
          · simp only [ne_eq]; omega
      | adiak_set =>
        simp only [node_ok, adiak_datatype_t.dtype, adiak_datatype_t.subtype] at hok
        rcases copy_elements_defined P (subs.map (copy_value P m)) false ptr hmap
          ne.toNat ⟨[], 0, 0⟩ (by simp [hok.2]) with hu | ⟨st1, h1⟩
        · left
          simp only [copy_value_switch]
          rw [show decide (adiak_set = adiak_tuple) = false from rfl, hu]
        · right
          refine ⟨adiak_value_t.v_ptr_values st1.newvalues, (P.sizeof_ptr : Int), ?_, ?_⟩
          · simp only [copy_value_switch]
            rw [show decide (adiak_set = adiak_tuple) = false from rfl, h1]
          · simp only [ne_eq]; omega
      | adiak_list =>
        simp only [node_ok, adiak_datatype_t.dtype, adiak_datatype_t.subtype] at hok
        rcases copy_elements_defined P (subs.map (copy_value P m)) false ptr hmap
          ne.toNat ⟨[], 0, 0⟩ (by simp [hok.2]) with hu | ⟨st1, h1⟩
        · left
          simp only [copy_value_switch]
          rw [show decide (adiak_list = adiak_tuple) = false from rfl, hu]
        · right
          refine ⟨adiak_value_t.v_ptr_values st1.newvalues, (P.sizeof_ptr : Int), ?_, ?_⟩
          · simp only [copy_value_switch]
            rw [show decide (adiak_list = adiak_tuple) = false from rfl, h1]
          · simp only [ne_eq]; omega
      | adiak_tuple =>
        simp only [node_ok, adiak_datatype_t.dtype, adiak_datatype_t.subtype,
          adiak_datatype_t.num_elements] at hok
        rcases copy_elements_defined P (subs.map (copy_value P m)) true ptr hmap
          ne.toNat ⟨[], 0, 0⟩ (by simp only [if_true, List.length_map]; omega) with
          hu | ⟨st1, h1⟩
        · left
          simp only [copy_value_switch]
          rw [decide_True, hu]
        · right
          refine ⟨adiak_value_t.v_ptr_values st1.newvalues, (P.sizeof_ptr : Int), ?_, ?_⟩
          · simp only [copy_value_switch]
            rw [decide_True, h1]
          · simp only [ne_eq]; omega
      | _ => exact Or.inr ⟨_, _, rfl, by simp only [ne_eq]; omega⟩

/-! ## `adiak_namevalue`: argument order and failures (C12, C13) -/

theorem va_ints_map (a : List Int) : va_ints (a.map c_arg.int) = a := by
  induction a with
  | nil => rfl
  | cons x xs ih => simp [va_ints, ih]

theorem char_at_strlen (typestr : List Char) : char_at typestr (strlen typestr) = NUL := by
  induction typestr with
  | nil => rfl
  | cons c cs ih =>
    by_cases hc : c = NUL
    · simp [strlen, hc, char_at]
    · simp only [strlen, hc, if_false]
      simpa [char_at] using ih

theorem toplevel_type_NUL (typestr : List Char)
    (h : char_at typestr (skip_separators typestr 0) = NUL) :
    toplevel_type typestr = adiak_type_unset := by
  have hp : char_at typestr (skip_separators typestr 0) ≠ '%' := by
    rw [h]; decide
  rw [toplevel_type_not_percent typestr hp, h]
  decide

/-- A tree parsed from a string that `toplevel_type` recognises is marshaled by `copy_value`
with a byte count, unless an `int` of a loop overflows: the marshal cannot return `-1`. -/
theorem copy_value_parsed (P : platform) (m : memory) (typestr : List Char) (ap : List Int)
    (r : parse_result) (t : adiak_datatype_t)
    (hT : toplevel_type typestr ≠ adiak_type_unset)
    (h : parse_typestr typestr ap = Run.done r) (ht : r.ret = some t)
    (target : adiak_value_t) (ptr : Int) :
    copy_value P m t target ptr = Run.undef ∨
    ∃ v n, copy_value P m t target ptr = Run.done (v, n) ∧ n ≠ -1 := by
  have hnul : char_at typestr (skip_separators typestr 0) ≠ NUL :=
    fun hn => hT (toplevel_type_NUL typestr hn)
  have hb := (parse_typestr_helper_bounds typestr _ _ _ _ _ _ (Nat.le_refl _) (Nat.zero_le _)
    (Or.inl (char_at_strlen typestr)) h).2 t ht hnul
  have hs := (parse_typestr_helper_shape typestr _ _ _ _ _ _ _ h ht).2.2.1
  exact copy_value_defined P m _ t (Nat.le_refl _) (fun x hx => ⟨hs x hx, hb x hx⟩) target ptr

theorem namevalue_switch_consumes_one (T : adiak_type_t) (first : c_arg) (rest : List c_arg)
    (rd : toplevel_read) (h : namevalue_switch T (first :: rest) = Run.done (some rd)) :
    rd.ap = rest := by
  cases T <;> cases first <;> simp [namevalue_switch] at h <;> (subst h; rfl)

/-- C12 (the code departs from the claim): `adiak_namevalue` does read exactly one leading
argument before it parses, the value for a scalar string (published as it is, here for
`"%d"`) and the buffer pointer for a container string.  But the shape arguments are not read
in the order of the opening delimiters when a tuple is a component of a tuple:
`"((%d,%d),%f)"` has two opening delimiters that take a shape argument; called with
`(buffer, 2, 2)`, the parser asks for a third `int` that was not passed, because the tuple
branch does not assign `*new_typestr_start` and the inner tuple is parsed again for the second
component, so the call is undefined; called with `(buffer, 2, 2, 2)` it publishes a tuple of
two tuples `(Int, Int)`, filled from the buffer as such, and not the
`Tuple(Tuple(Int, Int), Double)` of the string.  And with a `NULL` buffer pointer the test
`if (container_ptr)` skips `copy_value`: the value published is the one `malloc` returned,
never assigned, and the call returns what the broadcast returns. -/
theorem adiak_namevalue_nested_tuple (P : platform) (m : memory) (g : adiak_t)
    (name : List Char) (category : adiak_category_t) (p : Int) :
    (∀ (T : adiak_type_t) (first : c_arg) (rest : List c_arg) (rd : toplevel_read),
      namevalue_switch T (first :: rest) = Run.done (some rd) → rd.ap = rest) ∧
    (∀ (v : Int) (rest : List c_arg),
      adiak_namevalue P m g name category "%d".toList (c_arg.int v :: rest) =
        Run.done (adiak_raw_namevalue g name category (adiak_value_t.v_int v)
          (static base_int))) ∧
    count_shape_delims "((%d,%d),%f)".toList = 2 ∧
    adiak_namevalue P m g name category "((%d,%d),%f)".toList
        [c_arg.void_ptr (some p), c_arg.int 2, c_arg.int 2] = Run.undef ∧
    adiak_namevalue lp64 (packed_ints lp64 [1, 2, 3, 4])
        ⟨1, 0, [⟨1, 7, some 100, 1, adiak_category_all⟩]⟩ "n".toList adiak_general
        "((%d,%d),%f)".toList
        [c_arg.void_ptr (some 0), c_arg.int 2, c_arg.int 2, c_arg.int 2] =
      Run.done ([⟨100, "n".toList, adiak_general,
        adiak_value_t.v_ptr_values
          [adiak_value_t.v_ptr_values [adiak_value_t.v_int 1, adiak_value_t.v_int 2],
           adiak_value_t.v_ptr_values [adiak_value_t.v_int 3, adiak_value_t.v_int 4]],
        heap adiak_tuple adiak_categorical 2 2
          [heap adiak_tuple adiak_categorical 2 2 [static base_int, static base_int],
           heap adiak_tuple adiak_categorical 2 2 [static base_int, static base_int]], 7⟩],
        0) ∧
    (∀ n : Int, adiak_namevalue P m g name category "{%d}".toList
        [c_arg.void_ptr none, c_arg.int n] =
      Run.done (adiak_raw_namevalue g name category adiak_value_t.uninit
        (heap adiak_list adiak_categorical n 1 [static base_int]))) := by
  refine ⟨namevalue_switch_consumes_one, ?_, rfl, ?_, rfl, ?_⟩
  · intro v rest
    have hT : toplevel_type "%d".toList = adiak_int := rfl
    have hp : parse_typestr "%d".toList (va_ints rest) =
        Run.done ⟨some (static base_int), va_ints rest, 2⟩ := rfl
    have hne : ¬ (adiak_int = adiak_type_unset) := by decide
    simp only [adiak_namevalue, hT, hne, if_false, namevalue_switch, hp]
  · have hT : toplevel_type "((%d,%d),%f)".toList = adiak_tuple := rfl
    have hp : parse_typestr "((%d,%d),%f)".toList [2, 2] = Run.undef := rfl
    have hne : ¬ (adiak_tuple = adiak_type_unset) := by decide
    simp only [adiak_namevalue, hT, hne, if_false, namevalue_switch, va_ints, hp]
  · intro n
    have hT : toplevel_type "{%d}".toList = adiak_list := rfl
    have hp : parse_typestr "{%d}".toList [n] =
        Run.done ⟨some (heap adiak_list adiak_categorical n 1 [static base_int]), [], 4⟩ := rfl
    have hne : ¬ (adiak_list = adiak_type_unset) := by decide
    simp only [adiak_namevalue, hT, hne, if_false, namevalue_switch, va_ints, hp]

/-- C13: `adiak_namevalue` returns `-1` without calling any callback when `toplevel_type` does
not recognise the string and when `parse_typestr` returns `NULL`; the marshal of a parsed
descriptor never returns `-1` in a call of `adiak_namevalue` (it returns a byte count, or is
undefined when an `int` of `copy_value` overflows); and whenever `adiak_namevalue` returns, it
returns `-1` with no call made, or `0` with the calls of the broadcast for a parsed
descriptor. -/
theorem adiak_namevalue_failure (P : platform) (m : memory) (g : adiak_t) (name : List Char)
    (category : adiak_category_t) (typestr : List Char) (ap : List c_arg) :
    (toplevel_type typestr = adiak_type_unset →
      adiak_namevalue P m g name category typestr ap = Run.done ([], -1)) ∧
    (∀ rd r, namevalue_switch (toplevel_type typestr) ap = Run.done (some rd) →
      parse_typestr typestr (va_ints rd.ap) = Run.done r → r.ret = none →
      adiak_namevalue P m g name category typestr ap = Run.done ([], -1)) ∧
    (∀ rd r t p, toplevel_type typestr ≠ adiak_type_unset →
      namevalue_switch (toplevel_type typestr) ap = Run.done (some rd) →
      parse_typestr typestr (va_ints rd.ap) = Run.done r → r.ret = some t →
      rd.container_ptr = some p →
      copy_value P m t rd.value p = Run.undef ∨
      ∃ v n, copy_value P m t rd.value p = Run.done (v, n) ∧ n ≠ -1) ∧
    (∀ calls ret, adiak_namevalue P m g name category typestr ap = Run.done (calls, ret) →
      (ret = -1 ∧ calls = []) ∨
      (ret = 0 ∧ ∃ rd r t value, namevalue_switch (toplevel_type typestr) ap = Run.done (some rd) ∧
        parse_typestr typestr (va_ints rd.ap) = Run.done r ∧ r.ret = some t ∧
        (calls, ret) = adiak_raw_namevalue g name category value t)) := by
  refine ⟨?_, ?_, ?_, ?_⟩
  · intro hT
    simp [adiak_namevalue, hT]
  · intro rd r hsw hp hret
    by_cases hT : toplevel_type typestr = adiak_type_unset
    · simp [adiak_namevalue, hT]
    · simp only [adiak_namevalue, hT, if_false, hsw, hp, hret]
  · intro rd r t p hT _ hp hret _
    exact copy_value_parsed P m typestr _ r t hT hp hret _ _
  · intro calls ret h
    by_cases hT : toplevel_type typestr = adiak_type_unset
    · simp only [adiak_namevalue, hT, if_true, Run.done.injEq, Prod.mk.injEq] at h
      exact Or.inl ⟨h.2.symm, h.1.symm⟩
    simp only [adiak_namevalue, hT, if_false] at h
    cases hsw : namevalue_switch (toplevel_type typestr) ap with
    | undef => rw [hsw] at h; simp at h
    | fuel => rw [hsw] at h; simp at h
    | done o =>
      rw [hsw] at h
      cases o with
      | none =>
        simp only [Run.done.injEq, Prod.mk.injEq] at h
        exact Or.inl ⟨h.2.symm, h.1.symm⟩
      | some rd =>
        simp only [] at h
        cases hp : parse_typestr typestr (va_ints rd.ap) with
        | undef => rw [hp] at h; simp at h
        | fuel => rw [hp] at h; simp at h
        | done r =>
          rw [hp] at h
          simp only [] at h
          cases hret : r.ret with
          | none =>
            rw [hret] at h
            simp only [Run.done.injEq, Prod.mk.injEq] at h
            exact Or.inl ⟨h.2.symm, h.1.symm⟩
          | some t =>
            rw [hret] at h
            simp only [] at h
            right
            cases hcp : rd.container_ptr with
            | none =>
              rw [hcp] at h
              simp only [Run.done.injEq] at h
              have h2 : ret = 0 := (congrArg Prod.snd h).symm
              exact ⟨h2, rd, r, t, rd.value, rfl, hp, hret, h.symm⟩
            | some p =>
              rw [hcp] at h
              simp only [] at h
              cases hcv : copy_value P m t rd.value p with
              | undef => rw [hcv] at h; simp at h
              | fuel => rw [hcv] at h; simp at h
              | done res =>
                obtain ⟨value, n⟩ := res
                rw [hcv] at h
                simp only [Run.done.injEq] at h
                have h2 : ret = 0 := (congrArg Prod.snd h).symm
                exact ⟨h2, rd, r, t, value, rfl, hp, hret, h.symm⟩

/-- Witness of C13: `"[%d"` does not parse, `"%lf"` is not recognised: both return `-1` and no
callback is called, although a tool is registered for everything. -/
theorem adiak_namevalue_failure_examples :
    adiak_namevalue lp64 zero_memory ⟨1, 0, [⟨1, 7, some 100, 1, adiak_category_all⟩]⟩
        "n".toList adiak_general "[%d".toList [c_arg.void_ptr (some 0), c_arg.int 2] =
      Run.done ([], -1) ∧
    adiak_namevalue lp64 zero_memory ⟨1, 0, [⟨1, 7, some 100, 1, adiak_category_all⟩]⟩
        "n".toList adiak_general "%lf".toList [c_arg.double 0] = Run.done ([], -1) :=
  ⟨(adiak_namevalue_failure lp64 zero_memory _ "n".toList adiak_general "[%d".toList
      [c_arg.void_ptr (some 0), c_arg.int 2]).2.1
      ⟨adiak_value_t.uninit, some 0, [c_arg.int 2]⟩ ⟨none, [2], 0⟩ rfl rfl rfl,
    (adiak_namevalue_failure lp64 zero_memory _ "n".toList adiak_general "%lf".toList
      [c_arg.double 0]).1 rfl⟩

/-! ## Two strings that agree on a prefix -/

theorem char_at_of_length_le (typestr : List Char) (i : Nat) (h : typestr.length ≤ i) :
    char_at typestr i = NUL := by
  simp [char_at, List.getD_eq_getElem?_getD, List.getElem?_eq_none h]

theorem skip_loop_stops (typestr : List Char) :
    ∀ (n cur : Nat), typestr.length - cur ≤ n →
      is_separator (char_at typestr (skip_loop typestr n cur)) = false ∧
      ∀ i, cur ≤ i → i < skip_loop typestr n cur → is_separator (char_at typestr i) = true := by
  intro n
  induction n with
  | zero =>
    intro cur h
    simp only [skip_loop]
    refine ⟨?_, fun i h1 h2 => by omega⟩
    rw [char_at_of_length_le typestr cur (by omega)]
    decide
  | succ n ih =>
    intro cur h
    simp only [skip_loop]
    by_cases hs : is_separator (char_at typestr cur) = true
    · simp only [hs, if_true]
      obtain ⟨h1, h2⟩ := ih (cur + 1) (by omega)
      refine ⟨h1, ?_⟩
      intro i hi1 hi2
      rcases Nat.eq_or_lt_of_le hi1 with rfl | hlt
      · exact hs
      · exact h2 i hlt hi2
    · simp only [hs, if_false, Bool.false_eq_true]
      exact ⟨by simp, fun i h1 h2 => by omega⟩

/-- The position `skip_separators` returns: the first one from `st` on whose character is not a
separator. -/
theorem skip_separators_spec (typestr : List Char) (st : Nat) :
    st ≤ skip_separators typestr st ∧
    is_separator (char_at typestr (skip_separators typestr st)) = false ∧
    ∀ i, st ≤ i → i < skip_separators typestr st → is_separator (char_at typestr i) = true :=
  ⟨skip_separators_ge typestr st, skip_loop_stops typestr _ _ (Nat.le_refl _)⟩

theorem skip_separators_unique (typestr : List Char) (st cur : Nat) (h1 : st ≤ cur)
    (h2 : is_separator (char_at typestr cur) = false)
    (h3 : ∀ i, st ≤ i → i < cur → is_separator (char_at typestr i) = true) :
    skip_separators typestr st = cur := by
  obtain ⟨g1, g2, g3⟩ := skip_separators_spec typestr st
  rcases Nat.lt_trichotomy (skip_separators typestr st) cur with hlt | heq | hgt
  · have := h3 _ g1 hlt
    rw [g2] at this
    exact absurd this (by simp)
  · exact heq
  · have := g3 _ h1 hgt
    rw [h2] at this
    exact absurd this (by simp)

/-- Skipping separators gives the same position in two strings that agree up to it. -/
theorem skip_separators_congr (s1 s2 : List Char) (st : Nat)
    (hag : ∀ i, i ≤ skip_separators s1 st → char_at s1 i = char_at s2 i) :
    skip_separators s2 st = skip_separators s1 st := by
  obtain ⟨g1, g2, g3⟩ := skip_separators_spec s1 st
  apply skip_separators_unique s2 st _ g1
  · rw [← hag _ (Nat.le_refl _)]; exact g2
  · intro i hi1 hi2
    rw [← hag i (by omega)]
    exact g3 i hi1 hi2

/-- A closing position found in one string is found in a string that agrees with it up to that
position, whatever the end of the scanned range beyond it. -/
theorem find_end_brace_loop_extend (s1 s2 : List Char) (endchar : Char) :
    ∀ (n1 n2 : Nat) (depth : Int) (cur eb : Nat),
      find_end_brace_loop s1 endchar n1 depth cur = some eb →
      (∀ i, cur ≤ i → i ≤ eb → char_at s1 i = char_at s2 i) → eb < cur + n2 →
      find_end_brace_loop s2 endchar n2 depth cur = some eb := by
  intro n1
  induction n1 with
  | zero => intro n2 depth cur eb h; simp [find_end_brace_loop] at h
  | succ n1 ih =>
    intro n2 depth cur eb h hag hn2
    have hb := find_end_brace_loop_bounds s1 endchar _ _ _ _ h
    obtain ⟨k, rfl⟩ : ∃ k, n2 = k + 1 := ⟨n2 - 1, by omega⟩
    have hc : char_at s2 cur = char_at s1 cur := (hag cur (Nat.le_refl _) hb.1).symm
    simp only [find_end_brace_loop, depth_step] at h ⊢
    rw [hc]
    by_cases hacc : depth + depth_delta (char_at s1 cur) = 0 ∧ char_at s1 cur = endchar
    · rw [if_pos hacc] at h ⊢
      exact h
    · rw [if_neg hacc] at h ⊢
      have hb2 := find_end_brace_loop_bounds s1 endchar _ _ _ _ h
      exact ih k _ _ _ h (fun i h1 h2 => hag i (by omega) h2) (by omega)

theorem find_end_brace_extend (s1 s2 : List Char) (endchar : Char) (st en1 en2 eb : Nat)
    (h : find_end_brace s1 endchar st en1 = some eb)
    (hag : ∀ i, i ≤ eb → char_at s1 i = char_at s2 i) (hen : eb < en2) :
    find_end_brace s2 endchar st en2 = some eb := by
  have hb := find_end_brace_bounds _ _ _ _ _ h
  exact find_end_brace_loop_extend s1 s2 endchar _ _ _ _ _ h (fun i _ h2 => hag i h2) (by omega)

/-- The tuple loop gives the same successful result for two child calls that agree on success
while the cursor stays below `end_brace`. -/
theorem parse_tuple_subtypes_congr (child1 child2 : Nat → List Int → Run parse_result)
    (eb : Nat)
    (hchild : ∀ cur ap r, cur ≤ eb → child1 cur ap = Run.done r → r.ret ≠ none →
      child2 cur ap = Run.done r ∧ r.new_typestr_start ≤ eb) :
    ∀ (k cur : Nat) (ap : List Int) (st : tuple_state), cur ≤ eb →
      parse_tuple_subtypes child1 k cur ap = Run.done st → st.subtypes ≠ none →
      parse_tuple_subtypes child2 k cur ap = Run.done st := by
  intro k
  induction k with
  | zero =>
    intro cur ap st _ h _
    simpa [parse_tuple_subtypes] using h
  | succ k ih =>
    intro cur ap st hcur h hs
    rw [parse_tuple_subtypes_succ] at h ⊢
    cases hr0 : child1 cur ap with
    | undef => rw [hr0] at h; simp at h
    | fuel => rw [hr0] at h; simp at h
    | done r0 =>
      rw [hr0] at h
      simp only [] at h
      cases hsub : r0.ret with
      | none =>
        rw [hsub] at h
        simp only [Run.done.injEq] at h
        subst h
        exact absurd rfl hs
      | some sub =>
        obtain ⟨h2, hb⟩ := hchild cur ap r0 hcur hr0 (by rw [hsub]; simp)
        rw [hsub] at h
        rw [h2]
        simp only [hsub] at h ⊢
        cases hst1 : parse_tuple_subtypes child1 k r0.new_typestr_start r0.ap with
        | undef => rw [hst1] at h; simp at h
        | fuel => rw [hst1] at h; simp at h
        | done st1 =>
          rw [hst1] at h
          simp only [Run.done.injEq] at h
          have hs1 : st1.subtypes ≠ none := by
            intro hn
            apply hs
            rw [← h, hn]
            rfl
          rw [ih _ _ _ hb hst1 hs1]
          simp only [h]

/-! ## The parser ignores what follows the first typespec (C20) -/

/-- A successful call on a range of `s1` whose first character after the separators is not the
terminating NUL gives the same result on a string `s2` that agrees with `s1` before the end of
the range, for any end of range and fuel beyond it. -/
theorem parse_typestr_helper_prefix (s1 s2 : List Char) :
    ∀ (f1 f2 st en1 en2 : Nat) (ap : List Int) (nts : Nat) (r : parse_result),
      en1 ≤ strlen s1 → st ≤ en1 → is_stop (char_at s1 en1) → en1 ≤ en2 → en2 < f2 →
      (∀ i, i < en1 → char_at s1 i = char_at s2 i) →
      parse_typestr_helper f1 s1 st en1 ap nts = Run.done r → r.ret ≠ none →
      char_at s1 (skip_separators s1 st) ≠ NUL →
      parse_typestr_helper f2 s2 st en2 ap nts = Run.done r := by
  intro f1
  induction f1 with
  | zero => intro f2 st en1 en2 ap nts r _ _ _ _ _ _ h; simp [parse_typestr_helper] at h
  | succ f1 ih =>
    intro f2 st en1 en2 ap nts r hen hst hstop h12 hf2 hag h hret hnul
    obtain ⟨f2, rfl⟩ : ∃ k, f2 = k + 1 := ⟨f2 - 1, by omega⟩
    have hcur_le : skip_separators s1 st ≤ en1 :=
      skip_separators_le s1 st en1 hst (is_stop_not_separator _ hstop)
    simp only [parse_typestr_helper] at h
    by_cases hse : st = en1
    · simp only [hse, if_true, Run.done.injEq] at h
      subst h
      exact absurd rfl hret
    simp only [hse, if_false] at h
    -- on success the first character is no stop character, so it lies before `en1`
    have hopen : ¬ is_stop (char_at s1 (skip_separators s1 st)) := by
      intro hs
      have h1 : ¬ (char_at s1 (skip_separators s1 st) = '{' ∨
          char_at s1 (skip_separators s1 st) = '[') := by
        rintro (hc | hc) <;> rw [hc] at hs <;>
          rcases is_stop_cases _ hs with h0 | h0 | h0 | h0 | h0 <;> revert h0 <;> decide
      have h2 : ¬ char_at s1 (skip_separators s1 st) = '<' := by
        intro hc; rw [hc] at hs
        rcases is_stop_cases _ hs with h0 | h0 | h0 | h0 | h0 <;> revert h0 <;> decide
      have h3 : ¬ char_at s1 (skip_separators s1 st) = '(' := by
        intro hc; rw [hc] at hs
        rcases is_stop_cases _ hs with h0 | h0 | h0 | h0 | h0 <;> revert h0 <;> decide
      have h4 : ¬ char_at s1 (skip_separators s1 st) = '%' := is_stop_ne_percent _ hs
      have h5 : strchr_open (char_at s1 (skip_separators s1 st)) = false := by
        rcases is_stop_cases _ hs with h0 | h0 | h0 | h0 | h0
        · exact absurd h0 hnul
        all_goals rw [h0]; decide
      simp only [h1, h2, h3, h4, h5, if_false, Run.done.injEq, Bool.false_eq_true] at h
      subst h
      exact absurd rfl hret
    have hcur_lt : skip_separators s1 st < en1 := by
      rcases Nat.eq_or_lt_of_le hcur_le with heq | hlt
      · rw [heq] at hopen; exact absurd hstop hopen
      · exact hlt
    have hskip : skip_separators s2 st = skip_separators s1 st :=
      skip_separators_congr s1 s2 st (fun i hi => hag i (by omega))
    have hc0 : char_at s2 (skip_separators s1 st) = char_at s1 (skip_separators s1 st) :=
      (hag _ hcur_lt).symm
    have hse2 : st ≠ en2 := by omega
    simp only [parse_typestr_helper, hse2, if_false, hskip, hc0]
    by_cases hc1 : char_at s1 (skip_separators s1 st) = '{' ∨
        char_at s1 (skip_separators s1 st) = '['
    · simp only [hc1, if_true] at h ⊢
      cases heb : find_end_brace s1
          (if char_at s1 (skip_separators s1 st) = '{' then '}' else ']')
          (skip_separators s1 st) en1 with
      | none =>
        rw [heb] at h
        simp only [Run.done.injEq] at h
        subst h
        exact absurd rfl hret
      | some eb =>
        rw [heb] at h
        have hb := find_end_brace_bounds _ _ _ _ _ heb
        have hch := find_end_brace_char _ _ _ _ _ heb
        have hstop1 : is_stop (char_at s1 eb) := by
          apply is_close_is_stop
          rw [hch]
          split <;> decide
        have hne : skip_separators s1 st ≠ eb := by
          intro heq
          rw [← heq] at hch
          rcases hc1 with hc | hc <;> rw [hc] at hch <;> revert hch <;> decide
        rw [find_end_brace_extend s1 s2 _ _ _ en2 eb heb (fun i hi => hag i (by omega))
          (by omega)]
        cases ap with
        | nil => simp at h
        | cons n ap1 =>
          simp only [] at h ⊢
          cases hr1 : parse_typestr_helper f1 s1 (skip_separators s1 st + 1) eb ap1
              (skip_separators s1 st) with
          | undef => rw [hr1] at h; simp at h
          | fuel => rw [hr1] at h; simp at h
          | done r1 =>
            rw [hr1] at h
            simp only [] at h
            have hr1ne : r1.ret ≠ none := by
              intro hn
              rw [hn] at h
              simp only [Run.done.injEq] at h
              subst h
              exact absurd rfl hret
            have hsk : skip_separators s1 (skip_separators s1 st + 1) ≤ eb :=
              skip_separators_le s1 _ eb (by omega) (is_stop_not_separator _ hstop1)
            rw [ih f2 _ eb eb _ _ r1 (by omega) (by omega) hstop1 (Nat.le_refl _) (by omega)
              (fun i hi => hag i (by omega)) hr1 hr1ne (char_at_ne_NUL s1 _ (by omega))]
            exact h
    simp only [hc1, if_false] at h ⊢
    by_cases hc2 : char_at s1 (skip_separators s1 st) = '<'
    · simp only [hc2, if_true] at h ⊢
      cases heb : find_end_brace s1 '>' (skip_separators s1 st) en1 with
      | none =>
        rw [heb] at h
        simp only [Run.done.injEq] at h
        subst h
        exact absurd rfl hret
      | some eb =>
        rw [heb] at h
        have hb := find_end_brace_bounds _ _ _ _ _ heb
        have hch := find_end_brace_char _ _ _ _ _ heb
        have hstop1 : is_stop (char_at s1 eb) := by
          apply is_close_is_stop
          rw [hch]
          decide
        have hne : skip_separators s1 st ≠ eb := by
          intro heq
          rw [← heq, hc2] at hch
          revert hch
          decide
        rw [find_end_brace_extend s1 s2 _ _ _ en2 eb heb (fun i hi => hag i (by omega))
          (by omega)]
        simp only [] at h ⊢
        cases hr1 : parse_typestr_helper f1 s1 (skip_separators s1 st + 1) eb ap
            (skip_separators s1 st) with
        | undef => rw [hr1] at h; simp at h
        | fuel => rw [hr1] at h; simp at h
        | done r1 =>
          rw [hr1] at h
          simp only [] at h
          have hr1ne : r1.ret ≠ none := by
            intro hn
            rw [hn] at h
            simp only [Run.done.injEq] at h
            subst h
            exact absurd rfl hret
          have hsk : skip_separators s1 (skip_separators s1 st + 1) ≤ eb :=
            skip_separators_le s1 _ eb (by omega) (is_stop_not_separator _ hstop1)
          rw [ih f2 _ eb eb _ _ r1 (by omega) (by omega) hstop1 (Nat.le_refl _) (by omega)
            (fun i hi => hag i (by omega)) hr1 hr1ne (char_at_ne_NUL s1 _ (by omega))]
          exact h
    simp only [hc2, if_false] at h ⊢
    by_cases hc3 : char_at s1 (skip_separators s1 st) = '('
    · simp only [hc3, if_true] at h ⊢
      cases heb : find_end_brace s1 ')' (skip_separators s1 st) en1 with
      | none =>
        rw [heb] at h
        simp only [Run.done.injEq] at h
        subst h
        exact absurd rfl hret
      | some eb =>
        rw [heb] at h
        have hb := find_end_brace_bounds _ _ _ _ _ heb
        have hch := find_end_brace_char _ _ _ _ _ heb
        have hstop1 : is_stop (char_at s1 eb) := by
          apply is_close_is_stop
          rw [hch]
          decide
        have hne : skip_separators s1 st ≠ eb := by
          intro heq
          rw [← heq, hc3] at hch
          revert hch
          decide
        rw [find_end_brace_extend s1 s2 _ _ _ en2 eb heb (fun i hi => hag i (by omega))
          (by omega)]
        cases ap with
        | nil => simp at h
        | cons n ap1 =>
          simp only [] at h ⊢
          by_cases hn0 : n < 0
          · simp [hn0] at h
          simp only [hn0, if_false] at h ⊢
          cases hloop : parse_tuple_subtypes
              (fun cur1 ap2 => parse_typestr_helper f1 s1 cur1 eb ap2 cur1)
              n.toNat (skip_separators s1 st + 1) ap1 with
          | undef => rw [hloop] at h; simp at h
          | fuel => rw [hloop] at h; simp at h
          | done st1 =>
            rw [hloop] at h
            simp only [] at h
            have hst1ne : st1.subtypes ≠ none := by
              intro hn
              rw [hn] at h
              simp only [Run.done.injEq] at h
              subst h
              exact absurd rfl hret
            rw [parse_tuple_subtypes_congr
              (fun cur1 ap2 => parse_typestr_helper f1 s1 cur1 eb ap2 cur1)
              (fun cur1 ap2 => parse_typestr_helper f2 s2 cur1 eb ap2 cur1) eb
              (fun cur ap r hcur hr hrne => by
                have hsk : skip_separators s1 cur ≤ eb :=
                  skip_separators_le s1 _ eb hcur (is_stop_not_separator _ hstop1)
                refine ⟨ih f2 _ eb eb _ _ r (by omega) hcur hstop1 (Nat.le_refl _) (by omega)
                  (fun i hi => hag i (by omega)) hr hrne (char_at_ne_NUL s1 _ (by omega)), ?_⟩
                exact (parse_typestr_helper_bounds s1 _ _ _ _ _ _ (by omega) hcur hstop1 hr).1
                  hcur)
              _ _ _ _ (by omega) hloop hst1ne]
            exact h
    simp only [hc3, if_false] at h ⊢
    by_cases hc4 : char_at s1 (skip_separators s1 st) = '%'
    · simp only [hc4, if_true] at h ⊢
      by_cases hl : char_at s1 (skip_separators s1 st + 1) = 'l'
      · have h2 : skip_separators s1 st + 1 ≠ en1 := by
          intro heq
          rw [heq] at hl
          exact is_stop_ne_l _ hstop hl
        have hl2 : char_at s2 (skip_separators s1 st + 1) = 'l' := by
          rw [← hag _ (by omega)]; exact hl
        simp only [hl, hl2, decide_True, if_true] at h ⊢
        cases hsw : scalar_switch true (char_at s1 (skip_separators s1 st + 2)) with
        | none =>
          rw [hsw] at h
          simp only [Run.done.injEq] at h
          subst h
          exact absurd rfl hret
        | some b =>
          have h3 : skip_separators s1 st + 2 ≠ en1 := by
            intro heq
            rw [heq, is_stop_scalar_switch _ _ hstop] at hsw
            simp at hsw
          rw [← hag _ (by omega)]
          exact h
      · have h3 : skip_separators s1 st + 1 ≠ en1 := by
          intro heq
          have hstop2 : is_stop (char_at s1 (skip_separators s1 st + 1)) := by
            rw [heq]; exact hstop
          simp only [hl, decide_False, if_false, Bool.false_eq_true,
            is_stop_scalar_switch _ _ hstop2, Run.done.injEq] at h
          subst h
          exact absurd rfl hret
        have hl2 : ¬ char_at s2 (skip_separators s1 st + 1) = 'l' := by
          rw [← hag _ (by omega)]; exact hl
        simp only [hl, hl2, decide_False, if_false, Bool.false_eq_true] at h ⊢
        rw [← hag _ (by omega)]
        exact h
    simp only [hc4, if_false] at h ⊢
    by_cases hc5 : strchr_open (char_at s1 (skip_separators s1 st)) = true
    · exfalso
      apply hnul
      simp only [strchr_open, Bool.decide_or, Bool.or_eq_true, decide_eq_true_eq] at hc5
      rcases hc5 with hc | hc | hc | hc | hc
      · exact absurd (Or.inr hc) hc1
      · exact absurd (Or.inl hc) hc1
      · exact absurd hc hc2
      · exact absurd hc hc3
      · exact hc
    · simp only [hc5, if_false, Run.done.injEq, Bool.false_eq_true] at h
      subst h
      exact absurd rfl hret

theorem strlen_le_length (s : List Char) : strlen s ≤ s.length := by
  induction s with
  | nil => simp [strlen]
  | cons c cs ih =>
    simp only [strlen, List.length_cons]
    split
    · omega
    · omega

theorem strlen_append_le (s x : List Char) : strlen s ≤ strlen (s ++ x) := by
  induction s with
  | nil => simp [strlen]
  | cons c cs ih =>
    rw [List.cons_append]
    simp only [strlen]
    split
    · omega
    · omega

theorem char_at_append_left (s x : List Char) (i : Nat) (h : i < s.length) :
    char_at s i = char_at (s ++ x) i := by
  simp [char_at, List.getD_eq_getElem?_getD, List.getElem?_append_left h]

/-- C20: if `parse_typestr` succeeds on `s` with a root tag other than `adiak_type_unset`, then
for every suffix `x` it gives on `s ++ x` the same result: the same tree and the same arguments
left, hence the same number of shape arguments consumed. -/
theorem parse_typestr_ignores_suffix (s x : List Char) (ap : List Int) (r : parse_result)
    (t : adiak_datatype_t) (h : parse_typestr s ap = Run.done r) (ht : r.ret = some t)
    (hu : t.dtype ≠ adiak_type_unset) :
    parse_typestr (s ++ x) ap = Run.done r ∧
      ∀ r2, parse_typestr (s ++ x) ap = Run.done r2 →
        r2.ret = some t ∧ consumed ap r2 = consumed ap r := by
  have hnul : char_at s (skip_separators s 0) ≠ NUL := by
    intro hn
    have hopens := (parse_typestr_helper_shape s _ _ _ _ _ _ _ h ht).1
    cases t with
    | static b =>
      simp only [opens, hn] at hopens
      revert hopens
      decide
    | heap dtype nu ne ns subs =>
      simp only [adiak_datatype_t.dtype] at hu
      simp only [opens, hu, if_false, hn] at hopens
      have hd : delimiter_tag NUL = none := by decide
      rw [hd] at hopens
      simp at hopens
  have key : parse_typestr (s ++ x) ap = Run.done r :=
    parse_typestr_helper_prefix s (s ++ x) _ _ 0 (strlen s) (strlen (s ++ x)) ap 0 r
      (Nat.le_refl _) (Nat.zero_le _) (Or.inl (char_at_strlen s)) (strlen_append_le s x)
      (Nat.lt_succ_self _)
      (fun i hi => char_at_append_left s x i (Nat.lt_of_lt_of_le hi (strlen_le_length s)))
      h (by rw [ht]; simp) hnul
  refine ⟨key, ?_⟩
  intro r2 h2
  rw [key] at h2
  simp only [Run.done.injEq] at h2
  subst h2
  exact ⟨ht, rfl⟩

/-- Witness of C20: `"(%d,[%f])"` followed by `"]) %x"`. -/
theorem parse_typestr_ignores_suffix_example :
    parse_typestr ("(%d,[%f])".toList ++ "]) %x".toList) [2, 3] =
      Run.done ⟨some (heap adiak_tuple adiak_categorical 2 2
        [static base_int, heap adiak_set adiak_categorical 3 1 [static base_double]]), [], 0⟩ := by
  have h : parse_typestr "(%d,[%f])".toList [2, 3] =
      Run.done ⟨some (heap adiak_tuple adiak_categorical 2 2
        [static base_int, heap adiak_set adiak_categorical 3 1 [static base_double]]), [], 0⟩ := rfl
  exact (parse_typestr_ignores_suffix _ "]) %x".toList _ _ _ h rfl (by decide)).1

/-! ## Failing parses release every node they allocate (C17) -/

theorem adiak_get_basetype_static (b : base_object) :
    adiak_get_basetype b.dtype = some (static b) := by
  cases b <;> rfl

theorem free_adiak_type_static (b : base_object) (h : heap_state) :
    free_adiak_type (descriptor.static b) h = Run.done h := by
  simp [free_adiak_type, adiak_get_basetype_static]

theorem dsize_le_of_mem (t : descriptor) :
    ∀ subs : List descriptor, t ∈ subs → dsize t ≤ dsize_list subs := by
  intro subs
  induction subs with
  | nil => intro h; simp at h
  | cons y ys ih =>
    intro h
    simp only [dsize_list]
    rcases List.mem_cons.mp h with rfl | h
    · omega
    · have := ih h; omega

theorem wf_list_mem (t : descriptor) :
    ∀ subs : List descriptor, wf_list subs → t ∈ subs → wf t := by
  intro subs
  induction subs with
  | nil => intro _ h; simp at h
  | cons y ys ih =>
    intro hw h
    simp only [wf_list] at hw
    rcases List.mem_cons.mp h with rfl | h
    · exact hw.1
    · exact ih hw.2 h

/-- The loop of `free_adiak_type` over a whole subtype array, given what `free_adiak_type`
does on each of its entries. -/
theorem free_subtypes_spec (n : Nat)
    (ih : ∀ t : descriptor, dsize t ≤ n → wf t →
      ∀ (h : heap_state) (front keep rest : List Nat),
        h.live = front ++ rest → front.Perm (owned t ++ keep) →
        ∃ h1 l front1, free_adiak_type t h = Run.done h1 ∧ h1.next = h.next ∧
          h1.freed = h.freed ++ l ∧ l.Perm ((owned t).map address.heap) ∧
          h1.live = front1 ++ rest ∧ front1.Perm keep) :
    ∀ (subs : List descriptor), (∀ t ∈ subs, dsize t ≤ n) → wf_list subs →
      ∀ (h : heap_state) (front keep rest : List Nat),
        h.live = front ++ rest → front.Perm (owned_list subs ++ keep) →
        ∃ h1 l front1, free_subtypes subs subs.length h = Run.done h1 ∧ h1.next = h.next ∧
          h1.freed = h.freed ++ l ∧ l.Perm ((owned_list subs).map address.heap) ∧
          h1.live = front1 ++ rest ∧ front1.Perm keep := by
  intro subs
  induction subs with
  | nil =>
    intro _ _ h front keep rest hl hp
    refine ⟨h, [], front, ?_, rfl, by simp, ?_, hl, ?_⟩
    · simp [free_subtypes]
    · simp [owned_list]
    · simpa [owned_list] using hp
  | cons t ts iht =>
    intro hsz hw h front keep rest hl hp
    simp only [wf_list] at hw
    simp only [owned_list, List.append_assoc] at hp
    obtain ⟨h1, l1, front1, hf1, hn1, hfr1, hl1, hlive1, hp1⟩ :=
      ih t (hsz t (List.mem_cons_self _ _)) hw.1 h front (owned_list ts ++ keep) rest hl hp
    obtain ⟨h2, l2, front2, hf2, hn2, hfr2, hl2, hlive2, hp2⟩ :=
      iht (fun x hx => hsz x (List.mem_cons_of_mem _ hx)) hw.2 h1 front1 keep rest hlive1 hp1
    refine ⟨h2, l1 ++ l2, front2, ?_, by rw [hn2, hn1], ?_, ?_, hlive2, hp2⟩
    · simp only [List.length_cons, free_subtypes, hf1, hf2]
    · rw [hfr2, hfr1, List.append_assoc]
    · simp only [owned_list, List.map_append]
      exact List.Perm.append hl1 hl2

/-- What `free_adiak_type` does on a well-formed tree whose nodes are among the first live
nodes `front`: it frees each node of the tree once, and nothing else. -/
theorem free_adiak_type_spec :
    ∀ (n : Nat) (t : descriptor), dsize t ≤ n → wf t →
      ∀ (h : heap_state) (front keep rest : List Nat),
        h.live = front ++ rest → front.Perm (owned t ++ keep) →
        ∃ h1 l front1, free_adiak_type t h = Run.done h1 ∧ h1.next = h.next ∧
          h1.freed = h.freed ++ l ∧ l.Perm ((owned t).map address.heap) ∧
          h1.live = front1 ++ rest ∧ front1.Perm keep := by
  intro n
  induction n with
  | zero =>
    intro t hsz
    cases t <;> simp [dsize] at hsz
  | succ n ih =>
    intro t hsz hw h front keep rest hl hp
    cases t with
    | null =>
      refine ⟨h, [], front, ?_, rfl, by simp, ?_, hl, ?_⟩
      · simp [free_adiak_type]
      · simp [owned]
      · simpa [owned] using hp
    | static b =>
      refine ⟨h, [], front, free_adiak_type_static b h, rfl, by simp, ?_, hl, ?_⟩
      · simp [owned]
      · simpa [owned] using hp
    | node a d nu ne ns subs =>
      simp only [wf] at hw
      simp only [dsize] at hsz
      have hp1 : front.Perm (owned_list subs ++ (a :: keep)) := by
        simp only [owned, List.cons_append] at hp
        exact hp.trans (List.perm_middle.symm)
      obtain ⟨h1, l1, front1, hf1, hn1, hfr1, hl1, hlive1, hpf1⟩ :=
        free_subtypes_spec n ih subs
          (fun x hx => by have := dsize_le_of_mem x subs hx; omega) hw.2 h front (a :: keep) rest
          hl hp1
      have hmem : a ∈ front1 := hpf1.symm.subset (List.mem_cons_self _ _)
      refine ⟨h1.free (address.heap a), l1 ++ [address.heap a], front1.erase a, ?_, ?_, ?_, ?_,
        ?_, ?_⟩
      · simp only [free_adiak_type, hw.1, hf1]
      · simp only [heap_state.free, hn1]
      · simp only [heap_state.free, hfr1, List.append_assoc]
      · simp only [owned, List.map_cons]
        exact (List.perm_append_comm).trans (List.Perm.cons _ hl1)
      · simp only [heap_state.free, hlive1]
        exact List.erase_append_left _ hmem
      · have := hpf1.erase a
        simpa using this


theorem owned_list_append (xs ys : List descriptor) :
    owned_list (xs ++ ys) = owned_list xs ++ owned_list ys := by
  induction xs with
  | nil => simp [owned_list]
  | cons x xs ih => simp [owned_list, ih]

theorem wf_list_append (xs ys : List descriptor) :
    wf_list (xs ++ ys) ↔ wf_list xs ∧ wf_list ys := by
  induction xs with
  | nil => simp [wf_list]
  | cons x xs ih => simp [wf_list, ih, and_assoc]

theorem owned_list_replicate_null (k : Nat) :
    owned_list (List.replicate k descriptor.null) = [] := by
  induction k with
  | zero => simp [owned_list]
  | succ k ih => simp [List.replicate_succ, owned_list, owned, ih]

theorem wf_list_replicate_null (k : Nat) : wf_list (List.replicate k descriptor.null) := by
  induction k with
  | zero => simp [wf_list]
  | succ k ih => simp [List.replicate_succ, wf_list, wf, ih]

theorem descriptor_is_null_iff (t : descriptor) : t.is_null = true ↔ t = descriptor.null := by
  cases t <;> simp [descriptor.is_null]

/-- The nodes allocated from `h` on start with the node the next `malloc` returns. -/
theorem allocated_malloc (h h1 : heap_state) (hle : h.malloc.next ≤ h1.next) :
    allocated h h1 = address.heap h.next :: allocated h.malloc h1 := by
  simp only [heap_state.malloc] at hle
  have e : h1.next - h.next = (h1.next - (h.next + 1)) + 1 := by omega
  simp only [allocated, heap_state.malloc]
  rw [e, List.range'_succ, List.map_cons]

/-- Allocations made one after the other. -/
theorem allocated_append (h0 h1 h2 : heap_state) (h01 : h0.next ≤ h1.next)
    (h12 : h1.next ≤ h2.next) :
    allocated h0 h2 = allocated h0 h1 ++ allocated h1 h2 := by
  simp only [allocated, ← List.map_append]
  congr 1
  have e1 : h2.next - h0.next = (h2.next - h1.next) + (h1.next - h0.next) := by omega
  have e2 : h0.next + 1 * (h1.next - h0.next) = h1.next := by omega
  have e3 := List.range'_append h0.next (h1.next - h0.next) (h2.next - h1.next) 1
  rw [e2] at e3
  rw [e1]
  exact e3.symm

theorem allocated_next_eq (h h1 h2 : heap_state) (e : h2.next = h1.next) :
    allocated h h2 = allocated h h1 := by
  simp only [allocated, e]

theorem heap_inv_refl (h : heap_state) : heap_inv h h descriptor.null := by
  refine ⟨le_refl _, by simp [wf], ⟨[], by simp, ?_⟩, ⟨[], by simp, by simp [owned]⟩⟩
  simp [owned, allocated]

theorem heap_inv_static (h : heap_state) (b : base_object) :
    heap_inv h h (descriptor.static b) := by
  refine ⟨le_refl _, by simp [wf], ⟨[], by simp, ?_⟩, ⟨[], by simp, by simp [owned]⟩⟩
  simp [owned, allocated]

theorem heap_inv_list_refl (h : heap_state) : heap_inv_list h h [] := by
  refine ⟨le_refl _, by simp [wf_list], ⟨[], by simp, ?_⟩, ⟨[], by simp, by simp [owned_list]⟩⟩
  simp [owned_list, allocated]

theorem heap_inv_list_congr (h h1 : heap_state) (subs subs1 : List descriptor)
    (hw : wf_list subs1) (ho : owned_list subs1 = owned_list subs)
    (hi : heap_inv_list h h1 subs) : heap_inv_list h h1 subs1 := by
  obtain ⟨hn, _, hf, hl⟩ := hi
  refine ⟨hn, hw, ?_, ?_⟩
  · rw [ho]; exact hf
  · rw [ho]; exact hl

/-- One more subtree, built after the subtypes stored so far. -/
theorem heap_inv_list_snoc (h0 h1 h2 : heap_state) (acc : List descriptor) (t : descriptor)
    (hacc : heap_inv_list h0 h1 acc) (ht : heap_inv h1 h2 t) :
    heap_inv_list h0 h2 (acc ++ [t]) := by
  obtain ⟨hn1, hw1, ⟨l1, hf1, hp1⟩, ⟨fr1, hl1, hq1⟩⟩ := hacc
  obtain ⟨hn2, hw2, ⟨l2, hf2, hp2⟩, ⟨fr2, hl2, hq2⟩⟩ := ht
  have ho : owned_list (acc ++ [t]) = owned_list acc ++ owned t := by
    rw [owned_list_append]; simp [owned_list]
  refine ⟨le_trans hn1 hn2, ?_, ⟨l1 ++ l2, ?_, ?_⟩, ⟨fr2 ++ fr1, ?_, ?_⟩⟩
  · rw [wf_list_append]; exact ⟨hw1, by simp [wf_list, hw2]⟩
  · rw [hf2, hf1, List.append_assoc]
  · rw [ho, allocated_append h0 h1 h2 hn1 hn2, List.map_append]
    have e : (l1 ++ l2 ++ ((owned_list acc).map address.heap ++ (owned t).map address.heap)).Perm
        ((l1 ++ (owned_list acc).map address.heap) ++ (l2 ++ (owned t).map address.heap)) := by
      simp only [List.append_assoc]
      refine List.Perm.append_left _ ?_
      simp only [← List.append_assoc]
      exact List.Perm.append_right _ List.perm_append_comm
    exact e.trans (List.Perm.append hp1 hp2)
  · rw [hl2, hl1, List.append_assoc]
  · rw [ho]
    exact List.perm_append_comm.trans (List.Perm.append hq1 hq2)

/-- A node allocated first, then filled with its subtypes. -/
theorem heap_inv_node (h h1 : heap_state) (d : adiak_type_t) (nu : adiak_numerical_t)
    (ne n : Int) (subs : List descriptor) (hs : heap_inv_list h.malloc h1 subs)
    (hn : n.toNat = subs.length) :
    heap_inv h h1 (descriptor.node h.next d nu ne n subs) := by
  obtain ⟨hn1, hw1, ⟨l1, hf1, hp1⟩, ⟨fr1, hl1, hq1⟩⟩ := hs
  refine ⟨?_, ?_, ⟨l1, hf1, ?_⟩, ⟨fr1 ++ [h.next], ?_, ?_⟩⟩
  · simp only [heap_state.malloc] at hn1; omega
  · simp only [wf]; exact ⟨hn, hw1⟩
  · rw [allocated_malloc h h1 hn1]
    simp only [owned, List.map_cons]
    exact List.perm_middle.trans (List.Perm.cons _ hp1)
  · rw [hl1]; simp [heap_state.malloc]
  · simp only [owned]
    exact List.perm_append_singleton _ _ |>.trans (List.Perm.cons _ hq1)

theorem heap_inv_list_single (h h1 : heap_state) (t : descriptor) (ht : heap_inv h h1 t) :
    heap_inv_list h h1 [t] := by
  have := heap_inv_list_snoc h h h1 [] t (heap_inv_list_refl h) ht
  simpa using this

/-- The label `error` frees the tree held in `t` and nothing else. -/
theorem error_return_inv (h h1 : heap_state) (t : descriptor) (ap : List Int) (nts : Nat)
    (hi : heap_inv h h1 t) :
    ∃ r, error_return t ap nts h1 = Run.done r ∧ r.ret = descriptor.null ∧ r.ap = ap ∧
      heap_inv h r.heap descriptor.null := by
  obtain ⟨hn, hw, ⟨l, hf, hp⟩, ⟨fr, hl, hq⟩⟩ := hi
  obtain ⟨h2, l2, fr2, hfree, hn2, hf2, hp2, hl2, hq2⟩ :=
    free_adiak_type_spec (dsize t) t (le_refl _) hw h1 fr [] h.live hl (by simpa using hq)
  have hfr2 : fr2 = [] := List.Perm.eq_nil hq2
  refine ⟨⟨descriptor.null, ap, nts, h2⟩, ?_, rfl, rfl, ?_⟩
  · simp only [error_return, hfree]
  · refine ⟨by rw [hn2]; exact hn, by simp [wf], ⟨l ++ l2, ?_, ?_⟩, ⟨[], ?_, by simp [owned]⟩⟩
    · rw [hf2, hf, List.append_assoc]
    · rw [allocated_next_eq h h1 h2 hn2]
      simp only [owned, List.map_nil, List.append_nil]
      exact (List.Perm.append_left l hp2).trans hp
    · rw [hl2, hfr2]


/-- The loop of the tuple branch on the heap: it is undefined or ends, and the subtypes stored
so far own the nodes the calls allocated and did not free. -/
theorem parse_tuple_subtypes_heap_inv
    (child : Nat → List Int → heap_state → Run heap_result) (h0 : heap_state)
    (hchild : ∀ cur ap h, child cur ap h = Run.undef ∨
      ∃ r, child cur ap h = Run.done r ∧ heap_inv h r.heap r.ret) :
    ∀ (k : Nat) (acc : List descriptor) (cur : Nat) (ap : List Int) (h : heap_state),
      heap_inv_list h0 h acc →
      parse_tuple_subtypes_heap child k acc cur ap h = Run.undef ∨
      ∃ st, parse_tuple_subtypes_heap child k acc cur ap h = Run.done st ∧
        heap_inv_list h0 st.heap st.subtypes ∧ st.subtypes.length ≤ acc.length + k ∧
        (st.failed = false → st.subtypes.length = acc.length + k) := by
  intro k
  induction k with
  | zero =>
    intro acc cur ap h hacc
    refine Or.inr ⟨⟨acc, false, cur, ap, h⟩, ?_, hacc, by simp, by simp⟩
    simp only [parse_tuple_subtypes_heap]
  | succ k ih =>
    intro acc cur ap h hacc
    rcases hchild cur ap h with hu | ⟨r, hr, hinv⟩
    · left
      simp only [parse_tuple_subtypes_heap, hu]
    · by_cases hnull : r.ret.is_null = true
      · right
        refine ⟨⟨acc, true, r.new_typestr_start, r.ap, r.heap⟩, ?_, ?_, by simp, by simp⟩
        · simp only [parse_tuple_subtypes_heap, hr, hnull, if_true]
        · have e := (descriptor_is_null_iff _).mp hnull
          rw [e] at hinv
          have hs := heap_inv_list_snoc h0 h r.heap acc descriptor.null hacc hinv
          refine heap_inv_list_congr _ _ _ _ hacc.2.1 ?_ hs
          rw [owned_list_append]
          simp [owned_list, owned]
      · have hstep : parse_tuple_subtypes_heap child (k + 1) acc cur ap h =
            parse_tuple_subtypes_heap child k (acc ++ [r.ret]) r.new_typestr_start r.ap
              r.heap := by
          simp only [parse_tuple_subtypes_heap, hr, hnull]
          simp
        rw [hstep]
        rcases ih (acc ++ [r.ret]) _ _ _ (heap_inv_list_snoc h0 h r.heap acc r.ret hacc hinv)
          with hu | ⟨st, hst, hi, hlen, hlen2⟩
        · exact Or.inl hu
        · refine Or.inr ⟨st, hst, hi, ?_, ?_⟩
          · simp only [List.length_append, List.length_singleton] at hlen
            omega
          · intro hf
            have := hlen2 hf
            simp only [List.length_append, List.length_singleton] at this
            omega

/-- An unmatched opening delimiter: the zeroed node is freed. -/
theorem error_return_fresh_node (h : heap_state) (ap : List Int) (nts : Nat) :
    error_return (descriptor.node h.next adiak_type_unset adiak_numerical_unset 0 0 [])
        ap nts h.malloc = Run.undef ∨
    ∃ r, error_return (descriptor.node h.next adiak_type_unset adiak_numerical_unset 0 0 [])
        ap nts h.malloc = Run.done r ∧ heap_inv h r.heap r.ret := by
  obtain ⟨r, hr, hnull, _, hinv⟩ := error_return_inv h h.malloc
    (descriptor.node h.next adiak_type_unset adiak_numerical_unset 0 0 []) ap nts
    (heap_inv_node h h.malloc _ _ _ 0 [] (heap_inv_list_refl _) rfl)
  exact Or.inr ⟨r, hr, by rw [hnull]; exact hinv⟩

/-- The end of the set, list and range branches, after the call for the only subtype. -/
theorem single_subtype_heap_inv (h : heap_state) (d : adiak_type_t) (nu : adiak_numerical_t)
    (ne : Int) (nts eb : Nat) (sub : Run heap_result)
    (hsub : sub = Run.undef ∨ ∃ r, sub = Run.done r ∧ heap_inv h.malloc r.heap r.ret) :
    (match sub with
      | Run.undef => Run.undef
      | Run.fuel => Run.fuel
      | Run.done r =>
        if r.ret.is_null then
          error_return (descriptor.node h.next d nu ne 1 [descriptor.null]) r.ap nts r.heap
        else
          Run.done ⟨descriptor.node h.next d nu ne 1 [r.ret], r.ap, eb + 1, r.heap⟩) =
        Run.undef ∨
    ∃ r1, (match sub with
      | Run.undef => Run.undef
      | Run.fuel => Run.fuel
      | Run.done r =>
        if r.ret.is_null then
          error_return (descriptor.node h.next d nu ne 1 [descriptor.null]) r.ap nts r.heap
        else
          Run.done ⟨descriptor.node h.next d nu ne 1 [r.ret], r.ap, eb + 1, r.heap⟩) =
        Run.done r1 ∧ heap_inv h r1.heap r1.ret := by
  rcases hsub with hu | ⟨r, hr, hinv⟩
  · left
    rw [hu]
  · right
    rw [hr]
    have hnode : heap_inv h r.heap (descriptor.node h.next d nu ne 1 [r.ret]) :=
      heap_inv_node h r.heap d nu ne 1 [r.ret] (heap_inv_list_single _ _ _ hinv) rfl
    by_cases hnull : r.ret.is_null = true
    · have e := (descriptor_is_null_iff _).mp hnull
      rw [e] at hnode
      obtain ⟨r1, hr1, hn1, _, hi1⟩ := error_return_inv h r.heap _ r.ap nts hnode
      refine ⟨r1, ?_, by rw [hn1]; exact hi1⟩
      simp only [hnull, if_true]
      exact hr1
    · refine ⟨⟨descriptor.node h.next d nu ne 1 [r.ret], r.ap, eb + 1, r.heap⟩, ?_, hnode⟩
      simp only [hnull]
      simp

/-- The end of the tuple branch, after the loop over the subtypes. -/
theorem tuple_heap_inv (h : heap_state) (n : Int) (nts : Nat) (loop : Run tuple_state_heap)
    (hloop : loop = Run.undef ∨
      ∃ st, loop = Run.done st ∧ heap_inv_list h.malloc st.heap st.subtypes ∧
        st.subtypes.length ≤ n.toNat ∧ (st.failed = false → st.subtypes.length = n.toNat)) :
    (match loop with
      | Run.undef => Run.undef
      | Run.fuel => Run.fuel
      | Run.done st =>
        if st.failed then
          error_return (descriptor.node h.next adiak_tuple adiak_categorical n n
            (st.subtypes ++ List.replicate (n.toNat - st.subtypes.length)
              descriptor.null)) st.ap nts st.heap
        else
          Run.done ⟨descriptor.node h.next adiak_tuple adiak_categorical n n st.subtypes,
            st.ap, nts, st.heap⟩) = Run.undef ∨
    ∃ r1, (match loop with
      | Run.undef => Run.undef
      | Run.fuel => Run.fuel
      | Run.done st =>
        if st.failed then
          error_return (descriptor.node h.next adiak_tuple adiak_categorical n n
            (st.subtypes ++ List.replicate (n.toNat - st.subtypes.length)
              descriptor.null)) st.ap nts st.heap
        else
          Run.done ⟨descriptor.node h.next adiak_tuple adiak_categorical n n st.subtypes,
            st.ap, nts, st.heap⟩) = Run.done r1 ∧ heap_inv h r1.heap r1.ret := by
  rcases hloop with hu | ⟨st, hst, hinv, hlen, hlen2⟩
  · left
    rw [hu]
  · right
    rw [hst]
    by_cases hf : st.failed = true
    · have hpad : heap_inv_list h.malloc st.heap
          (st.subtypes ++ List.replicate (n.toNat - st.subtypes.length) descriptor.null) := by
        refine heap_inv_list_congr _ _ _ _ ?_ ?_ hinv
        · rw [wf_list_append]
          exact ⟨hinv.2.1, wf_list_replicate_null _⟩
        · rw [owned_list_append, owned_list_replicate_null, List.append_nil]
      have hnode := heap_inv_node h st.heap adiak_tuple adiak_categorical n n _ hpad
        (by simp only [List.length_append, List.length_replicate]; omega)
      obtain ⟨r1, hr1, hn1, _, hi1⟩ := error_return_inv h st.heap _ st.ap nts hnode
      refine ⟨r1, ?_, by rw [hn1]; exact hi1⟩
      simp only [hf, if_true]
      exact hr1
    · have hf2 : st.failed = false := by simpa using hf
      refine ⟨⟨descriptor.node h.next adiak_tuple adiak_categorical n n st.subtypes,
        st.ap, nts, st.heap⟩, ?_,
        heap_inv_node h st.heap adiak_tuple adiak_categorical n n _ hinv (hlen2 hf2).symm⟩
      simp only [hf2]
      simp

/-- With more fuel than `typestr_end`, `parse_typestr_helper` on the heap is undefined or
returns, and then the returned tree owns the nodes the call allocated and did not free; every
other node allocated by the call has been freed once, and nothing else has been freed. -/
theorem parse_typestr_helper_heap_inv (typestr : List Char) :
    ∀ (fuel st en : Nat) (ap : List Int) (nts : Nat) (h : heap_state), en < fuel →
      parse_typestr_helper_heap fuel typestr st en ap nts h = Run.undef ∨
      ∃ r, parse_typestr_helper_heap fuel typestr st en ap nts h = Run.done r ∧
        heap_inv h r.heap r.ret := by
  intro fuel
  induction fuel with
  | zero => intro st en ap nts h hlt; omega
  | succ fuel ih =>
    intro st en ap nts h hlt
    simp only [parse_typestr_helper_heap]
    split
    · exact Or.inr ⟨_, rfl, heap_inv_refl h⟩
    · split
      · split
        · exact error_return_fresh_node h ap nts
        · rename_i eb heb
          have hb := find_end_brace_bounds _ _ _ _ _ heb
          split
          · exact Or.inl rfl
          · exact single_subtype_heap_inv h _ _ _ nts eb _ (ih _ _ _ _ _ (by omega))
      · split
        · split
          · exact error_return_fresh_node h ap nts
          · rename_i eb heb
            have hb := find_end_brace_bounds _ _ _ _ _ heb
            exact single_subtype_heap_inv h _ _ _ nts eb _ (ih _ _ _ _ _ (by omega))
        · split
          · split
            · exact error_return_fresh_node h ap nts
            · rename_i eb heb
              have hb := find_end_brace_bounds _ _ _ _ _ heb
              split
              · exact Or.inl rfl
              · split
                · exact Or.inl rfl
                · refine tuple_heap_inv h _ nts _ ?_
                  rcases parse_tuple_subtypes_heap_inv _ h.malloc
                    (fun cur1 ap2 h2 => ih cur1 eb ap2 cur1 h2 (by omega)) _ [] _ _ h.malloc
                    (heap_inv_list_refl _) with hu | ⟨s1, hs1, hi1, hl1, hl2⟩
                  · exact Or.inl hu
                  · refine Or.inr ⟨s1, hs1, hi1, ?_, ?_⟩
                    · simpa using hl1
                    · intro hf
                      simpa using hl2 hf
          · split
            · split
              · exact Or.inr ⟨_, rfl, heap_inv_refl h⟩
              · exact Or.inr ⟨_, rfl, heap_inv_static h _⟩
            · split
              · exact Or.inr ⟨_, rfl, heap_inv_node h h.malloc _ _ _ 0 []
                  (heap_inv_list_refl _) rfl⟩
              · exact Or.inr ⟨_, rfl, heap_inv_refl h⟩


theorem forget_addresses_none_iff (t : descriptor) :
    forget_addresses t = none ↔ t.is_null = true := by
  cases t <;> simp [forget_addresses, descriptor.is_null]

theorem forget_addresses_list_single (t : descriptor) (x : adiak_datatype_t)
    (h : forget_addresses t = some x) : forget_addresses_list [t] = [x] := by
  simp [forget_addresses_list, h]

theorem forget_addresses_list_cons (t : descriptor) (ts : List descriptor)
    (x : adiak_datatype_t) (h : forget_addresses t = some x) :
    forget_addresses_list (t :: ts) = x :: forget_addresses_list ts := by
  simp [forget_addresses_list, h]

/-- The loop of the tuple branch on the heap runs as the loop of `parse_tuple_subtypes`. -/
theorem parse_tuple_subtypes_heap_forget
    (childh : Nat → List Int → heap_state → Run heap_result)
    (child : Nat → List Int → Run parse_result)
    (hchild : ∀ cur ap h, forget_heap (childh cur ap h) = child cur ap) :
    ∀ (k : Nat) (acc : List descriptor) (cur : Nat) (ap : List Int) (h : heap_state),
      (parse_tuple_subtypes_heap childh k acc cur ap h = Run.undef →
        parse_tuple_subtypes child k cur ap = Run.undef) ∧
      (parse_tuple_subtypes_heap childh k acc cur ap h = Run.fuel →
        parse_tuple_subtypes child k cur ap = Run.fuel) ∧
      (∀ st, parse_tuple_subtypes_heap childh k acc cur ap h = Run.done st →
        ∃ tail, st.subtypes = acc ++ tail ∧
          parse_tuple_subtypes child k cur ap =
            Run.done ⟨if st.failed then none else some (forget_addresses_list tail),
              st.cur, st.ap⟩) := by
  intro k
  induction k with
  | zero =>
    intro acc cur ap h
    simp only [parse_tuple_subtypes_heap, parse_tuple_subtypes]
    refine ⟨by simp, by simp, ?_⟩
    intro st hst
    simp only [Run.done.injEq] at hst
    subst hst
    exact ⟨[], by simp, by simp [forget_addresses_list]⟩
  | succ k ih =>
    intro acc cur ap h
    have hc := hchild cur ap h
    cases hch : childh cur ap h with
    | undef =>
      rw [hch] at hc
      simp only [forget_heap] at hc
      simp [parse_tuple_subtypes_heap, parse_tuple_subtypes, hch, ← hc]
    | fuel =>
      rw [hch] at hc
      simp only [forget_heap] at hc
      simp [parse_tuple_subtypes_heap, parse_tuple_subtypes, hch, ← hc]
    | done r =>
      rw [hch] at hc
      simp only [forget_heap] at hc
      by_cases hnull : r.ret.is_null = true
      · have hnone := (forget_addresses_none_iff r.ret).mpr hnull
        rw [hnone] at hc
        simp only [parse_tuple_subtypes_heap, parse_tuple_subtypes, hch, hnull, if_true, ← hc]
        refine ⟨by simp, by simp, ?_⟩
        intro st hst
        simp only [Run.done.injEq] at hst
        subst hst
        exact ⟨[], by simp, by simp⟩
      · cases hsub : forget_addresses r.ret with
        | none => exact absurd ((forget_addresses_none_iff r.ret).mp hsub) hnull
        | some sub =>
          rw [hsub] at hc
          have hstep : parse_tuple_subtypes_heap childh (k + 1) acc cur ap h =
              parse_tuple_subtypes_heap childh k (acc ++ [r.ret]) r.new_typestr_start r.ap
                r.heap := by
            simp only [parse_tuple_subtypes_heap, hch, hnull]
            simp
          obtain ⟨i1, i2, i3⟩ := ih (acc ++ [r.ret]) r.new_typestr_start r.ap r.heap
          rw [hstep]
          simp only [parse_tuple_subtypes, ← hc]
          refine ⟨?_, ?_, ?_⟩
          · intro hu
            rw [i1 hu]
          · intro hu
            rw [i2 hu]
          · intro st hst
            obtain ⟨tail, ht, hp⟩ := i3 st hst
            refine ⟨r.ret :: tail, by rw [ht]; simp, ?_⟩
            rw [hp]
            by_cases hf : st.failed = true
            · simp [hf]
            · simp [hf, forget_addresses_list_cons _ _ _ hsub]


/-- The label `error`, heap forgotten: `NULL` is returned, the `va_list` and
`*new_typestr_start` are as they were. -/
theorem error_return_forget (h h1 : heap_state) (t : descriptor) (ap : List Int) (nts : Nat)
    (hi : heap_inv h h1 t) :
    forget_heap (error_return t ap nts h1) = Run.done ⟨none, ap, nts⟩ := by
  obtain ⟨r, hr, _, _, _⟩ := error_return_inv h h1 t ap nts hi
  simp only [error_return] at hr ⊢
  cases hf : free_adiak_type t h1 with
  | undef => rw [hf] at hr; simp at hr
  | fuel => rw [hf] at hr; simp at hr
  | done h2 => simp [forget_heap, forget_addresses]

/-- The end of the set, list and range branches, heap forgotten. -/
theorem single_subtype_heap_forget (h : heap_state) (d : adiak_type_t)
    (nu : adiak_numerical_t) (ne : Int) (nts eb : Nat) (sub : Run heap_result)
    (psub : Run parse_result) :
    forget_heap sub = psub →
    (sub = Run.undef ∨ ∃ r, sub = Run.done r ∧ heap_inv h.malloc r.heap r.ret) →
    forget_heap (match sub with
      | Run.undef => Run.undef
      | Run.fuel => Run.fuel
      | Run.done r =>
        if r.ret.is_null then
          error_return (descriptor.node h.next d nu ne 1 [descriptor.null]) r.ap nts r.heap
        else
          Run.done ⟨descriptor.node h.next d nu ne 1 [r.ret], r.ap, eb + 1, r.heap⟩) =
    (match psub with
      | Run.undef => Run.undef
      | Run.fuel => Run.fuel
      | Run.done r =>
        match r.ret with
        | none => Run.done ⟨none, r.ap, nts⟩
        | some s => Run.done ⟨some (adiak_datatype_t.heap d nu ne 1 [s]), r.ap, eb + 1⟩) := by
  intro hf hsub
  rcases hsub with hu | ⟨r, hr, hinv⟩
  · rw [← hf, hu]
    rfl
  · have e2 : forget_heap (Run.done r) =
        Run.done ⟨forget_addresses r.ret, r.ap, r.new_typestr_start⟩ := rfl
    rw [← hf, hr, e2]
    dsimp only
    by_cases hnull : r.ret.is_null = true
    · have e := (descriptor_is_null_iff _).mp hnull
      have hnode : heap_inv h r.heap (descriptor.node h.next d nu ne 1 [r.ret]) :=
        heap_inv_node h r.heap d nu ne 1 [r.ret] (heap_inv_list_single _ _ _ hinv) rfl
      rw [e] at hnode
      rw [if_pos hnull, error_return_forget h r.heap _ r.ap nts hnode, e]
      simp [forget_addresses]
    · cases hs : forget_addresses r.ret with
      | none => exact absurd ((forget_addresses_none_iff r.ret).mp hs) hnull
      | some s =>
        rw [if_neg hnull]
        simp [forget_heap, forget_addresses, forget_addresses_list_single _ _ hs]

/-- The end of the tuple branch, heap forgotten. -/
theorem tuple_heap_forget (h : heap_state) (n : Int) (nts : Nat)
    (loop : Run tuple_state_heap) (ploop : Run tuple_state) :
    ((loop = Run.undef → ploop = Run.undef) ∧ (loop = Run.fuel → ploop = Run.fuel) ∧
      ∀ st, loop = Run.done st → ∃ tail, st.subtypes = [] ++ tail ∧
        ploop = Run.done ⟨if st.failed then none else some (forget_addresses_list tail),
          st.cur, st.ap⟩) →
    (loop = Run.undef ∨
      ∃ st, loop = Run.done st ∧ heap_inv_list h.malloc st.heap st.subtypes ∧
        st.subtypes.length ≤ n.toNat ∧ (st.failed = false → st.subtypes.length = n.toNat)) →
    forget_heap (match loop with
      | Run.undef => Run.undef
      | Run.fuel => Run.fuel
      | Run.done st =>
        if st.failed then
          error_return (descriptor.node h.next adiak_tuple adiak_categorical n n
            (st.subtypes ++ List.replicate (n.toNat - st.subtypes.length)
              descriptor.null)) st.ap nts st.heap
        else
          Run.done ⟨descriptor.node h.next adiak_tuple adiak_categorical n n st.subtypes,
            st.ap, nts, st.heap⟩) =
    (match ploop with
      | Run.undef => Run.undef
      | Run.fuel => Run.fuel
      | Run.done st =>
        match st.subtypes with
        | none => Run.done ⟨none, st.ap, nts⟩
        | some subs =>
          Run.done ⟨some (adiak_datatype_t.heap adiak_tuple adiak_categorical n n subs),
            st.ap, nts⟩) := by
  intro hrel hloop
  obtain ⟨r1, _, r3⟩ := hrel
  rcases hloop with hu | ⟨st, hst, hinv, hlen, hlen2⟩
  · rw [r1 hu, hu]
    rfl
  · obtain ⟨tail, ht, hp⟩ := r3 st hst
    rw [hp, hst]
    by_cases hf : st.failed = true
    · have hpad : heap_inv_list h.malloc st.heap
          (st.subtypes ++ List.replicate (n.toNat - st.subtypes.length) descriptor.null) := by
        refine heap_inv_list_congr _ _ _ _ ?_ ?_ hinv
        · rw [wf_list_append]
          exact ⟨hinv.2.1, wf_list_replicate_null _⟩
        · rw [owned_list_append, owned_list_replicate_null, List.append_nil]
      have hnode := heap_inv_node h st.heap adiak_tuple adiak_categorical n n _ hpad
        (by simp only [List.length_append, List.length_replicate]; omega)
      simp only [hf, if_true]
      exact error_return_forget h st.heap _ st.ap nts hnode
    · have hf2 : st.failed = false := by simpa using hf
      simp only [List.nil_append] at ht
      simp [hf2, forget_heap, forget_addresses, ht]

/-- Run on the heap, `parse_typestr_helper` returns what `parse_typestr_helper` returns. -/
theorem parse_typestr_helper_heap_forget (typestr : List Char) :
    ∀ (fuel st en : Nat) (ap : List Int) (nts : Nat) (h : heap_state), en < fuel →
      forget_heap (parse_typestr_helper_heap fuel typestr st en ap nts h) =
        parse_typestr_helper fuel typestr st en ap nts := by
  intro fuel
  induction fuel with
  | zero => intro st en ap nts h hlt; omega
  | succ fuel ih =>
    intro st en ap nts h hlt
    have hfresh : heap_inv h h.malloc
        (descriptor.node h.next adiak_type_unset adiak_numerical_unset 0 0 []) :=
      heap_inv_node h h.malloc _ _ _ 0 [] (heap_inv_list_refl _) rfl
    simp only [parse_typestr_helper_heap, parse_typestr_helper]
    by_cases hse : st = en
    · rw [if_pos hse, if_pos hse]
      simp [forget_heap, forget_addresses]
    rw [if_neg hse, if_neg hse]
    by_cases hb : char_at typestr (skip_separators typestr st) = '{' ∨
        char_at typestr (skip_separators typestr st) = '['
    · rw [if_pos hb, if_pos hb]
      cases heb : find_end_brace typestr
          (if char_at typestr (skip_separators typestr st) = '{' then '}' else ']')
          (skip_separators typestr st) en with
      | none => exact error_return_forget h h.malloc _ ap nts hfresh
      | some eb =>
        have hbd := find_end_brace_bounds _ _ _ _ _ heb
        cases ap with
        | nil => rfl
        | cons n ap1 =>
          exact single_subtype_heap_forget h _ _ _ nts eb _ _ (ih _ _ _ _ _ (by omega))
            (parse_typestr_helper_heap_inv typestr fuel _ _ _ _ _ (by omega))
    rw [if_neg hb, if_neg hb]
    by_cases hr : char_at typestr (skip_separators typestr st) = '<'
    · rw [if_pos hr, if_pos hr]
      cases heb : find_end_brace typestr '>' (skip_separators typestr st) en with
      | none => exact error_return_forget h h.malloc _ ap nts hfresh
      | some eb =>
        have hbd := find_end_brace_bounds _ _ _ _ _ heb
        exact single_subtype_heap_forget h _ _ _ nts eb _ _ (ih _ _ _ _ _ (by omega))
          (parse_typestr_helper_heap_inv typestr fuel _ _ _ _ _ (by omega))
    rw [if_neg hr, if_neg hr]
    by_cases ht : char_at typestr (skip_separators typestr st) = '('
    · rw [if_pos ht, if_pos ht]
      cases heb : find_end_brace typestr ')' (skip_separators typestr st) en with
      | none => exact error_return_forget h h.malloc _ ap nts hfresh
      | some eb =>
        have hbd := find_end_brace_bounds _ _ _ _ _ heb
        cases ap with
        | nil => rfl
        | cons n ap1 =>
          by_cases hneg : n < 0
          · simp only [hneg, if_true]
            rfl
          · simp only [hneg, if_false]
            refine tuple_heap_forget h n nts _ _ ?_ ?_
            · exact parse_tuple_subtypes_heap_forget _ _
                (fun cur1 ap2 h2 => ih cur1 eb ap2 cur1 h2 (by omega)) _ [] _ _ _
            · rcases parse_tuple_subtypes_heap_inv _ h.malloc
                (fun cur1 ap2 h2 =>
                  parse_typestr_helper_heap_inv typestr fuel cur1 eb ap2 cur1 h2 (by omega))
                n.toNat [] (skip_separators typestr st + 1) ap1 h.malloc
                (heap_inv_list_refl _) with hu | ⟨s1, hs1, hi1, hl1, hl2⟩
              · exact Or.inl hu
              · refine Or.inr ⟨s1, hs1, hi1, ?_, ?_⟩
                · simpa using hl1
                · intro hf
                  simpa using hl2 hf
    rw [if_neg ht, if_neg ht]
    by_cases hp : char_at typestr (skip_separators typestr st) = '%'
    · rw [if_pos hp, if_pos hp]
      cases hsw : scalar_switch
          (decide (char_at typestr (skip_separators typestr st + 1) = 'l'))
          (char_at typestr
            (if decide (char_at typestr (skip_separators typestr st + 1) = 'l') = true
              then skip_separators typestr st + 2 else skip_separators typestr st + 1)) with
      | none => simp [forget_heap, forget_addresses]
      | some b => simp [forget_heap, forget_addresses]
    rw [if_neg hp, if_neg hp]
    by_cases ho : strchr_open (char_at typestr (skip_separators typestr st)) = true
    · rw [if_pos ho, if_pos ho]
      simp [forget_heap, forget_addresses, forget_addresses_list]
    · rw [if_neg ho, if_neg ho]
      simp [forget_heap, forget_addresses]


theorem allocated_nodup (h h1 : heap_state) : (allocated h h1).Nodup := by
  refine List.Nodup.map ?_ (List.nodup_range' _ _)
  intro a b hab
  injection hab

theorem allocated_not_static (h h1 : heap_state) (b : base_object) :
    address.static b ∉ allocated h h1 := by
  simp [allocated]

/-- C17: on the explicit heap of descriptor nodes, whenever `parse_typestr` fails, that is
returns `NULL` (a negative tuple count and an exhausted `va_list` are undefined, not failures),
the call run on the heap returns `NULL` too, every descriptor node allocated during the call
has been freed by `free_adiak_type` exactly once before the call returns (the calls of `free`
made during the call are a permutation of the allocated nodes, without repetition), earlier
subtypes of a tuple included, no static descriptor has been freed, and the live descriptor
nodes are those of before the call. -/
theorem parse_typestr_failure_releases (typestr : List Char) (ap : List Int) (h : heap_state)
    (p : parse_result) (hp : parse_typestr typestr ap = Run.done p) (hnone : p.ret = none) :
    ∃ r, parse_typestr_heap typestr ap h = Run.done r ∧ r.ret = descriptor.null ∧
      r.ap = p.ap ∧ r.heap.live = h.live ∧
      ∃ l, r.heap.freed = h.freed ++ l ∧ l.Perm (allocated h r.heap) ∧ l.Nodup ∧
        ∀ b, address.static b ∉ l := by
  have hf := parse_typestr_helper_heap_forget typestr (strlen typestr + 1) 0 (strlen typestr)
    ap 0 h (Nat.lt_succ_self _)
  have hi := parse_typestr_helper_heap_inv typestr (strlen typestr + 1) 0 (strlen typestr)
    ap 0 h (Nat.lt_succ_self _)
  simp only [parse_typestr] at hp
  simp only [parse_typestr_heap]
  rw [hp] at hf
  rcases hi with hu | ⟨r, hr, hn, _, ⟨l, hl, hperm⟩, ⟨front, hlive, hfront⟩⟩
  · rw [hu] at hf
    simp [forget_heap] at hf
  · rw [hr] at hf
    simp only [forget_heap, Run.done.injEq] at hf
    have hret : forget_addresses r.ret = none := by rw [← hnone, ← hf]
    have hnull : r.ret = descriptor.null :=
      (descriptor_is_null_iff _).mp ((forget_addresses_none_iff _).mp hret)
    rw [hnull] at hperm hfront
    simp only [owned, List.map_nil, List.append_nil] at hperm
    have hfr : front = [] := List.Perm.eq_nil hfront
    refine ⟨r, hr, hnull, by rw [← hf], by rw [hlive, hfr]; rfl, l, hl, hperm, ?_, ?_⟩
    · exact (List.Perm.nodup_iff hperm).mpr (allocated_nodup _ _)
    · intro b hb
      exact allocated_not_static h r.heap b (hperm.subset hb)

/-- In a tuple of two, the list fails on `%x` after the set was parsed: the list node 12, the
set node 11 and the tuple node 10 are freed, in this order. -/
theorem parse_typestr_failure_releases_sibling :
    parse_typestr "([%f],{%x})".toList [2, 3, 4] = Run.done ⟨none, [], 0⟩ ∧
    parse_typestr_heap "([%f],{%x})".toList [2, 3, 4] ⟨10, [3, 4], []⟩ =
      Run.done ⟨descriptor.null, [], 0,
        ⟨13, [3, 4], [address.heap 12, address.heap 11, address.heap 10]⟩⟩ ∧
    ∃ r, parse_typestr_heap "([%f],{%x})".toList [2, 3, 4] ⟨10, [3, 4], []⟩ = Run.done r ∧
      r.ret = descriptor.null ∧ r.ap = [] ∧ r.heap.live = [3, 4] ∧
      ∃ l, r.heap.freed = [] ++ l ∧ l.Perm (allocated ⟨10, [3, 4], []⟩ r.heap) ∧ l.Nodup ∧
        ∀ b, address.static b ∉ l :=
  ⟨rfl, rfl, parse_typestr_failure_releases "([%f],{%x})".toList [2, 3, 4] ⟨10, [3, 4], []⟩
    ⟨none, [], 0⟩ rfl rfl⟩

end Adiak
